import Mathlib

/-!
Shallow embedding of the cixrs matching engine (src/src/libcix and
src/src/server) and proofs about its specified behaviour.

Modelling conventions, used throughout:
* Rust `u32`/`u64` counters and quantities are `Nat`; all arithmetic that the
  source performs on them stays far below the wrap-around boundary except where
  noted, and where wrapping is possible (`u32` quantity aggregation in the L2
  builder) the reduction `% 2^32` is written explicitly.
* Rust `i32` heap pointers (`HeapPtr`) are `Int`, with negative values playing
  the role of the `-1` null sentinel exactly as in the source.
* `f64` prices are modelled as `Int`.  The source compares prices with
  `partial_cmp(..).unwrap_or(Ordering::Equal)` and `>=`/`<=`; on non-NaN
  floats those agree with the total order that `Int` carries, which is the
  only regime the book ever sees.
* `time::Timespec` is a pair of integers ordered lexicographically, matching
  its derived `Ord`.
* Fallible Rust paths (`assert!`, `unwrap`) are modelled with `Option` /
  `Except`: a `none` result is the model of a panic.
* Interior mutability (`Cell`, `Rc`) is modelled by explicit state passing.
-/

namespace Cix

/-! ### Primitive trade types (src/src/libcix/order.rs) -/

/-- Model of `time::Timespec { sec: i64, nsec: i32 }`. -/
structure Timespec where
  sec : Int
  nsec : Int
deriving DecidableEq, Repr

/-- Comparison on integers; the model of both `Ord::cmp` on integer types and
`partial_cmp(..).unwrap_or(Equal)` on (non-NaN) `f64`. -/
def intCmp (x y : Int) : Ordering :=
  if x < y then .lt else if x = y then .eq else .gt

/-- Derived lexicographic `Ord` of `time::Timespec`. -/
def tsCmp (x y : Timespec) : Ordering :=
  match intCmp x.sec y.sec with
  | .eq => intCmp x.nsec y.nsec
  | o => o

/-- Field widths of the packed trading identifier (order.rs lines 36-49). -/
def SYMBOL_BITS : Nat := 20

def SYMBOL_MAX : Nat := 2 ^ SYMBOL_BITS - 1

def METADATA_BITS : Nat := 4

def METADATA_MAX : Nat := 2 ^ METADATA_BITS - 1

def SEQUENCE_BITS : Nat := 40

def SEQUENCE_MAX : Nat := 2 ^ SEQUENCE_BITS - 1

def SEQUENCE_OFFSET : Nat := 0

def METADATA_OFFSET : Nat := SEQUENCE_OFFSET + SEQUENCE_BITS

def SYMBOL_OFFSET : Nat := METADATA_OFFSET + METADATA_BITS

def TRADING_MD_TYPE_MASK : Nat := 1

def TRADING_MD_TYPE_ORDER : Nat := 0

def TRADING_MD_TYPE_EXEC : Nat := 1

def ORDER_MD_SIDE_MASK : Nat := 2

def ORDER_MD_SIDE_BUY : Nat := 2

def ORDER_MD_SIDE_SELL : Nat := 0

/-- Packed 64-bit trading identifier (order.rs `TradingId`).  The `u64`
payload is a `Nat`; `TradingId.new` only ever builds values below `2^64`. -/
structure TradingId where
  val : Nat
deriving DecidableEq, Repr

/-- `TradingId::new` (order.rs lines 69-90): range-check the three fields and
pack them as `symbol-id(20) | metadata(4) | sequence(40)`. -/
def TradingId.new (symbol_id : Nat) (metadata : Nat) (seq : Nat) :
    Except String TradingId :=
  if SYMBOL_MAX < symbol_id then .error "symbol ID too high"
  else if METADATA_MAX < metadata then .error "metadata value too high"
  else if SEQUENCE_MAX < seq then .error "sequence number too high"
  else .ok ⟨(seq <<< SEQUENCE_OFFSET) ||| (metadata <<< METADATA_OFFSET) |||
    (symbol_id <<< SYMBOL_OFFSET)⟩

/-- `TradingId::from_raw`. -/
def TradingId.from_raw (raw : Nat) : TradingId := ⟨raw⟩

/-- `TradingId::raw`. -/
def TradingId.raw (t : TradingId) : Nat := t.val

/-- `TradingId::symbol_id` accessor: `(val >> SYMBOL_OFFSET) & SYMBOL_MAX`. -/
def TradingId.symbol_id (t : TradingId) : Nat :=
  (t.val >>> SYMBOL_OFFSET) &&& SYMBOL_MAX

/-- `TradingId::metadata` accessor. -/
def TradingId.metadata (t : TradingId) : Nat :=
  (t.val >>> METADATA_OFFSET) &&& METADATA_MAX

/-- `TradingId::sequence` accessor. -/
def TradingId.sequence (t : TradingId) : Nat :=
  (t.val >>> SEQUENCE_OFFSET) &&& SEQUENCE_MAX

/-- Order side (order.rs `OrderSide`). -/
inductive OrderSide where
  | Buy
  | Sell
deriving DecidableEq, Repr

instance : Inhabited OrderSide := ⟨.Buy⟩

/-- Wrapped trading id for orders (order.rs `OrderId`). -/
structure OrderId where
  id : TradingId
deriving DecidableEq, Repr

/-- `OrderId::new` (order.rs lines 127-136): metadata is the order type bit
`or`-ed with the side bit. -/
def OrderId.new (symbol_id : Nat) (side : OrderSide) (seq : Nat) :
    Except String OrderId :=
  let md := TRADING_MD_TYPE_ORDER ||| (match side with
    | OrderSide.Buy => ORDER_MD_SIDE_BUY
    | OrderSide.Sell => ORDER_MD_SIDE_SELL)
  (TradingId.new symbol_id md seq).map (fun t => ⟨t⟩)

/-- `OrderId::from_raw`: reject raw values whose type bit says execution. -/
def OrderId.from_raw (raw : Nat) : Except String OrderId :=
  let id := TradingId.from_raw raw
  if (id.metadata &&& TRADING_MD_TYPE_MASK) ≠ TRADING_MD_TYPE_ORDER then
    .error "id does not represent order"
  else .ok ⟨id⟩

/-- `OrderId::raw`. -/
def OrderId.raw (o : OrderId) : Nat := o.id.raw

/-- `OrderId::symbol_id`. -/
def OrderId.symbol_id (o : OrderId) : Nat := o.id.symbol_id

/-- `OrderId::side` (order.rs lines 157-162): buy iff metadata bit 1 set. -/
def OrderId.side (o : OrderId) : OrderSide :=
  if o.id.metadata &&& ORDER_MD_SIDE_MASK = ORDER_MD_SIDE_BUY then .Buy
  else .Sell

/-- `OrderId::sequence`. -/
def OrderId.sequence (o : OrderId) : Nat := o.id.sequence

/-- `Default for OrderId`: highest symbol id, buy, highest sequence. -/
def OrderId.defaultId : OrderId :=
  ⟨⟨(SEQUENCE_MAX <<< SEQUENCE_OFFSET) |||
    ((TRADING_MD_TYPE_ORDER ||| ORDER_MD_SIDE_BUY) <<< METADATA_OFFSET) |||
    (SYMBOL_MAX <<< SYMBOL_OFFSET)⟩⟩

instance : Inhabited OrderId := ⟨OrderId.defaultId⟩

/-- Wrapped trading id for executions (order.rs `ExecutionId`). -/
structure ExecutionId where
  id : TradingId
deriving DecidableEq, Repr

/-- `ExecutionId::new`: metadata is the execution type bit. -/
def ExecutionId.new (symbol_id : Nat) (seq : Nat) : Except String ExecutionId :=
  (TradingId.new symbol_id TRADING_MD_TYPE_EXEC seq).map (fun t => ⟨t⟩)

/-- Fixed-width symbol (order.rs `Symbol`): eight bytes, zero padded.  The
byte array is a list of naturals; equality is byte-wise as in the source. -/
structure Symbol where
  s : List Nat
deriving DecidableEq, Repr

instance : Inhabited Symbol := ⟨⟨List.replicate 8 0⟩⟩

/-- Error codes surfaced through order acks (order.rs `ErrorCode`). -/
inductive ErrorCode where
  | Success
  | DuplicateId
  | Other
deriving DecidableEq, Repr

/-- A limit order (order.rs `Order`).  `price` models the `f64` field and
`update` the admission timestamp. -/
structure Order where
  id : OrderId
  user : Nat
  symbol : Symbol
  side : OrderSide
  price : Int
  quantity : Nat
  update : Timespec
deriving DecidableEq, Repr

instance : Inhabited Order :=
  ⟨⟨OrderId.defaultId, 0, default, .Buy, 0, 0, ⟨0, 0⟩⟩⟩

/-- One price level of market data (order.rs `MdEntry`). -/
structure MdEntry where
  price : Int
  quantity : Nat
deriving DecidableEq, Repr

instance : Inhabited MdEntry := ⟨⟨0, 0⟩⟩

/-- An execution record (order.rs `Execution`). -/
structure Execution where
  id : ExecutionId
  ts : Timespec
  buy_order : OrderId
  buy_user : Nat
  sell_order : OrderId
  sell_user : Nat
  symbol : Symbol
  price : Int
  quantity : Nat
deriving DecidableEq, Repr

/-! ### Codec round-trip facts (claim C8) -/

theorem tradingId_new_ok {symbol_id metadata seq : Nat}
    (hs : symbol_id ≤ SYMBOL_MAX) (hm : metadata ≤ METADATA_MAX)
    (hq : seq ≤ SEQUENCE_MAX) :
    TradingId.new symbol_id metadata seq =
      .ok ⟨(seq <<< SEQUENCE_OFFSET) ||| (metadata <<< METADATA_OFFSET) |||
        (symbol_id <<< SYMBOL_OFFSET)⟩ := by
  unfold TradingId.new
  rw [if_neg (by omega), if_neg (by omega), if_neg (by omega)]

theorem packed_testBit (symbol_id metadata seq : Nat) (i : Nat) :
    Nat.testBit ((seq <<< SEQUENCE_OFFSET) ||| (metadata <<< METADATA_OFFSET) |||
      (symbol_id <<< SYMBOL_OFFSET)) i =
      (Nat.testBit seq i || (decide (40 ≤ i) && Nat.testBit metadata (i - 40)) ||
        (decide (44 ≤ i) && Nat.testBit symbol_id (i - 44))) := by
  simp [Nat.testBit_lor, Nat.testBit_shiftLeft, SEQUENCE_OFFSET, METADATA_OFFSET,
    SYMBOL_OFFSET, SEQUENCE_BITS, METADATA_BITS]

theorem packed_symbol_id {symbol_id metadata seq : Nat}
    (hs : symbol_id < 2 ^ 20) (hm : metadata < 2 ^ 4) (hq : seq < 2 ^ 40) :
    TradingId.symbol_id ⟨(seq <<< SEQUENCE_OFFSET) |||
      (metadata <<< METADATA_OFFSET) ||| (symbol_id <<< SYMBOL_OFFSET)⟩ =
      symbol_id := by
  have hmask : SYMBOL_MAX = 2 ^ 20 - 1 := rfl
  unfold TradingId.symbol_id
  apply Nat.eq_of_testBit_eq
  intro i
  rw [hmask, Nat.testBit_and, Nat.testBit_shiftRight, packed_testBit,
    Nat.testBit_two_pow_sub_one]
  have h1 : Nat.testBit seq (SYMBOL_OFFSET + i) = false :=
    Nat.testBit_lt_two_pow (lt_of_lt_of_le hq (Nat.pow_le_pow_right (by omega)
      (by unfold SYMBOL_OFFSET METADATA_OFFSET SEQUENCE_OFFSET SEQUENCE_BITS
            METADATA_BITS; omega)))
  have h2 : Nat.testBit metadata (SYMBOL_OFFSET + i - 40) = false :=
    Nat.testBit_lt_two_pow (lt_of_lt_of_le hm (Nat.pow_le_pow_right (by omega)
      (by unfold SYMBOL_OFFSET METADATA_OFFSET SEQUENCE_OFFSET SEQUENCE_BITS
            METADATA_BITS; omega)))
  have hoff : SYMBOL_OFFSET + i - 44 = i := by
    unfold SYMBOL_OFFSET METADATA_OFFSET SEQUENCE_OFFSET SEQUENCE_BITS
      METADATA_BITS
    omega
  rw [h1, h2, hoff]
  have h44 : decide (44 ≤ SYMBOL_OFFSET + i) = true := by
    simp [SYMBOL_OFFSET, METADATA_OFFSET, SEQUENCE_OFFSET, SEQUENCE_BITS,
      METADATA_BITS]
  rw [h44]
  by_cases hi : i < 20
  · simp [hi]
  · have : Nat.testBit symbol_id i = false :=
      Nat.testBit_lt_two_pow (lt_of_lt_of_le hs
        (Nat.pow_le_pow_right (by omega) (by omega)))
    simp [hi, this]

theorem packed_metadata {symbol_id metadata seq : Nat}
    (hs : symbol_id < 2 ^ 20) (hm : metadata < 2 ^ 4) (hq : seq < 2 ^ 40) :
    TradingId.metadata ⟨(seq <<< SEQUENCE_OFFSET) |||
      (metadata <<< METADATA_OFFSET) ||| (symbol_id <<< SYMBOL_OFFSET)⟩ =
      metadata := by
  have hmask : METADATA_MAX = 2 ^ 4 - 1 := rfl
  unfold TradingId.metadata
  apply Nat.eq_of_testBit_eq
  intro i
  rw [hmask, Nat.testBit_and, Nat.testBit_shiftRight, packed_testBit,
    Nat.testBit_two_pow_sub_one]
  simp only [show METADATA_OFFSET = 40 from rfl]
  have h1 : Nat.testBit seq (40 + i) = false :=
    Nat.testBit_lt_two_pow (lt_of_lt_of_le hq
      (Nat.pow_le_pow_right (by omega) (by omega)))
  have h2 : 40 + i - 40 = i := by omega
  rw [h1, h2]
  by_cases hi : i < 4
  · have h3 : decide (44 ≤ 40 + i) = false := by
      simp only [decide_eq_false_iff_not]
      omega
    simp [hi, h3]
  · have h3 : Nat.testBit metadata i = false :=
      Nat.testBit_lt_two_pow (lt_of_lt_of_le hm
        (Nat.pow_le_pow_right (by omega) (by omega)))
    simp [hi, h3]

theorem packed_sequence {symbol_id metadata seq : Nat}
    (hs : symbol_id < 2 ^ 20) (hm : metadata < 2 ^ 4) (hq : seq < 2 ^ 40) :
    TradingId.sequence ⟨(seq <<< SEQUENCE_OFFSET) |||
      (metadata <<< METADATA_OFFSET) ||| (symbol_id <<< SYMBOL_OFFSET)⟩ =
      seq := by
  have hmask : SEQUENCE_MAX = 2 ^ 40 - 1 := rfl
  unfold TradingId.sequence
  apply Nat.eq_of_testBit_eq
  intro i
  rw [hmask, Nat.testBit_and, Nat.testBit_shiftRight, packed_testBit,
    Nat.testBit_two_pow_sub_one]
  have hz : SEQUENCE_OFFSET + i = i := by unfold SEQUENCE_OFFSET; omega
  rw [hz]
  by_cases hi : i < 40
  · have h2 : decide (40 ≤ i) = false := by simp; omega
    have h3 : decide (44 ≤ i) = false := by simp; omega
    simp [hi, h2, h3]
  · have h3 : Nat.testBit seq i = false :=
      Nat.testBit_lt_two_pow (lt_of_lt_of_le hq
        (Nat.pow_le_pow_right (by omega) (by omega)))
    simp [hi, h3]

theorem orderId_metadata_lt {side : OrderSide} :
    (TRADING_MD_TYPE_ORDER ||| (match side with
      | OrderSide.Buy => ORDER_MD_SIDE_BUY
      | OrderSide.Sell => ORDER_MD_SIDE_SELL)) < 2 ^ 4 := by
  cases side <;> decide

/-- Claim C8: for `symbol_id < 2^20`, any side, and `seq < 2^40`,
`OrderId::new` succeeds and the three accessors recover exactly the inputs
from the packed 64-bit value; `new` fails whenever `symbol_id` or `seq`
exceeds its field width. -/
theorem orderId_roundTrip (symbol_id : Nat) (side : OrderSide) (seq : Nat)
    (hs : symbol_id < 2 ^ 20) (hq : seq < 2 ^ 40) :
    (∃ oid : OrderId, OrderId.new symbol_id side seq = .ok oid ∧
      oid.symbol_id = symbol_id ∧ oid.side = side ∧ oid.sequence = seq) ∧
    (∀ s' q', 2 ^ 20 ≤ s' → ∃ e, OrderId.new s' side q' = .error e) ∧
    (∀ s' q', s' < 2 ^ 20 → 2 ^ 40 ≤ q' →
      ∃ e, OrderId.new s' side q' = .error e) := by
  refine ⟨?_, ?_, ?_⟩
  · cases side with
    | Buy =>
      refine ⟨⟨⟨(seq <<< SEQUENCE_OFFSET) |||
        ((TRADING_MD_TYPE_ORDER ||| ORDER_MD_SIDE_BUY) <<< METADATA_OFFSET) |||
        (symbol_id <<< SYMBOL_OFFSET)⟩⟩, ?_, ?_, ?_, ?_⟩
      · show Except.map _ (TradingId.new symbol_id
          (TRADING_MD_TYPE_ORDER ||| ORDER_MD_SIDE_BUY) seq) = _
        rw [tradingId_new_ok (by unfold SYMBOL_MAX SYMBOL_BITS; omega)
          (by decide) (by unfold SEQUENCE_MAX SEQUENCE_BITS; omega)]
        rfl
      · exact packed_symbol_id hs (by decide) hq
      · unfold OrderId.side
        show (if TradingId.metadata _ &&& ORDER_MD_SIDE_MASK = _
          then _ else _) = _
        rw [packed_metadata hs (by decide) hq]
        decide
      · exact packed_sequence hs (by decide) hq
    | Sell =>
      refine ⟨⟨⟨(seq <<< SEQUENCE_OFFSET) |||
        ((TRADING_MD_TYPE_ORDER ||| ORDER_MD_SIDE_SELL) <<< METADATA_OFFSET) |||
        (symbol_id <<< SYMBOL_OFFSET)⟩⟩, ?_, ?_, ?_, ?_⟩
      · show Except.map _ (TradingId.new symbol_id
          (TRADING_MD_TYPE_ORDER ||| ORDER_MD_SIDE_SELL) seq) = _
        rw [tradingId_new_ok (by unfold SYMBOL_MAX SYMBOL_BITS; omega)
          (by decide) (by unfold SEQUENCE_MAX SEQUENCE_BITS; omega)]
        rfl
      · exact packed_symbol_id hs (by decide) hq
      · unfold OrderId.side
        show (if TradingId.metadata _ &&& ORDER_MD_SIDE_MASK = _
          then _ else _) = _
        rw [packed_metadata hs (by decide) hq]
        decide
      · exact packed_sequence hs (by decide) hq
  · intro s' q' h
    refine ⟨"symbol ID too high", ?_⟩
    cases side <;>
    · show Except.map _ (TradingId.new s' _ q') = _
      unfold TradingId.new
      rw [if_pos (by unfold SYMBOL_MAX SYMBOL_BITS; omega)]
      rfl
  · intro s' q' h1 h2
    refine ⟨"sequence number too high", ?_⟩
    cases side <;>
    · show Except.map _ (TradingId.new s' _ q') = _
      unfold TradingId.new
      rw [if_neg (by unfold SYMBOL_MAX SYMBOL_BITS; omega),
        if_neg (by decide), if_pos (by unfold SEQUENCE_MAX SEQUENCE_BITS; omega)]
      rfl

/-- Witness for `orderId_roundTrip` at concrete inputs. -/
theorem orderId_roundTrip_witness :
    (∃ oid : OrderId, OrderId.new 3 .Buy 7 = .ok oid ∧
      oid.symbol_id = 3 ∧ oid.side = .Buy ∧ oid.sequence = 7) ∧
    (∀ s' q', 2 ^ 20 ≤ s' → ∃ e, OrderId.new s' .Buy q' = .error e) ∧
    (∀ s' q', s' < 2 ^ 20 → 2 ^ 40 ≤ q' →
      ∃ e, OrderId.new s' .Buy q' = .error e) :=
  orderId_roundTrip 3 .Buy 7 (by decide) (by decide)

/-! ### Indexed max-heap (src/src/libcix/heap.rs)

The heap is a slot pool indexed by `HeapPtr = i32`, with `-1` as the null
sentinel.  Slots never move; a `HeapHandle` is a slot index.  `Cell`-based
metadata mutation is modelled by rebuilding the pool with `List.set`.
Recursive and looping routines (`pull_up`, `insert_node`, `decrement_size`,
`validate_node`) take an explicit fuel argument; callers pass the pool
length, which bounds the recursion depth in every state the source reaches
(each recursive call descends strictly inside a finite tree of live slots).
Exhausted fuel is the model of non-termination and never fires in the
states for which theorems below are claimed. -/

/-- Rust `HeapPtr = i32`; negative means null. -/
abbrev HeapPtr := Int

/-- `HeapHandle { index: HeapPtr }`: a stable slot index. -/
abbrev HeapHandle := Int

/-- Per-slot metadata (heap.rs `HeapNodeMd`). -/
structure HeapNodeMd where
  parent : HeapPtr
  left_child : HeapPtr
  right_child : HeapPtr
  size : Nat
deriving DecidableEq, Repr

/-- `HeapNodeMd::default` / `reset`: no parent, no children, size one. -/
def mdReset : HeapNodeMd := ⟨-1, -1, -1, 1⟩

/-- A pool slot (heap.rs `HeapNode`). -/
structure HeapNode (T : Type) where
  value : T
  md : HeapNodeMd
deriving DecidableEq, Repr

instance [Inhabited T] : Inhabited (HeapNode T) := ⟨⟨default, mdReset⟩⟩

/-- The heap itself (heap.rs `TreeHeap`): root pointer, slot pool, and the
LIFO free list.  The comparator, a static type parameter in Rust, is passed
to each operation as a function.  The Rust free list is a `Vec` popped and
pushed at its end; the model stores that `Vec` reversed, so its end is the
head of the list. -/
structure TreeHeap (T : Type) where
  root : HeapPtr
  pool : List (HeapNode T)
  free_list : List HeapPtr
deriving DecidableEq, Repr

namespace TreeHeap

variable {T : Type} [Inhabited T]

/-- `TreeHeap::new(capacity)`: full pool of default nodes; free list holding
every slot with slot 0 popped first. -/
def new (capacity : Nat) : TreeHeap T :=
  ⟨-1, List.replicate capacity ⟨default, mdReset⟩,
    (List.range capacity).map Int.ofNat⟩

/-- Read a slot.  The source asserts the index is in range; all states the
theorems below concern keep every followed pointer in range, so the default
value is never produced there. -/
def getNode (h : TreeHeap T) (i : HeapPtr) : HeapNode T :=
  if i < 0 then default else (h.pool.get? i.toNat).getD default

/-- Write a slot (no-op on a negative index, which the source would assert
against). -/
def setNode (h : TreeHeap T) (i : HeapPtr) (n : HeapNode T) : TreeHeap T :=
  if i < 0 then h else { h with pool := h.pool.set i.toNat n }

/-- `get_node_md`. -/
def getMd (h : TreeHeap T) (i : HeapPtr) : HeapNodeMd := (h.getNode i).md

/-- `set_node_md`. -/
def setMd (h : TreeHeap T) (i : HeapPtr) (md : HeapNodeMd) : TreeHeap T :=
  h.setNode i { h.getNode i with md := md }

/-- `TreeHeap::is_empty`. -/
def is_empty (h : TreeHeap T) : Bool := h.root < 0

/-- `TreeHeap::capacity` (the pool never grows, so capacity = length). -/
def capacity (h : TreeHeap T) : Nat := h.pool.length

/-- `TreeHeap::peek`: the root handle, if any. -/
def peek (h : TreeHeap T) : Option HeapHandle :=
  if h.root < 0 then none else some h.root

/-- `TreeHeap::get`. -/
def get (h : TreeHeap T) (hd : HeapHandle) : T := (h.getNode hd).value

/-- `update_size` (heap.rs lines 181-194): recompute a node's size from its
children. -/
def update_size (h : TreeHeap T) (index : HeapPtr) : TreeHeap T :=
  let node := h.getMd index
  let s1 := if 0 ≤ node.left_child then (h.getMd node.left_child).size else 0
  let s2 := if 0 ≤ node.right_child then (h.getMd node.right_child).size else 0
  h.setMd index { node with size := 1 + s1 + s2 }

/-- `decrement_size` (heap.rs lines 196-203): walk the parent chain
decrementing sizes. -/
def decrement_size : Nat → TreeHeap T → HeapPtr → TreeHeap T
  | 0, h, _ => h
  | fuel + 1, h, i =>
    if i < 0 then h
    else
      let md := h.getMd i
      decrement_size fuel (h.setMd i { md with size := md.size - 1 }) md.parent

/-- `pull_up` (heap.rs lines 205-257): merge the two subtrees below a removed
node, returning the new subtree head. -/
def pull_up (cmp : T → T → Ordering) :
    Nat → TreeHeap T → HeapPtr → HeapPtr → TreeHeap T × HeapPtr
  | 0, h, _, _ => (h, -1)
  | fuel + 1, h, left, right =>
    if left < 0 then (h, right)
    else if right < 0 then (h, left)
    else
      let go_left := match cmp (h.getNode left).value (h.getNode right).value with
        | .gt => true
        | _ => false
      if go_left then
        let left_md := h.getMd left
        let res := pull_up cmp fuel h left_md.left_child left_md.right_child
        let h2 := res.1.setMd left
          { left_md with left_child := res.2, right_child := right }
        let h3 := h2.update_size left
        let h4 := h3.setMd right { h3.getMd right with parent := left }
        (h4, left)
      else
        let right_md := h.getMd right
        let res := pull_up cmp fuel h right_md.left_child right_md.right_child
        let h2 := res.1.setMd right
          { right_md with right_child := res.2, left_child := left }
        let h3 := h2.update_size right
        let h4 := h3.setMd left { h3.getMd left with parent := right }
        (h4, right)

/-- `insert_node` (heap.rs lines 259-356): push a fresh node into the subtree
rooted at `head`, returning the new subtree head. -/
def insert_node (cmp : T → T → Ordering) :
    Nat → TreeHeap T → HeapPtr → HeapPtr → TreeHeap T × HeapPtr
  | 0, h, _, _ => (h, -1)
  | fuel + 1, h, head, new =>
    let pd : HeapPtr × HeapPtr :=
      match cmp (h.getNode head).value (h.getNode new).value with
      | .lt => (new, head)
      | _ => (head, new)
    let parent_index := pd.1
    let descend_index := pd.2
    let head_node := h.getMd head
    let h1 := h.setMd parent_index
      { h.getMd parent_index with size := head_node.size + 1 }
    if head_node.left_child < 0 then
      let h2 := if 0 ≤ head_node.right_child then
          h1.setMd head_node.right_child
            { h1.getMd head_node.right_child with parent := parent_index }
        else h1
      let h3 := h2.setMd parent_index
        { h2.getMd parent_index with
            right_child := head_node.right_child,
            left_child := descend_index }
      let h4 := h3.setMd descend_index ⟨parent_index, -1, -1, 1⟩
      (h4, parent_index)
    else if head_node.right_child < 0 then
      let h2 := h1.setMd head_node.left_child
        { h1.getMd head_node.left_child with parent := parent_index }
      let h3 := h2.setMd parent_index
        { h2.getMd parent_index with
            left_child := head_node.left_child,
            right_child := descend_index }
      let h4 := h3.setMd descend_index ⟨parent_index, -1, -1, 1⟩
      (h4, parent_index)
    else
      let left_size := (h1.getMd head_node.left_child).size
      let right_size := (h1.getMd head_node.right_child).size
      let go_left := left_size ≤ right_size
      let child_index := if go_left then head_node.left_child
        else head_node.right_child
      let res := insert_node cmp fuel h1 child_index descend_index
      let h2 := res.1
      let new_child := res.2
      let pn0 := h2.getMd parent_index
      let pn1 := if go_left then
          { pn0 with
              left_child := new_child,
              right_child := head_node.right_child }
        else
          { pn0 with
              left_child := head_node.left_child,
              right_child := new_child }
      let h3 := h2.setMd pn1.left_child
        { h2.getMd pn1.left_child with parent := parent_index }
      let h4 := h3.setMd pn1.right_child
        { h3.getMd pn1.right_child with parent := parent_index }
      let h5 := h4.setMd parent_index { pn1 with parent := head_node.parent }
      (h5, parent_index)

/-- `TreeHeap::pop` (heap.rs lines 358-365).  The source asserts a non-empty
heap; `none` models that panic.  Note that the popped slot is not pushed on
the free list and the new root keeps its old parent pointer. -/
def pop (cmp : T → T → Ordering) (h : TreeHeap T) : Option (TreeHeap T × T) :=
  if h.root < 0 then none
  else
    let head_index := h.root
    let head := h.getMd head_index
    let res := pull_up cmp h.pool.length h head.left_child head.right_child
    some ({ res.1 with root := res.2 }, (res.1.getNode head_index).value)

/-- `insert_impl` (heap.rs lines 367-375). -/
def insert_impl (cmp : T → T → Ordering) (h : TreeHeap T) (index : HeapPtr) :
    TreeHeap T :=
  if 0 ≤ h.root then
    let res := insert_node cmp h.pool.length h h.root index
    { res.1 with root := res.2 }
  else { h with root := index }

/-- `TreeHeap::insert` (heap.rs lines 377-394): take a slot off the free
list (failing with the heap-full error when it is empty), reset it, store the
value and link it in. -/
def insert (cmp : T → T → Ordering) (h : TreeHeap T) (val : T) :
    Except String (TreeHeap T × HeapHandle) :=
  match h.free_list with
  | [] => .error "heap full"
  | index :: rest =>
    let h1 : TreeHeap T := { h with free_list := rest }
    let h2 := h1.setNode index { value := val, md := mdReset }
    .ok (h2.insert_impl cmp index, index)

/-- `remove_impl` (heap.rs lines 396-425). -/
def remove_impl (cmp : T → T → Ordering) (h : TreeHeap T) (index : HeapPtr) :
    TreeHeap T :=
  let node := h.getMd index
  let res := pull_up cmp h.pool.length h node.left_child node.right_child
  let h1 := res.1
  let replacement := res.2
  if node.parent < 0 then
    let h2 := { h1 with root := replacement }
    if 0 ≤ replacement then
      h2.setMd replacement { h2.getMd replacement with parent := -1 }
    else h2
  else
    let parent := h1.getMd node.parent
    let h2 := if parent.left_child = index then
        h1.setMd node.parent { parent with left_child := replacement }
      else
        -- the source asserts `parent.right_child == index` on this branch
        h1.setMd node.parent { parent with right_child := replacement }
    let h3 := if 0 ≤ replacement then
        h2.setMd replacement { h2.getMd replacement with parent := node.parent }
      else h2
    decrement_size h3.pool.length h3 node.parent

/-- `TreeHeap::remove` (heap.rs lines 427-430): unlink and return the slot to
the free list. -/
def remove (cmp : T → T → Ordering) (h : TreeHeap T) (hd : HeapHandle) :
    TreeHeap T :=
  let h1 := h.remove_impl cmp hd
  { h1 with free_list := hd :: h1.free_list }

/-- `TreeHeap::update` (heap.rs lines 435-444): mutate the value in place,
then unlink and re-link the same slot. -/
def update (cmp : T → T → Ordering) (h : TreeHeap T) (hd : HeapHandle)
    (f : T → T) : TreeHeap T :=
  let h1 := h.setNode hd { h.getNode hd with value := f (h.getNode hd).value }
  let h2 := h1.remove_impl cmp hd
  let h3 := h2.setMd hd mdReset
  h3.insert_impl cmp hd

/-- `validate_node` (heap.rs lines 446-492): the source's own invariant
checker.  It asserts that the structure reachable from `i` is a tree (no slot
visited twice), that no child compares greater than its parent, that each
child's parent pointer points back, and that sizes add up.  `none` models an
assertion failure; on success the updated visited set is returned. -/
def validate_node (cmp : T → T → Ordering) :
    Nat → TreeHeap T → HeapPtr → List HeapPtr → Option (List HeapPtr)
  | 0, _, _, _ => none
  | fuel + 1, h, i, visited =>
    if i < 0 then some visited
    else if i ∈ visited then none
    else
      let visited1 := i :: visited
      let node := h.getNode i
      let md := node.md
      let lsize : Option Nat :=
        if 0 ≤ md.left_child then
          let ln := h.getNode md.left_child
          if cmp ln.value node.value ≠ .gt ∧ ln.md.parent = i then
            some ln.md.size
          else none
        else some 0
      let rsize : Option Nat :=
        if 0 ≤ md.right_child then
          let rn := h.getNode md.right_child
          if cmp rn.value node.value ≠ .gt ∧ rn.md.parent = i then
            some rn.md.size
          else none
        else some 0
      match lsize, rsize with
      | some ls, some rs =>
        if md.size = ls + rs + 1 then
          match validate_node cmp fuel h md.left_child visited1 with
          | some visited2 => validate_node cmp fuel h md.right_child visited2
          | none => none
        else none
      | _, _ => none

/-- `TreeHeap::validate`: run the checker from the root. -/
def validate (cmp : T → T → Ordering) (h : TreeHeap T) : Bool :=
  (validate_node cmp (h.pool.length + 1) h h.root []).isSome

end TreeHeap

/-- Comparator for `Nat` values, the model of `DefaultComparer` via `Ord`
(used by `TreeHeapOrd` in the heap test). -/
def natCmp (x y : Nat) : Ordering :=
  if x < y then .lt else if x = y then .eq else .gt

namespace TreeHeap

variable {T : Type} [Inhabited T]

/-- Heap mutations that only rewrite slot metadata keep the free list, the
pool length and every slot's value. -/
def MdOnly (h h' : TreeHeap T) : Prop :=
  h'.free_list = h.free_list ∧ h'.pool.length = h.pool.length ∧
    ∀ j, (h'.getNode j).value = (h.getNode j).value

theorem mdOnly_refl (h : TreeHeap T) : MdOnly h h := ⟨rfl, rfl, fun _ => rfl⟩

theorem mdOnly_trans {h1 h2 h3 : TreeHeap T} (a : MdOnly h1 h2)
    (b : MdOnly h2 h3) : MdOnly h1 h3 :=
  ⟨b.1.trans a.1, b.2.1.trans a.2.1, fun j => (b.2.2 j).trans (a.2.2 j)⟩

theorem getNode_setMd_value (h : TreeHeap T) (i : HeapPtr) (md : HeapNodeMd)
    (j : HeapPtr) : ((h.setMd i md).getNode j).value = (h.getNode j).value := by
  unfold setMd setNode getNode
  by_cases hj : j < 0
  · simp [hj]
  · simp only [if_neg hj]
    by_cases hi : i < 0
    · simp [hi]
    · simp only [if_neg hi]
      rcases eq_or_ne i.toNat j.toNat with hij | hij
      · rw [← hij]
        by_cases hlt : i.toNat < h.pool.length
        · rw [List.get?_set_eq_of_lt _ hlt]
          simp [if_neg hi]
        · rw [List.get?_eq_none.2 (by rw [List.length_set]; omega),
            List.get?_eq_none.2 (by omega)]
      · rw [List.get?_set_ne _ _ hij]

theorem mdOnly_setMd (h : TreeHeap T) (i : HeapPtr) (md : HeapNodeMd) :
    MdOnly h (h.setMd i md) := by
  refine ⟨?_, ?_, getNode_setMd_value h i md⟩
  · unfold setMd setNode
    split <;> rfl
  · unfold setMd setNode
    split
    · rfl
    · exact List.length_set _ _ _

theorem mdOnly_setMd_of {h g : TreeHeap T} (i : HeapPtr) (md : HeapNodeMd)
    (a : MdOnly h g) : MdOnly h (g.setMd i md) :=
  mdOnly_trans a (mdOnly_setMd g i md)

theorem mdOnly_update_size_of {h g : TreeHeap T} (i : HeapPtr)
    (a : MdOnly h g) : MdOnly h (g.update_size i) :=
  mdOnly_setMd_of i _ a

theorem mdOnly_decrement_size_of :
    ∀ (fuel : Nat) {h g : TreeHeap T} (i : HeapPtr),
      MdOnly h g → MdOnly h (decrement_size fuel g i)
  | 0, _, _, _, a => a
  | fuel + 1, h, g, i, a => by
    unfold decrement_size
    split
    · exact a
    · exact mdOnly_decrement_size_of fuel _ (mdOnly_setMd_of i _ a)

theorem mdOnly_pull_up (cmp : T → T → Ordering) :
    ∀ (fuel : Nat) (h : TreeHeap T) (l r : HeapPtr),
      MdOnly h ((pull_up cmp fuel h l r).1)
  | 0, h, _, _ => mdOnly_refl h
  | fuel + 1, h, l, r => by
    unfold pull_up
    split
    · exact mdOnly_refl h
    split
    · exact mdOnly_refl h
    split
    · exact mdOnly_setMd_of _ _ (mdOnly_update_size_of _
        (mdOnly_setMd_of _ _ (mdOnly_pull_up cmp fuel h _ _)))
    · exact mdOnly_setMd_of _ _ (mdOnly_update_size_of _
        (mdOnly_setMd_of _ _ (mdOnly_pull_up cmp fuel h _ _)))

theorem mdOnly_insert_node (cmp : T → T → Ordering) :
    ∀ (fuel : Nat) (h : TreeHeap T) (a b : HeapPtr),
      MdOnly h ((insert_node cmp fuel h a b).1)
  | 0, h, _, _ => mdOnly_refl h
  | fuel + 1, h, a, b => by
    unfold insert_node
    split <;>
    · dsimp only
      split
      · refine mdOnly_setMd_of _ _ (mdOnly_setMd_of _ _ ?_)
        split
        · exact mdOnly_setMd_of _ _ (mdOnly_setMd h _ _)
        · exact mdOnly_setMd h _ _
      split
      · exact mdOnly_setMd_of _ _ (mdOnly_setMd_of _ _
          (mdOnly_setMd_of _ _ (mdOnly_setMd h _ _)))
      · exact mdOnly_setMd_of _ _ (mdOnly_setMd_of _ _ (mdOnly_setMd_of _ _
          (mdOnly_trans (mdOnly_setMd h _ _)
            (mdOnly_insert_node cmp fuel _ _ _))))

/-- Fold `TreeHeap::insert` over a list of values; `none` if any insert
fails. -/
def insertAll (cmp : T → T → Ordering) : TreeHeap T → List T →
    Option (TreeHeap T)
  | h, [] => some h
  | h, v :: vs =>
    match h.insert cmp v with
    | .ok (h', _) => insertAll cmp h' vs
    | .error _ => none

/-- Iterate `TreeHeap::pop` a given number of times (stopping silently on an
empty heap). -/
def popIter (cmp : T → T → Ordering) : Nat → TreeHeap T → TreeHeap T
  | 0, h => h
  | k + 1, h =>
    match h.pop cmp with
    | some (h', _) => popIter cmp k h'
    | none => h

theorem insert_ok_free_list {cmp : T → T → Ordering} {h h' : TreeHeap T}
    {v : T} {i : HeapPtr} (hok : h.insert cmp v = .ok (h', i)) :
    h.free_list = i :: h'.free_list := by
  unfold insert at hok
  match hfl : h.free_list with
  | [] => rw [hfl] at hok; exact absurd hok (by simp)
  | index :: rest =>
    rw [hfl] at hok
    simp only [Except.ok.injEq, Prod.mk.injEq] at hok
    obtain ⟨hh, hi⟩ := hok
    rw [← hh, ← hi]
    have hsetfl : (({ h with free_list := rest } : TreeHeap T).setNode index
        ⟨v, mdReset⟩).free_list = rest := by
      unfold setNode
      split <;> rfl
    have h2 : (insert_impl cmp (({ h with free_list := rest } :
        TreeHeap T).setNode index ⟨v, mdReset⟩) index).free_list = rest := by
      unfold insert_impl
      split
      · exact ((mdOnly_insert_node cmp _ _ _ _).1).trans hsetfl
      · exact hsetfl
    rw [h2]

theorem insert_error_of_empty {cmp : T → T → Ordering} {h : TreeHeap T}
    (v : T) (hfl : h.free_list = []) : h.insert cmp v = .error "heap full" := by
  unfold insert
  rw [hfl]

theorem pop_free_list {cmp : T → T → Ordering} {h h' : TreeHeap T} {v : T}
    (hp : h.pop cmp = some (h', v)) : h'.free_list = h.free_list := by
  unfold pop at hp
  split at hp
  · exact absurd hp (by simp)
  · simp only [Option.some.injEq, Prod.mk.injEq] at hp
    rw [← hp.1]
    exact (mdOnly_pull_up cmp _ _ _ _).1

theorem popIter_free_list (cmp : T → T → Ordering) :
    ∀ (k : Nat) (h : TreeHeap T), (popIter cmp k h).free_list = h.free_list
  | 0, _ => rfl
  | k + 1, h => by
    unfold popIter
    split
    · rename_i h' v hp
      exact (popIter_free_list cmp k h').trans (pop_free_list hp)
    · rfl

theorem insertAll_free_length {cmp : T → T → Ordering} :
    ∀ {vs : List T} {h h' : TreeHeap T}, insertAll cmp h vs = some h' →
      h'.free_list.length + vs.length = h.free_list.length := by
  intro vs
  induction vs with
  | nil => intro h h' hh; cases hh; simp
  | cons v vs ih =>
    intro h h' hh
    unfold insertAll at hh
    split at hh
    · rename_i g i hok
      have h1 := insert_ok_free_list hok
      have h2 := ih hh
      rw [h1]
      simp only [List.length_cons]
      omega
    · exact absurd hh (by simp)

/-- Claim C10: `pop` does not return the popped slot to the free list (only
`remove` does).  After a capacity-`c` heap has absorbed `c` successful
inserts, every further insert fails with the heap-full error no matter how
many values have since been popped, whereas an insert immediately after any
`remove` succeeds. -/
theorem heap_pop_holds_slot (cmp : T → T → Ordering) (c : Nat) (vs : List T)
    (h' : TreeHeap T) (hlen : vs.length = c)
    (hins : insertAll cmp (TreeHeap.new c) vs = some h') :
    (∀ (k : Nat) (v : T),
      (popIter cmp k h').insert cmp v = .error "heap full") ∧
    (∀ (g : TreeHeap T) (hd : HeapHandle) (v : T),
      ∃ g' i, (g.remove cmp hd).insert cmp v = .ok (g', i)) := by
  constructor
  · intro k v
    have h1 : (TreeHeap.new c : TreeHeap T).free_list.length = c := by
      simp [TreeHeap.new]
    have h2 := insertAll_free_length hins
    rw [hlen, h1] at h2
    have h3 : h'.free_list = [] := by
      cases hfl : h'.free_list with
      | nil => rfl
      | cons a l => rw [hfl] at h2; simp only [List.length_cons] at h2; omega
    exact insert_error_of_empty v ((popIter_free_list cmp k h').trans h3)
  · intro g hd v
    exact ⟨_, _, rfl⟩

end TreeHeap

/-- Concrete capacity-1 heap filled by one insert (witness input for the
slot-exhaustion theorem). -/
def c10Heap : TreeHeap Nat :=
  (TreeHeap.insertAll natCmp (TreeHeap.new 1) [5]).getD (TreeHeap.new 0)

/-- Witness for `TreeHeap.heap_pop_holds_slot` at a concrete input: with
capacity 1, after one insert and one pop the heap is empty yet a further
insert still fails, while an insert right after a remove succeeds. -/
theorem heap_pop_holds_slot_witness :
    ((TreeHeap.popIter natCmp 1 c10Heap).insert natCmp 7 =
      .error "heap full") ∧
    (∃ g' i, ((c10Heap.remove natCmp 0).insert natCmp 9 = .ok (g', i))) :=
  ⟨(TreeHeap.heap_pop_holds_slot natCmp 1 [5] c10Heap (by decide)
      (by decide)).1 1 7,
   (TreeHeap.heap_pop_holds_slot natCmp 1 [5] c10Heap (by decide)
      (by decide)).2 c10Heap 0 9⟩

/-! ### Claim C4: heap invariants after every operation

The source's own checker `validate` asserts the three §4.1 invariants.  They
do hold along the insert-only and insert/update/remove/pop regimes that the
heap test exercises, but `pop` (heap.rs lines 358-365) installs `pull_up`'s
result as the new root without clearing that node's parent pointer (compare
`remove_impl`, which does clear it, heap.rs lines 401-405).  The new root
therefore keeps a dangling parent pointer to the popped slot, and a
subsequent `remove` of that root walks into the popped slot's metadata,
spliced wrongly: the parent-pointer invariant is violated.  The trace below
exhibits this with three inserts, one pop and one remove. -/

/-- Insert 10, 5, 3 into a fresh capacity-3 heap, pop (removing 10), then
remove the handle of 5 (the current root).  Returns all five intermediate
states. -/
def c4Trace : Option (List (TreeHeap Nat)) :=
  match TreeHeap.insert natCmp (TreeHeap.new 3) 10 with
  | .ok (h1, _) =>
    match TreeHeap.insert natCmp h1 5 with
    | .ok (h2, hd5) =>
      match TreeHeap.insert natCmp h2 3 with
      | .ok (h3, _) =>
        match TreeHeap.pop natCmp h3 with
        | some (h4, _) =>
          some [h1, h2, h3, h4, TreeHeap.remove natCmp h4 hd5]
        | none => none
      | .error _ => none
    | .error _ => none
  | .error _ => none

/-- The state list of `c4Trace` (it does produce five states). -/
def c4States : List (TreeHeap Nat) := c4Trace.getD []

/-- Claim C4 fails on the code: on the failing trace, the source's own
invariant checker accepts every state up to and including the pop, but the
following `remove` of a handle that still rests on the heap leaves a state
the checker rejects (the removed root's right child keeps a parent pointer
to the popped, no longer linked slot). -/
theorem heap_invariants_broken_after_pop_remove :
    c4Trace.isSome = true ∧
    TreeHeap.validate natCmp (c4States.getD 0 (TreeHeap.new 0)) = true ∧
    TreeHeap.validate natCmp (c4States.getD 1 (TreeHeap.new 0)) = true ∧
    TreeHeap.validate natCmp (c4States.getD 2 (TreeHeap.new 0)) = true ∧
    TreeHeap.validate natCmp (c4States.getD 3 (TreeHeap.new 0)) = true ∧
    TreeHeap.validate natCmp (c4States.getD 4 (TreeHeap.new 0)) = false := by
  decide

/-! ### Order book (src/src/libcix/book.rs)

A `BookSide` pairs an order heap with an `OrderId → HeapHandle` lookup
(`HashMap` in the source, modelled as an association list with unique keys).
The `Rc<ExecutionIdGenerator>` shared by both sides is modelled by threading
the generator state explicitly.  The matcher's `ExecutionHandler` callbacks
are modelled by returning the emitted events in emission order. -/

/-- The side-specific comparator bundle: the `OrderComparer` trait of
book.rs.  `create_execution` receives the `time::now()` timestamp as an
explicit argument. -/
structure OrderComparerM where
  compare : Order → Order → Ordering
  does_cross : Order → Order → Bool
  create_execution : ExecutionId → Timespec → Order → Order → Nat → Execution

/-- `BuyComparer` (book.rs lines 23-58): on the buy side a higher price is
better, ties are broken by earlier update time; an incoming sell crosses a
resting buy whose price is at least the incoming price; the resting (buy)
order sets the execution price. -/
def BuyComparer : OrderComparerM where
  compare x y :=
    match intCmp x.price y.price with
    | .gt => .gt
    | .lt => .lt
    | .eq =>
      match tsCmp x.update y.update with
      | .gt => .lt
      | .lt => .gt
      | .eq => .eq
  does_cross new_order book_order := new_order.price ≤ book_order.price
  create_execution id now new_order book_order quantity :=
    { symbol := book_order.symbol
      ts := now
      id := id
      buy_user := book_order.user
      buy_order := book_order.id
      sell_user := new_order.user
      sell_order := new_order.id
      price := book_order.price
      quantity := quantity }

/-- `SellComparer` (book.rs lines 60-95): lower price is better, ties by
earlier update time; an incoming buy crosses a resting sell whose price is
at most the incoming price. -/
def SellComparer : OrderComparerM where
  compare x y :=
    match intCmp x.price y.price with
    | .gt => .lt
    | .lt => .gt
    | .eq =>
      match tsCmp x.update y.update with
      | .gt => .lt
      | .lt => .gt
      | .eq => .eq
  does_cross new_order book_order := book_order.price ≤ new_order.price
  create_execution id now new_order book_order quantity :=
    { symbol := book_order.symbol
      ts := now
      id := id
      buy_user := new_order.user
      buy_order := new_order.id
      sell_user := book_order.user
      sell_order := book_order.id
      price := book_order.price
      quantity := quantity }

/-- Association-list model of the `HashMap<OrderId, HeapHandle>` lookup. -/
def lookupGet (l : List (OrderId × HeapHandle)) (k : OrderId) :
    Option HeapHandle :=
  (l.find? (fun p => decide (p.1 = k))).map (·.2)

/-- `HashMap::insert`: bind `k` to `v`, dropping any previous binding. -/
def lookupInsert (l : List (OrderId × HeapHandle)) (k : OrderId)
    (v : HeapHandle) : List (OrderId × HeapHandle) :=
  (k, v) :: l.filter (fun p => !(decide (p.1 = k)))

/-- `HashMap::remove`: drop the binding of `k`. -/
def lookupRemove (l : List (OrderId × HeapHandle)) (k : OrderId) :
    List (OrderId × HeapHandle) :=
  l.filter (fun p => !(decide (p.1 = k)))

/-- The execution-id generator (book.rs lines 240-258); `seq` lives in a
`Cell` in the source, here threaded explicitly. -/
structure ExecutionIdGenerator where
  symbol_id : Nat
  seq : Nat
deriving DecidableEq, Repr

/-- `ExecutionIdGenerator::next_id`: allocate and post-increment; the
source's `unwrap` (panic on exhausted sequence space) is `none`. -/
def ExecutionIdGenerator.next_id (g : ExecutionIdGenerator) :
    Option (ExecutionId × ExecutionIdGenerator) :=
  match ExecutionId.new g.symbol_id g.seq with
  | .ok id => some (id, { g with seq := g.seq + 1 })
  | .error _ => none

/-- One side of a book (book.rs `BookSide`). -/
structure BookSide where
  orders : TreeHeap Order
  lookup : List (OrderId × HeapHandle)
deriving Repr

/-- `BookSide::new`: an empty heap of capacity 1024 and an empty lookup. -/
def BookSide.new : BookSide := ⟨TreeHeap.new 1024, []⟩

/-- `BookSide::get_order`. -/
def BookSide.get_order (side : BookSide) (order : OrderId) : Option Order :=
  (lookupGet side.lookup order).map (fun h => side.orders.get h)

/-- `BookSide::remove_order` (book.rs lines 130-134). -/
def BookSide.remove_order (cmp : Order → Order → Ordering) (side : BookSide)
    (order : OrderId) : BookSide :=
  match lookupGet side.lookup order with
  | some h =>
    { orders := side.orders.remove cmp h
      lookup := lookupRemove side.lookup order }
  | none => side

/-- `BookSide::top_order` (book.rs lines 136-144): zero-valued entry when
empty. -/
def BookSide.top_order (side : BookSide) : MdEntry :=
  match side.orders.peek with
  | none => ⟨0, 0⟩
  | some h =>
    let order := side.orders.get h
    ⟨order.price, order.quantity⟩

/-- `OrderProcessor::has_order` for a book side. -/
def BookSide.has_order (side : BookSide) (order_id : OrderId) : Bool :=
  (lookupGet side.lookup order_id).isSome

/-- `OrderProcessor::add_order` for a book side (book.rs lines 185-192); the
`unwrap` of a failed heap insert is `none`. -/
def BookSide.add_order (cmp : Order → Order → Ordering) (side : BookSide)
    (new_order : Order) : Option (BookSide × HeapHandle) :=
  match side.orders.insert cmp new_order with
  | .ok (orders', handle) =>
    some (⟨orders', lookupInsert side.lookup new_order.id handle⟩, handle)
  | .error _ => none

/-- `BookSide::match_order` (book.rs lines 194-237): repeatedly cross the
incoming order against the resting top until prices no longer cross or the
incoming order is exhausted.  Returns the final side, generator, incoming
order and the emitted executions in emission order.  `none` models a panic
(`assert_ne!(cross_quantity, 0)` or an id-generator unwrap) or exhausted
fuel; callers pass one more than the pool length, which bounds the
iteration count in every reachable state since each continuing iteration
removes a resting order. -/
def BookSide.match_order (oc : OrderComparerM) (now : Timespec) :
    Nat → BookSide → ExecutionIdGenerator → Order →
    Option (BookSide × ExecutionIdGenerator × Order × List Execution)
  | 0, _, _, _ => none
  | fuel + 1, side, gen, new_order =>
    match side.orders.peek with
    | none => some (side, gen, new_order, [])
    | some handle =>
      let book_order := side.orders.get handle
      if ¬ oc.does_cross new_order book_order then
        some (side, gen, new_order, [])
      else
        let cross_quantity := min new_order.quantity book_order.quantity
        if cross_quantity = 0 then none
        else
          match gen.next_id with
          | none => none
          | some (exec_id, gen') =>
            let ex := oc.create_execution exec_id now new_order book_order
              cross_quantity
            let quantity := ex.quantity
            let new_order' :=
              { new_order with quantity := new_order.quantity - quantity }
            let orders' := side.orders.update oc.compare handle
              (fun o => { o with quantity := o.quantity - quantity })
            let side' : BookSide := { side with orders := orders' }
            let rem_quantity := (side'.orders.get handle).quantity
            let match_id := (side'.orders.get handle).id
            let side'' := if rem_quantity = 0 then
                side'.remove_order oc.compare match_id
              else side'
            if new_order'.quantity = 0 then
              some (side'', gen', new_order', [ex])
            else
              match match_order oc now fuel side'' gen' new_order' with
              | some (s3, g3, o3, exs) => some (s3, g3, o3, ex :: exs)
              | none => none

/-- A whole order book (book.rs `OrderBook`): both sides plus the shared
execution-id generator. -/
structure OrderBook where
  symbol : Symbol
  buys : BookSide
  sells : BookSide
  id_gen : ExecutionIdGenerator
deriving Repr

/-- `OrderBook::new`. -/
def OrderBook.new (symbol : Symbol) (symbol_id : Nat) : OrderBook :=
  ⟨symbol, BookSide.new, BookSide.new, ⟨symbol_id, 0⟩⟩

/-- `OrderBook::get_order`: dispatch on the id's side bit. -/
def OrderBook.get_order (book : OrderBook) (order : OrderId) : Option Order :=
  match order.side with
  | .Buy => book.buys.get_order order
  | .Sell => book.sells.get_order order

/-- `BasicMatcher::add_order` (book.rs lines 306-346): reject a duplicate id
resting on the incoming order's own side, otherwise cross against the
counter side, rest any residual quantity, and ack.  Returns the resulting
book, the emitted executions, and the emitted acks. -/
def BasicMatcher.add_order (book : OrderBook) (order : Order)
    (now : Timespec) :
    Option (OrderBook × List Execution × List (OrderId × ErrorCode)) :=
  let sameHas := match order.side with
    | OrderSide.Buy => book.buys.has_order order.id
    | OrderSide.Sell => book.sells.has_order order.id
  if sameHas then some (book, [], [(order.id, ErrorCode.DuplicateId)])
  else
    match order.side with
    | OrderSide.Buy =>
      match BookSide.match_order SellComparer now
        (book.sells.orders.pool.length + 1) book.sells book.id_gen order with
      | none => none
      | some (sells', gen', o, execs) =>
        if 0 < o.quantity then
          match book.buys.add_order BuyComparer.compare o with
          | none => none
          | some (buys', _) =>
            some ({ book with buys := buys', sells := sells', id_gen := gen' },
              execs, [(order.id, ErrorCode.Success)])
        else
          some ({ book with sells := sells', id_gen := gen' }, execs,
            [(order.id, ErrorCode.Success)])
    | OrderSide.Sell =>
      match BookSide.match_order BuyComparer now
        (book.buys.orders.pool.length + 1) book.buys book.id_gen order with
      | none => none
      | some (buys', gen', o, execs) =>
        if 0 < o.quantity then
          match book.sells.add_order SellComparer.compare o with
          | none => none
          | some (sells', _) =>
            some ({ book with buys := buys', sells := sells', id_gen := gen' },
              execs, [(order.id, ErrorCode.Success)])
        else
          some ({ book with buys := buys', id_gen := gen' }, execs,
            [(order.id, ErrorCode.Success)])

/-- `BasicMatcher::cancel_order` (book.rs lines 348-356): remove from the
side selected by the id's side bit; silently a no-op when absent. -/
def BasicMatcher.cancel_order (book : OrderBook) (order : OrderId) :
    OrderBook :=
  match order.side with
  | .Buy => { book with buys := book.buys.remove_order BuyComparer.compare order }
  | .Sell => { book with sells := book.sells.remove_order SellComparer.compare order }

/-! ### Heap iterator and the L2 builder (heap.rs lines 536-600, book.rs
lines 146-175, order.rs lines 399-428) -/

/-- A candidate entry of the transient iteration heap (heap.rs
`HeapIteratorNode`): the value together with a copy of its original
metadata. -/
structure HeapIteratorNode (T : Type) where
  value : T
  md : HeapNodeMd
deriving DecidableEq, Repr

instance [Inhabited T] : Inhabited (HeapIteratorNode T) := ⟨⟨default, mdReset⟩⟩

/-- `HeapIteratorComparator`: compare candidates by their values. -/
def iterCmp (cmp : T → T → Ordering) (x y : HeapIteratorNode T) : Ordering :=
  cmp x.value y.value

/-- `HeapIterator`: the borrowed heap plus the transient candidates heap. -/
structure HeapIterator (T : Type) where
  heap : TreeHeap T
  candidates : TreeHeap (HeapIteratorNode T)

variable {T : Type} [Inhabited T]

/-- `HeapIterator::add_candidate`: the source discards the insert result, so
a full candidates heap silently drops the candidate. -/
def HeapIterator.add_candidate (cmp : T → T → Ordering) (it : HeapIterator T)
    (node : HeapNode T) : HeapIterator T :=
  match it.candidates.insert (iterCmp cmp) ⟨node.value, node.md⟩ with
  | .ok (c', _) => { it with candidates := c' }
  | .error _ => it

/-- `HeapIterator::new`: seed the candidates heap (same capacity as the
source heap) with the root. -/
def HeapIterator.new (cmp : T → T → Ordering) (h : TreeHeap T) :
    HeapIterator T :=
  let it : HeapIterator T := ⟨h, TreeHeap.new h.capacity⟩
  match h.peek with
  | some n => it.add_candidate cmp (h.getNode n)
  | none => it

/-- `HeapIterator::next` (heap.rs lines 583-599): pop the best candidate and
push its children (read from the original heap). -/
def HeapIterator.next (cmp : T → T → Ordering) (it : HeapIterator T) :
    Option (T × HeapIterator T) :=
  if it.candidates.is_empty then none
  else
    match it.candidates.pop (iterCmp cmp) with
    | none => none
    | some (c', top) =>
      let it1 : HeapIterator T := { it with candidates := c' }
      let it2 := if 0 ≤ top.md.left_child then
          it1.add_candidate cmp (it.heap.getNode top.md.left_child)
        else it1
      let it3 := if 0 ≤ top.md.right_child then
          it2.add_candidate cmp (it.heap.getNode top.md.right_child)
        else it2
      some (top.value, it3)

/-- The aggregation loop of `BookSide::get_l2_data` (book.rs lines 146-175).
The running entry starts at price `-1`; levels are pushed when the price
changes (or after the loop) and only when positive; the loop returns as soon
as `depth` levels are collected.  Quantity accumulation is `u32` addition,
hence the explicit wrap.  Fuel bounds the iteration; callers pass one more
than the pool length, which the iterator can never yield more than. -/
def l2Loop (cmp : Order → Order → Ordering) :
    Nat → HeapIterator Order → MdEntry → List MdEntry → Nat → List MdEntry
  | 0, _, _, results, _ => results
  | fuel + 1, iter, entry, results, depth =>
    match iter.next cmp with
    | none => if 0 < entry.price then results ++ [entry] else results
    | some (o, iter') =>
      let st : MdEntry × List MdEntry :=
        if entry.price = o.price then
          ({ entry with quantity := (entry.quantity + o.quantity) % 2 ^ 32 },
            results)
        else
          (⟨o.price, o.quantity⟩,
            if 0 < entry.price then results ++ [entry] else results)
      if depth ≤ st.2.length then st.2
      else l2Loop cmp fuel iter' st.1 st.2 depth

/-- `BookSide::get_l2_data`. -/
def BookSide.get_l2_data (cmp : Order → Order → Ordering) (side : BookSide)
    (depth : Nat) : List MdEntry :=
  l2Loop cmp (side.orders.pool.length + 1)
    (HeapIterator.new cmp side.orders) ⟨-1, 0⟩ [] depth

/-- `BasicMatcher::publish_md` (book.rs lines 358-367): top-of-book entries
for L1 and depth-3 aggregated levels for L2 (`get_l2_data(3)`), as handed to
the execution handler. -/
def BasicMatcher.publish_md (book : OrderBook) :
    (MdEntry × MdEntry) × (List MdEntry × List MdEntry) :=
  let top_bid := book.buys.top_order
  let top_ask := book.sells.top_order
  let l2_bids := book.buys.get_l2_data BuyComparer.compare 3
  let l2_asks := book.sells.get_l2_data SellComparer.compare 3
  ((top_bid, top_ask), (l2_bids, l2_asks))

/-- `L2_MD_DEPTH` (order.rs line 23). -/
def L2_MD_DEPTH : Nat := 5

/-- The wire-level L2 side (order.rs `L2MdSide`): a five-entry array and a
count. -/
structure L2MdSide where
  entries : List MdEntry
  n_entry : Nat
deriving DecidableEq, Repr

/-- `From<Vec<MdEntry>> for L2MdSide` (order.rs lines 405-420): pad the
vector with default entries, then copy only indices `0..L2_MD_DEPTH-1` into
the array (the source slices to `L2_MD_DEPTH-1`, leaving the last array
element default). -/
def L2MdSide.ofEntries (entry_vec : List MdEntry) : L2MdSide :=
  let size := min entry_vec.length L2_MD_DEPTH
  let entries := (entry_vec ++ List.replicate L2_MD_DEPTH default).take
    L2_MD_DEPTH
  { entries := entries.take (L2_MD_DEPTH - 1) ++ [default], n_entry := size }

/-- `L2MdSide::iter`: the first `n_entry` array slots. -/
def L2MdSide.iter (s : L2MdSide) : List MdEntry := s.entries.take s.n_entry

/-! ### Claim C2: every cross step trades at the resting price, min quantity,
only when prices cross -/

/-- Side consistency of a book: every id resting on a side carries that
side's bit.  This is the `id.side == side` invariant of the spec's data
model; the engine only ever inserts an order on the side its id names. -/
def BookWf (book : OrderBook) : Prop :=
  (∀ p ∈ book.buys.lookup, OrderId.side p.1 = OrderSide.Buy) ∧
  (∀ p ∈ book.sells.lookup, OrderId.side p.1 = OrderSide.Sell)

theorem has_order_mem {side : BookSide} {id : OrderId}
    (h : side.has_order id = true) : ∃ v, (id, v) ∈ side.lookup := by
  unfold BookSide.has_order lookupGet at h
  rcases hf : side.lookup.find? (fun p => decide (p.1 = id)) with _ | p
  · rw [hf] at h
    simp at h
  · have hp := List.find?_some hf
    have hmem := List.mem_of_find?_eq_some hf
    rcases p with ⟨k, v⟩
    simp only [decide_eq_true_eq] at hp
    subst hp
    exact ⟨v, hmem⟩

/-- Claim C3: `BasicMatcher::add_order` with an id already resting on either
side of a side-consistent book emits exactly one `DuplicateId` ack, does not
insert, emits no execution and leaves the book unchanged; every other path
that returns emits exactly one `Success` ack. -/
theorem add_order_duplicate_and_ack (book : OrderBook) (order : Order)
    (now : Timespec) (hwf : BookWf book) (hside : order.id.side = order.side) :
    ((book.buys.has_order order.id = true ∨
      book.sells.has_order order.id = true) →
      BasicMatcher.add_order book order now =
        some (book, [], [(order.id, ErrorCode.DuplicateId)])) ∧
    ((book.buys.has_order order.id = false ∧
      book.sells.has_order order.id = false) →
      ∀ b' execs acks,
        BasicMatcher.add_order book order now = some (b', execs, acks) →
        acks = [(order.id, ErrorCode.Success)]) := by
  constructor
  · intro hdup
    have hsame : (match order.side with
        | OrderSide.Buy => book.buys.has_order order.id
        | OrderSide.Sell => book.sells.has_order order.id) = true := by
      rcases hdup with hb | hs
      · obtain ⟨v, hmem⟩ := has_order_mem hb
        have hbside := hwf.1 _ hmem
        rw [hside] at hbside
        rw [hbside]
        exact hb
      · obtain ⟨v, hmem⟩ := has_order_mem hs
        have hbside := hwf.2 _ hmem
        rw [hside] at hbside
        rw [hbside]
        exact hs
    unfold BasicMatcher.add_order
    simp only [hsame, if_true]
  · intro hno b' execs acks hres
    unfold BasicMatcher.add_order at hres
    cases horder : order.side <;> rw [horder] at hres <;> dsimp only at hres
    · rw [hno.1] at hres
      simp only [Bool.false_eq_true, if_false] at hres
      split at hres
      · exact absurd hres (by simp)
      · split at hres
        · split at hres
          · exact absurd hres (by simp)
          · simp only [Option.some.injEq, Prod.mk.injEq] at hres
            exact hres.2.2.symm
        · simp only [Option.some.injEq, Prod.mk.injEq] at hres
          exact hres.2.2.symm
    · rw [hno.2] at hres
      simp only [Bool.false_eq_true, if_false] at hres
      split at hres
      · exact absurd hres (by simp)
      · split at hres
        · split at hres
          · exact absurd hres (by simp)
          · simp only [Option.some.injEq, Prod.mk.injEq] at hres
            exact hres.2.2.symm
        · simp only [Option.some.injEq, Prod.mk.injEq] at hres
          exact hres.2.2.symm


/-- A resting buy used by the duplicate-id witness. -/
def c3RestingBuy : Order :=
  { id := ⟨⟨(2 : Nat) <<< METADATA_OFFSET⟩⟩, user := 7, symbol := default,
    side := .Buy, price := 100, quantity := 10, update := ⟨1, 0⟩ }

/-- A book holding just `c3RestingBuy` on its buy side. -/
def c3Book : OrderBook :=
  ((BasicMatcher.add_order (OrderBook.new default 0) c3RestingBuy
    ⟨1, 0⟩).map (·.1)).getD (OrderBook.new default 0)

/-- A second order reusing the resting id. -/
def c3Dup : Order := { c3RestingBuy with quantity := 25, update := ⟨2, 0⟩ }

set_option maxRecDepth 100000 in
/-- Witness for `add_order_duplicate_and_ack` at a concrete input. -/
theorem add_order_duplicate_and_ack_witness :
    BasicMatcher.add_order c3Book c3Dup ⟨2, 0⟩ =
      some (c3Book, [], [(c3Dup.id, ErrorCode.DuplicateId)]) :=
  (add_order_duplicate_and_ack c3Book c3Dup ⟨2, 0⟩ ⟨by decide, by decide⟩ (by decide)).1
    (Or.inl (by decide))


/-! ### Engine messages and the engine's cancel path (src/src/server)

`EngineMessage` is the WAL-encoded command enum (messages.rs; the `Null`
sentinel variant is the one the WAL reader uses to detect the end of a
segment and is never produced by the engine). -/

/-- `NewOrderMessage` (messages.rs). -/
structure NewOrderMessage where
  user : Nat
  order_id : OrderId
  symbol : Symbol
  side : OrderSide
  price : Int
  quantity : Nat
deriving DecidableEq, Repr

/-- `CancelOrderMessage` (messages.rs). -/
structure CancelOrderMessage where
  user : Nat
  order_id : OrderId
deriving DecidableEq, Repr

/-- `EngineMessage` (messages.rs plus the `NullMessage` sentinel consumed by
wal.rs and engine.rs). -/
inductive EngineMessage where
  | NewOrder (msg : NewOrderMessage)
  | CancelOrder (msg : CancelOrderMessage)
  | NullMessage
deriving DecidableEq, Repr

/-- The engine state that `cancel_order` touches (engine.rs `OrderEngine`):
the owned symbol list, the dirty-symbol set (a `HashSet`, modelled as a list
with dedup insert) and the per-symbol books (a `HashMap`; every owned symbol
has a book by construction, so it is modelled as a total function). -/
structure OrderEngine where
  symbols : List Symbol
  dirty_symbols : List Symbol
  books : Symbol → OrderBook

/-- `OrderEngine::symbol_dirty`. -/
def OrderEngine.symbol_dirty (eng : OrderEngine) (symbol : Symbol) :
    OrderEngine :=
  { eng with dirty_symbols := if symbol ∈ eng.dirty_symbols then
      eng.dirty_symbols else symbol :: eng.dirty_symbols }

/-- `OrderEngine::cancel_order` (engine.rs lines 154-187): validate the
symbol id, look the order up, succeed silently when absent, reject a foreign
user (the source formats the order and user into the message; the model
keeps the constant prefix), otherwise cancel on the matcher and mark the
symbol dirty. -/
def OrderEngine.cancel_order (eng : OrderEngine) (msg : CancelOrderMessage) :
    Except String Unit × OrderEngine :=
  let sym_id := msg.order_id.symbol_id
  if eng.symbols.length ≤ sym_id then (.error "invalid order id", eng)
  else
    let symbol := eng.symbols.getD sym_id default
    let book := eng.books symbol
    match book.get_order msg.order_id with
    | none => (.ok (), eng)
    | some order =>
      if order.user ≠ msg.user then
        (.error "order does not belong to user", eng)
      else
        let book' := BasicMatcher.cancel_order book msg.order_id
        let eng' : OrderEngine := { eng with
          books := fun s => if s = symbol then book' else eng.books s }
        (.ok (), eng'.symbol_dirty symbol)

theorem lookupGet_lookupRemove (l : List (OrderId × HeapHandle))
    (k : OrderId) : lookupGet (lookupRemove l k) k = none := by
  unfold lookupGet lookupRemove
  rw [List.find?_eq_none.2]
  · rfl
  · intro p hp
    have := (List.mem_filter.1 hp).2
    simp only [Bool.not_eq_true', decide_eq_false_iff_not] at this
    simpa using this

theorem remove_order_lookup_none (cmp : Order → Order → Ordering)
    (side : BookSide) (id : OrderId) :
    lookupGet (side.remove_order cmp id).lookup id = none := by
  unfold BookSide.remove_order
  rcases hget : lookupGet side.lookup id with _ | v
  · exact hget
  · exact lookupGet_lookupRemove _ _

theorem get_order_remove_order (cmp : Order → Order → Ordering)
    (side : BookSide) (id : OrderId) :
    (side.remove_order cmp id).get_order id = none := by
  unfold BookSide.get_order
  rw [remove_order_lookup_none]
  rfl

theorem cancel_order_removes (book : OrderBook) (id : OrderId) :
    (BasicMatcher.cancel_order book id).get_order id = none := by
  unfold BasicMatcher.cancel_order OrderBook.get_order
  cases hid : id.side <;>
    exact get_order_remove_order _ _ _

/-- Claim C6: the engine's `CancelOrder` path validates
`order-id.symbol-id < len(symbols)`; an absent order yields success with the
whole engine state unchanged (a cancel after a complete fill is a no-op); a
present order of a different user yields the not-authorized error with no
state change; otherwise the order is removed from its book and the symbol is
marked dirty, all other books untouched. -/
theorem engine_cancel_order (eng : OrderEngine) (msg : CancelOrderMessage) :
    (eng.symbols.length ≤ msg.order_id.symbol_id →
      eng.cancel_order msg = (.error "invalid order id", eng)) ∧
    (msg.order_id.symbol_id < eng.symbols.length →
      ((eng.books (eng.symbols.getD msg.order_id.symbol_id
          default)).get_order msg.order_id = none →
        eng.cancel_order msg = (.ok (), eng)) ∧
      (∀ order,
        (eng.books (eng.symbols.getD msg.order_id.symbol_id
            default)).get_order msg.order_id = some order →
        (order.user ≠ msg.user →
          eng.cancel_order msg =
            (.error "order does not belong to user", eng)) ∧
        (order.user = msg.user →
          ∃ eng', eng.cancel_order msg = (.ok (), eng') ∧
            ((eng'.books (eng.symbols.getD msg.order_id.symbol_id
                default)).get_order msg.order_id = none ∧
              (eng.symbols.getD msg.order_id.symbol_id default) ∈
                eng'.dirty_symbols ∧
              ∀ s, s ≠ eng.symbols.getD msg.order_id.symbol_id default →
                eng'.books s = eng.books s)))) := by
  constructor
  · intro hlen
    unfold OrderEngine.cancel_order
    rw [if_pos hlen]
  · intro hlt
    have hnot : ¬ (eng.symbols.length ≤ msg.order_id.symbol_id) := by omega
    constructor
    · intro habsent
      unfold OrderEngine.cancel_order
      rw [if_neg hnot]
      dsimp only
      rw [habsent]
    · intro order hpresent
      constructor
      · intro huser
        unfold OrderEngine.cancel_order
        rw [if_neg hnot]
        dsimp only
        rw [hpresent]
        dsimp only
        rw [if_pos huser]
      · intro huser
        refine ⟨OrderEngine.symbol_dirty
            { eng with books := fun s =>
                if s = eng.symbols.getD msg.order_id.symbol_id default
                then BasicMatcher.cancel_order (eng.books (eng.symbols.getD msg.order_id.symbol_id default)) msg.order_id
                else eng.books s }
            (eng.symbols.getD msg.order_id.symbol_id default), ?_, ?_, ?_, ?_⟩
        · unfold OrderEngine.cancel_order
          rw [if_neg hnot]
          dsimp only
          rw [hpresent]
          dsimp only
          rw [if_neg (by simpa using huser)]
        · dsimp only [OrderEngine.symbol_dirty]
          rw [if_pos rfl]
          exact cancel_order_removes _ _
        · dsimp only [OrderEngine.symbol_dirty]
          split
          · assumption
          · exact List.mem_cons_self _ _
        · intro s hs
          dsimp only [OrderEngine.symbol_dirty]
          rw [if_neg hs]


/-- A one-symbol engine holding `c3Book` (witness input). -/
def c6Engine : OrderEngine :=
  { symbols := [default], dirty_symbols := [], books := fun _ => c3Book }

set_option maxRecDepth 100000 in
/-- Witness for `engine_cancel_order` at a concrete input: cancelling a
resting order under the wrong user id is rejected without touching the
engine. -/
theorem engine_cancel_order_witness :
    c6Engine.cancel_order ⟨9, c3RestingBuy.id⟩ =
      (.error "order does not belong to user", c6Engine) :=
  (((engine_cancel_order c6Engine ⟨9, c3RestingBuy.id⟩).2 (by decide)).2
    c3RestingBuy (by decide)).1 (by decide)


/-! ### Router and replay (src/src/server/server.rs) -/

/-- `SymbolLookup` (server.rs lines 86-125): the symbol universe; ids are
list positions (the source's `HashMap` is built from exactly this list with
distinct keys). -/
structure SymbolLookup where
  symbols : List Symbol
deriving Repr

/-- `SymbolLookup::get_symbol_id`. -/
def SymbolLookup.get_symbol_id (sl : SymbolLookup) (s : Symbol) : Option Nat :=
  sl.symbols.findIdx? (fun x => decide (x = s))

/-- `SingleRouter` (server.rs lines 129-145): the symbol table and the
per-symbol sequence counters (`Vec<Cell<u64>>`, threaded explicitly; all
counter arithmetic stays below `2^40 + 1`, far under the `u64` wrap). -/
structure SingleRouter where
  symbols : SymbolLookup
  seq_list : List Nat
deriving Repr

/-- `SingleRouter::create_order_id` (server.rs lines 156-167): allocate the
next sequence for the symbol and post-increment the counter. -/
def SingleRouter.create_order_id (r : SingleRouter) (symbol : Symbol)
    (side : OrderSide) : Except String (OrderId × SingleRouter) :=
  match r.symbols.get_symbol_id symbol with
  | none => .error "invalid symbol"
  | some sym_id =>
    match OrderId.new sym_id side (r.seq_list.getD sym_id 0) with
    | .error e => .error e
    | .ok order_id =>
      .ok (order_id, { r with
        seq_list := r.seq_list.set sym_id ((r.seq_list.getD sym_id 0) + 1) })

/-- `SingleRouter::replay_message` (server.rs lines 169-186): for a
`NewOrder`, bump the symbol's counter to `sequence + 1` whenever the
replayed sequence is at least the counter, then route (the channel send is
modelled as succeeding). -/
def SingleRouter.replay_message (r : SingleRouter) (msg : EngineMessage) :
    Except String SingleRouter :=
  match msg with
  | .NewOrder new_order =>
    match r.symbols.get_symbol_id new_order.symbol with
    | none => .error "invalid symbol"
    | some sym_id =>
      let order_seq := new_order.order_id.sequence
      if r.seq_list.getD sym_id 0 ≤ order_seq then
        .ok { r with seq_list := r.seq_list.set sym_id (order_seq + 1) }
      else .ok r
  | msg => .ok r

/-- Sequential replay of a command list, as `init_wal`'s loop drives it. -/
def SingleRouter.replayAll (r : SingleRouter) :
    List EngineMessage → Except String SingleRouter
  | [] => .ok r
  | msg :: rest =>
    match r.replay_message msg with
    | .ok r' => r'.replayAll rest
    | .error e => .error e

theorem getD_set_self (l : List Nat) (i a : Nat) (h : i < l.length) :
    (l.set i a).getD i 0 = a := by
  show ((l.set i a).get? i).getD 0 = a
  rw [List.get?_set_eq_of_lt _ h]
  rfl

theorem getD_set_other (l : List Nat) {i j : Nat} (a : Nat) (h : i ≠ j) :
    (l.set i a).getD j 0 = l.getD j 0 := by
  show ((l.set i a).get? j).getD 0 = (l.get? j).getD 0
  rw [List.get?_set_ne _ _ h]

theorem get_symbol_id_lt {sl : SymbolLookup} {s : Symbol} {sym_id : Nat}
    (h : sl.get_symbol_id s = some sym_id) : sym_id < sl.symbols.length := by
  unfold SymbolLookup.get_symbol_id at h
  rw [List.findIdx?_eq_some_iff_findIdx_eq] at h
  exact h.1

/-- Claim C7, per-command part: a successful `replay_message` of a `NewOrder`
sets the symbol's counter to `max(counter, sequence + 1)` and leaves every
other counter alone; the symbol table and counter-vector length never
change. -/
theorem replay_newOrder_counter {r r' : SingleRouter} {no : NewOrderMessage}
    {sym_id : Nat} (hsym : r.symbols.get_symbol_id no.symbol = some sym_id)
    (hlen : sym_id < r.seq_list.length)
    (h : r.replay_message (.NewOrder no) = .ok r') :
    r'.seq_list.getD sym_id 0 =
      max (r.seq_list.getD sym_id 0) (no.order_id.sequence + 1) ∧
    (∀ j, j ≠ sym_id → r'.seq_list.getD j 0 = r.seq_list.getD j 0) ∧
    r'.symbols = r.symbols ∧ r'.seq_list.length = r.seq_list.length := by
  unfold SingleRouter.replay_message at h
  dsimp only at h
  rw [hsym] at h
  dsimp only at h
  by_cases hle : r.seq_list.getD sym_id 0 ≤ no.order_id.sequence
  · rw [if_pos hle] at h
    cases h
    refine ⟨?_, ?_, rfl, List.length_set _ _ _⟩
    · show (r.seq_list.set sym_id (no.order_id.sequence + 1)).getD sym_id 0 = _
      rw [getD_set_self _ _ _ hlen]
      omega
    · intro j hj
      exact getD_set_other _ _ (Ne.symm hj)
  · rw [if_neg hle] at h
    cases h
    refine ⟨?_, fun j _ => rfl, rfl, rfl⟩
    omega

theorem replay_message_mono {r r' : SingleRouter} {msg : EngineMessage}
    (hlen : r.seq_list.length = r.symbols.symbols.length)
    (h : r.replay_message msg = .ok r') :
    r'.symbols = r.symbols ∧ r'.seq_list.length = r.seq_list.length ∧
      ∀ j, r.seq_list.getD j 0 ≤ r'.seq_list.getD j 0 := by
  rcases msg with no | c | _
  · rcases hsym : r.symbols.get_symbol_id no.symbol with _ | sym_id
    · unfold SingleRouter.replay_message at h
      dsimp only at h
      rw [hsym] at h
      exact absurd h (by simp)
    · have hslen : sym_id < r.seq_list.length := by
        rw [hlen]
        exact get_symbol_id_lt hsym
      obtain ⟨h1, h2, h3, h4⟩ := replay_newOrder_counter hsym hslen h
      refine ⟨h3, h4, ?_⟩
      intro j
      rcases eq_or_ne j sym_id with rfl | hj
      · rw [h1]
        exact le_max_left _ _
      · rw [h2 j hj]
  · cases h
    exact ⟨rfl, rfl, fun j => le_refl _⟩
  · cases h
    exact ⟨rfl, rfl, fun j => le_refl _⟩

theorem replayAll_mono :
    ∀ (msgs : List EngineMessage) (r rN : SingleRouter),
      r.seq_list.length = r.symbols.symbols.length →
      r.replayAll msgs = .ok rN →
      ∀ j, r.seq_list.getD j 0 ≤ rN.seq_list.getD j 0
  | [], r, rN, _, h => by
    cases h
    exact fun j => le_refl _
  | msg :: rest, r, rN, hlen, h => by
    unfold SingleRouter.replayAll at h
    rcases hstep : r.replay_message msg with e | r1 <;> rw [hstep] at h
    · exact absurd h (by simp)
    · dsimp only at h
      obtain ⟨hs1, hl1, hm1⟩ := replay_message_mono hlen hstep
      have hlen1 : r1.seq_list.length = r1.symbols.symbols.length := by
        rw [hl1, hs1, hlen]
      intro j
      exact le_trans (hm1 j) (replayAll_mono rest r1 rN hlen1 h j)

theorem replayAll_props :
    ∀ (msgs : List EngineMessage) (r rN : SingleRouter),
      r.seq_list.length = r.symbols.symbols.length →
      r.replayAll msgs = .ok rN →
      rN.symbols = r.symbols ∧ rN.seq_list.length = r.seq_list.length ∧
      (∀ no, EngineMessage.NewOrder no ∈ msgs → ∀ sym_id,
        r.symbols.get_symbol_id no.symbol = some sym_id →
        no.order_id.sequence < rN.seq_list.getD sym_id 0)
  | [], r, rN, _, h => by
    cases h
    exact ⟨rfl, rfl, fun no hmem => absurd hmem (List.not_mem_nil _)⟩
  | msg :: rest, r, rN, hlen, h => by
    unfold SingleRouter.replayAll at h
    rcases hstep : r.replay_message msg with e | r1 <;> rw [hstep] at h
    · exact absurd h (by simp)
    · dsimp only at h
      obtain ⟨hs1, hl1, hm1⟩ := replay_message_mono hlen hstep
      have hlen1 : r1.seq_list.length = r1.symbols.symbols.length := by
        rw [hl1, hs1, hlen]
      obtain ⟨hsN, hlN, hrest⟩ := replayAll_props rest r1 rN hlen1 h
      refine ⟨hsN.trans hs1, hlN.trans hl1, ?_⟩
      intro no hmem sym_id hsym
      rcases List.mem_cons.1 hmem with rfl | hmem'
      · have hslen : sym_id < r.seq_list.length := by
          rw [hlen]
          exact get_symbol_id_lt hsym
        obtain ⟨h1, _, hs', hl'⟩ := replay_newOrder_counter hsym hslen hstep
        have hge : no.order_id.sequence + 1 ≤ r1.seq_list.getD sym_id 0 := by
          rw [h1]
          exact le_max_right _ _
        have hmono : r1.seq_list.getD sym_id 0 ≤ rN.seq_list.getD sym_id 0 := by
          have := replayAll_mono rest r1 rN hlen1 h
          exact this sym_id
        omega
      · have hsym1 : r1.symbols.get_symbol_id no.symbol = some sym_id := by
          rw [hs1]
          exact hsym
        exact hrest no hmem' sym_id hsym1

theorem orderId_new_ok_sequence {s : Nat} {side : OrderSide} {q : Nat}
    {id : OrderId} (h : OrderId.new s side q = .ok id) : id.sequence = q := by
  cases side <;>
  · unfold OrderId.new TradingId.new at h
    dsimp only at h
    by_cases h1 : SYMBOL_MAX < s
    · rw [if_pos h1] at h
      exact absurd h (by simp [Except.map])
    · rw [if_neg h1, if_neg (by decide)] at h
      by_cases h3 : SEQUENCE_MAX < q
      · rw [if_pos h3] at h
        exact absurd h (by simp [Except.map])
      · rw [if_neg h3] at h
        dsimp only [Except.map] at h
        simp only [Except.ok.injEq] at h
        rw [← h]
        exact packed_sequence
          (by unfold SYMBOL_MAX SYMBOL_BITS at h1; omega)
          (by decide)
          (by unfold SEQUENCE_MAX SEQUENCE_BITS at h3; omega)

/-- Claim C7: a successful `replay_message` of a `NewOrder` updates that
symbol's counter to `max(counter, order-id.sequence + 1)` (leaving the other
counters alone), and consequently every order id minted by
`create_order_id` after a successful replay of any command list has a
sequence number strictly greater than that of every replayed `NewOrder` on
the same symbol. -/
theorem router_replay_monotone (r0 : SingleRouter)
    (msgs : List EngineMessage) (rN : SingleRouter)
    (hlen : r0.seq_list.length = r0.symbols.symbols.length)
    (hrep : r0.replayAll msgs = .ok rN) :
    (∀ (r r' : SingleRouter) (no : NewOrderMessage) (sym_id : Nat),
      r.symbols.get_symbol_id no.symbol = some sym_id →
      sym_id < r.seq_list.length →
      r.replay_message (.NewOrder no) = .ok r' →
      r'.seq_list.getD sym_id 0 =
        max (r.seq_list.getD sym_id 0) (no.order_id.sequence + 1) ∧
      ∀ j, j ≠ sym_id → r'.seq_list.getD j 0 = r.seq_list.getD j 0) ∧
    (∀ (symbol : Symbol) (side : OrderSide) (id : OrderId)
      (r' : SingleRouter),
      rN.create_order_id symbol side = .ok (id, r') →
      ∀ no, EngineMessage.NewOrder no ∈ msgs → no.symbol = symbol →
        no.order_id.sequence < id.sequence) := by
  constructor
  · intro r r' no sym_id hsym hslen hstep
    obtain ⟨h1, h2, _, _⟩ := replay_newOrder_counter hsym hslen hstep
    exact ⟨h1, h2⟩
  · intro symbol side id r' hcreate no hmem hsymbol
    obtain ⟨hsN, hlN, hbound⟩ := replayAll_props msgs r0 rN hlen hrep
    unfold SingleRouter.create_order_id at hcreate
    rcases hsym : rN.symbols.get_symbol_id symbol with _ | sym_id <;>
      rw [hsym] at hcreate <;> dsimp only at hcreate
    · exact absurd hcreate (by simp)
    · rcases hnew : OrderId.new sym_id side (rN.seq_list.getD sym_id 0) with
        e | oid <;> rw [hnew] at hcreate
      · exact absurd hcreate (by simp)
      · simp only [Except.ok.injEq, Prod.mk.injEq] at hcreate
        have hseq : id.sequence = rN.seq_list.getD sym_id 0 := by
          rw [← hcreate.1]
          exact orderId_new_ok_sequence hnew
        rw [hseq]
        refine hbound no hmem sym_id ?_
        rw [hsN, ← hsymbol] at hsym
        exact hsym


/-- Replayed new-order command used by the router witness. -/
def c7No1 : NewOrderMessage :=
  ⟨1, ⟨⟨(5 : Nat) <<< SEQUENCE_OFFSET ||| (2 : Nat) <<< METADATA_OFFSET⟩⟩,
    default, .Buy, 10, 1⟩

/-- A second replayed new-order command with a lower sequence. -/
def c7No2 : NewOrderMessage :=
  ⟨4, ⟨⟨(3 : Nat) <<< SEQUENCE_OFFSET ||| (2 : Nat) <<< METADATA_OFFSET⟩⟩,
    default, .Buy, 11, 2⟩

/-- One-symbol router, fresh counters. -/
def c7Router : SingleRouter := ⟨⟨[default]⟩, [0]⟩

/-- The router after replaying both commands. -/
def c7After : SingleRouter :=
  (c7Router.replayAll [.NewOrder c7No1, .NewOrder c7No2]).toOption.getD
    c7Router

/-- The id minted right after the replay (and the router thereafter). -/
def c7Created : OrderId × SingleRouter :=
  (c7After.create_order_id default .Buy).toOption.getD
    (OrderId.defaultId, c7After)

/-- Witness for `router_replay_monotone` at a concrete input. -/
theorem router_replay_monotone_witness :
    c7No1.order_id.sequence < (c7Created.1).sequence :=
  (router_replay_monotone c7Router [.NewOrder c7No1, .NewOrder c7No2]
      c7After (by decide) (by rfl)).2 default .Buy c7Created.1 c7Created.2
    (by rfl) c7No1 (by decide) (by decide)


/-! ### Write-ahead log replay reader (src/src/server/wal.rs)

A segment (`WalFile`) is modelled by its cursor, capacity, a `decode`
function standing for `bincode::deserialize` over the immutable mapped bytes
at a given offset, and a `size` function standing for `serialized_size`.
The directory reader's `open_file` filesystem access is an oracle argument,
and `get_all_files` hands it the numerically sorted segment indices. -/

/-- One mapped WAL segment opened for reading (wal.rs `WalFile`). -/
structure WalFile where
  cursor : Nat
  capacity : Nat
  decode : Nat → Except String EngineMessage
  size : EngineMessage → Nat

/-- `WalFile::advance_entry` (wal.rs lines 99-125): stop at the capacity or
at the `Null` sentinel; on success advance the cursor by the serialized
size; on a decode failure yield the error — note that the cursor is not
advanced.  (The source interpolates the cursor into the message.) -/
def WalFile.advance_entry (w : WalFile) :
    Option (Except String EngineMessage) × WalFile :=
  if w.cursor = w.capacity then (none, w)
  else
    match w.decode w.cursor with
    | .ok msg =>
      match msg with
      | .NullMessage => (none, w)
      | _ => (some (.ok msg), { w with cursor := w.cursor + w.size msg })
    | .error e =>
      (some (.error ("invalid read at position " ++ toString w.cursor ++
        ": " ++ e)), w)

/-- `WalDirectoryReader` (wal.rs lines 276-292): the sorted segment indices,
the position of the next segment to open, and the segment being read. -/
structure WalDirectoryReader where
  files : List Nat
  file_index : Nat
  reader : Option WalFile

/-- `WalDirectoryReader::new`: `get_all_files` collects the segment indices
and sorts them numerically (`wal_files.sort()`); any sort produces the same
ascending list, and insertion sort keeps the model kernel-computable. -/
def WalDirectoryReader.new (files : List Nat) : WalDirectoryReader :=
  ⟨files.insertionSort (· ≤ ·), 0, none⟩

/-- `WalDirectoryReader::next` (wal.rs lines 294-322): drain the current
segment; on its exhaustion open the segment at `file_index` (returning the
open error without advancing `file_index`, exactly as the source's early
`return` does) and keep looping.  The fuel bounds the loop, which advances
`file_index` on every iteration that does not return; callers pass one more
than the file count. -/
def WalDirectoryReader.next (openf : Nat → Except String WalFile) :
    Nat → WalDirectoryReader →
    Option (Except String EngineMessage) × WalDirectoryReader
  | 0, d => (none, d)
  | fuel + 1, d =>
    match d.reader with
    | some r =>
      match r.advance_entry with
      | (some msg, r') => (some msg, { d with reader := some r' })
      | (none, r') =>
        let d1 : WalDirectoryReader := { d with reader := some r' }
        if d1.files.length ≤ d1.file_index then (none, d1)
        else
          match openf (d1.files.getD d1.file_index 0) with
          | .ok rNew => next openf fuel
              { d1 with reader := some rNew, file_index := d1.file_index + 1 }
          | .error e => (some (.error e), d1)
    | none =>
      if d.files.length ≤ d.file_index then (none, d)
      else
        match openf (d.files.getD d.file_index 0) with
        | .ok rNew => next openf fuel
            { d with reader := some rNew, file_index := d.file_index + 1 }
        | .error e => (some (.error e), d)

theorem advance_entry_none {w w' : WalFile}
    (h : w.advance_entry = (none, w')) : w' = w := by
  unfold WalFile.advance_entry at h
  split at h
  · exact (Prod.mk.injEq _ _ _ _ ▸ h).2.symm
  · split at h
    · split at h
      · exact (Prod.mk.injEq _ _ _ _ ▸ h).2.symm
      · exact absurd (Prod.mk.injEq _ _ _ _ ▸ h).1 (by simp)
    · exact absurd (Prod.mk.injEq _ _ _ _ ▸ h).1 (by simp)

theorem advance_entry_error {w w' : WalFile} {e : String}
    (h : w.advance_entry = (some (.error e), w')) : w' = w := by
  unfold WalFile.advance_entry at h
  split at h
  · exact absurd (Prod.mk.injEq _ _ _ _ ▸ h).1 (by simp)
  · split at h
    · split at h
      · exact absurd (Prod.mk.injEq _ _ _ _ ▸ h).1 (by simp)
      · obtain ⟨h1, h2⟩ := Prod.mk.injEq _ _ _ _ ▸ h
        exact absurd h1 (by simp)
    · exact (Prod.mk.injEq _ _ _ _ ▸ h).2.symm


theorem next_error_fixpoint (openf : Nat → Except String WalFile) :
    ∀ (fuel : Nat) (d d1 : WalDirectoryReader) (e : String),
      WalDirectoryReader.next openf fuel d = (some (.error e), d1) →
      ∀ k, WalDirectoryReader.next openf (k + 1) d1 = (some (.error e), d1)
  | 0, d, d1, e, h => absurd ((Prod.mk.injEq _ _ _ _ ▸ h).1) (by simp)
  | fuel + 1, d, d1, e, h => by
    intro k
    unfold WalDirectoryReader.next at h
    rcases hrd : d.reader with _ | r <;> rw [hrd] at h <;> dsimp only at h
    · by_cases hend : d.files.length ≤ d.file_index
      · rw [if_pos hend] at h
        exact absurd (Prod.mk.injEq _ _ _ _ ▸ h).1 (by simp)
      · rw [if_neg hend] at h
        rcases hopen : openf (d.files.getD d.file_index 0) with e' | rNew <;>
          rw [hopen] at h <;> dsimp only at h
        · obtain ⟨h1, h2⟩ := Prod.mk.injEq _ _ _ _ ▸ h
          obtain rfl : e' = e := by simpa using h1
          subst h2
          show WalDirectoryReader.next openf (k + 1) d = _
          unfold WalDirectoryReader.next
          rw [hrd]
          dsimp only
          rw [if_neg hend, hopen]
        · exact next_error_fixpoint openf fuel _ d1 e h k
    · rcases hadv : r.advance_entry with ⟨res, r'⟩
      rw [hadv] at h
      rcases res with _ | msg <;> dsimp only at h
      · have hr' : r' = r := advance_entry_none (by rw [hadv])
        by_cases hend : d.files.length ≤ d.file_index
        · rw [if_pos hend] at h
          exact absurd (Prod.mk.injEq _ _ _ _ ▸ h).1 (by simp)
        · rw [if_neg hend] at h
          rcases hopen : openf (d.files.getD d.file_index 0) with e' | rNew <;>
            rw [hopen] at h <;> dsimp only at h
          · obtain ⟨h1, h2⟩ := Prod.mk.injEq _ _ _ _ ▸ h
            obtain rfl : e' = e := by simpa using h1
            subst hr'
            rw [← h2]
            show WalDirectoryReader.next openf (k + 1)
              { d with reader := some r' } = _
            unfold WalDirectoryReader.next
            dsimp only
            rw [hadv]
            dsimp only
            rw [if_neg hend, hopen]
          · exact next_error_fixpoint openf fuel _ d1 e h k
      · obtain ⟨h1, h2⟩ := Prod.mk.injEq _ _ _ _ ▸ h
        obtain rfl : msg = Except.error e := by simpa using h1
        have hr' : r' = r := advance_entry_error (by rw [hadv])
        subst hr'
        rw [← h2]
        show WalDirectoryReader.next openf (k + 1)
          { d with reader := some r' } = _
        unfold WalDirectoryReader.next
        dsimp only
        rw [hadv]

theorem next_files_monotone (openf : Nat → Except String WalFile) :
    ∀ (fuel : Nat) (d : WalDirectoryReader),
      ((WalDirectoryReader.next openf fuel d).2).files = d.files ∧
      d.file_index ≤ ((WalDirectoryReader.next openf fuel d).2).file_index
  | 0, d => ⟨rfl, le_refl _⟩
  | fuel + 1, d => by
    unfold WalDirectoryReader.next
    rcases hrd : d.reader with _ | r <;> dsimp only
    · by_cases hend : d.files.length ≤ d.file_index
      · rw [if_pos hend]
        exact ⟨rfl, le_refl _⟩
      · rw [if_neg hend]
        rcases hopen : openf (d.files.getD d.file_index 0) with e' | rNew <;>
          dsimp only
        · exact ⟨rfl, le_refl _⟩
        · obtain ⟨ha, hb⟩ := next_files_monotone openf fuel
            { d with reader := some rNew, file_index := d.file_index + 1 }
          exact ⟨ha, le_trans (Nat.le_succ _) hb⟩
    · rcases hadv : r.advance_entry with ⟨res, r'⟩
      rcases res with _ | msg <;> dsimp only
      · by_cases hend : d.files.length ≤ d.file_index
        · rw [if_pos hend]
          exact ⟨rfl, le_refl _⟩
        · rw [if_neg hend]
          rcases hopen : openf (d.files.getD d.file_index 0) with e' | rNew <;>
            dsimp only
          · exact ⟨rfl, le_refl _⟩
          · obtain ⟨ha, hb⟩ := next_files_monotone openf fuel
              { d with reader := some rNew, file_index := d.file_index + 1 }
            exact ⟨ha, le_trans (Nat.le_succ _) hb⟩
      · exact ⟨rfl, le_refl _⟩


/-- Claim C5 as amended: the replay reader yields `Ok(command)` or
`Err(message)` per step; the directory's segment list is numerically sorted
and the reader's position in it only moves forward (so segments are visited
in ascending index order); but a failed decode leaves the cursor where it
was, so that segment's iteration does not terminate: the reader returns the
very same `Err` from the very same state on every subsequent step and never
continues with the next segment. -/
theorem wal_reader_error_repeats (openf : Nat → Except String WalFile) :
    (∀ (fuel : Nat) (d d1 : WalDirectoryReader) (e : String),
      WalDirectoryReader.next openf fuel d = (some (.error e), d1) →
      ∀ k, WalDirectoryReader.next openf (k + 1) d1 = (some (.error e), d1)) ∧
    (∀ (fuel : Nat) (d : WalDirectoryReader),
      ((WalDirectoryReader.next openf fuel d).2).files = d.files ∧
      d.file_index ≤ ((WalDirectoryReader.next openf fuel d).2).file_index) ∧
    (∀ files : List Nat,
      List.Sorted (· ≤ ·) (WalDirectoryReader.new files).files) :=
  ⟨next_error_fixpoint openf, next_files_monotone openf,
    fun files => List.sorted_insertionSort _ files⟩

/-- A segment whose first decode fails. -/
def c5BadFile : WalFile := ⟨0, 10, fun _ => .error "bad", fun _ => 1⟩

/-- A healthy segment holding one command and then the `Null` sentinel. -/
def c5GoodFile : WalFile :=
  ⟨0, 10,
    fun i => if i = 0 then .ok (.CancelOrder ⟨1, OrderId.defaultId⟩)
      else .ok .NullMessage,
    fun _ => 1⟩

/-- Directory oracle: segment 0 is corrupt, segment 1 is healthy. -/
def c5openf : Nat → Except String WalFile :=
  fun i => if i = 0 then .ok c5BadFile else .ok c5GoodFile

/-- A fresh directory reader over segments `0` and `1`. -/
def c5Dir : WalDirectoryReader := WalDirectoryReader.new [1, 0]

/-- The state after the first (failing) step. -/
def c5Stuck : WalDirectoryReader := (WalDirectoryReader.next c5openf 3 c5Dir).2

/-- Counterexample to claim C5 as stated: with segment 0 corrupt at its
first record and segment 1 healthy, the first step yields the decode error,
but the next step returns the identical error from the identical state — so
the corrupt segment's iteration never terminates and the reader never
continues with segment 1, whose first record is perfectly readable. -/
theorem wal_decode_failure_never_advances :
    (WalDirectoryReader.next c5openf 3 c5Dir).1 =
      some (.error ("invalid read at position 0: bad")) ∧
    WalDirectoryReader.next c5openf 3 c5Stuck =
      (some (.error ("invalid read at position 0: bad")), c5Stuck) ∧
    c5Stuck.file_index = 1 ∧ c5Stuck.files = [0, 1] ∧
    (c5GoodFile.advance_entry).1 =
      some (.ok (.CancelOrder ⟨1, OrderId.defaultId⟩)) :=
  ⟨rfl, rfl, rfl, rfl, rfl⟩

/-- Witness for `wal_reader_error_repeats` at the concrete stuck state. -/
theorem wal_reader_error_repeats_witness :
    WalDirectoryReader.next c5openf 2 c5Stuck =
      (some (.error ("invalid read at position 0: bad")), c5Stuck) :=
  (wal_reader_error_repeats c5openf).1 3 c5Dir c5Stuck
    ("invalid read at position 0: bad") (by rfl) 1


/-! ### Claim C1: price-time priority of the book sides

The pointer heap is related to an algebraic binary tree (`BTree`) by the
abstraction relation `Abs`; `pull_up` is shown to implement a pure merge on
such trees, from which the pop sequence of a well-formed heap is totally
ordered by the side comparator. -/

/-- Algebraic binary trees: the abstraction of a heap subtree. -/
inductive BTree (T : Type) where
  | nil
  | node (v : T) (l r : BTree T)
deriving DecidableEq, Repr

namespace BTree

/-- Number of nodes. -/
def size : BTree T → Nat
  | .nil => 0
  | .node _ l r => 1 + l.size + r.size

/-- Pre-order element list. -/
def toList : BTree T → List T
  | .nil => []
  | .node v l r => v :: (l.toList ++ r.toList)

theorem length_toList (t : BTree T) : t.toList.length = t.size := by
  induction t with
  | nil => rfl
  | node v l r ihl ihr => simp [toList, size, ihl, ihr]; omega

/-- The root is at least (never `Less` than) the root of a subtree. -/
def rootLe (cmp : T → T → Ordering) (v : T) : BTree T → Prop
  | .nil => True
  | .node w _ _ => cmp v w ≠ .lt

/-- The max-heap ordering of the tree under a comparator. -/
inductive Ordered (cmp : T → T → Ordering) : BTree T → Prop where
  | nil : Ordered cmp .nil
  | node : ∀ (v : T) (l r : BTree T), Ordered cmp l → Ordered cmp r →
      rootLe cmp v l → rootLe cmp v r → Ordered cmp (.node v l r)

end BTree

/-- The pure merge that `pull_up` implements: the greater root is pulled up,
its own children merge recursively, and the other tree becomes the sibling
(heap.rs lines 205-257). -/
def mergeAbs (cmp : T → T → Ordering) : BTree T → BTree T → BTree T
  | .nil, t => t
  | .node a la ra, .nil => .node a la ra
  | .node a la ra, .node b lb rb =>
    match cmp a b with
    | .gt => .node a (mergeAbs cmp la ra) (.node b lb rb)
    | _ => .node b (.node a la ra) (mergeAbs cmp lb rb)
termination_by tl tr => tl.size + tr.size
decreasing_by
  all_goals simp [BTree.size]
  all_goals omega

theorem mergeAbs_nil_left (cmp : T → T → Ordering) (t : BTree T) :
    mergeAbs cmp .nil t = t := by
  cases t <;> simp [mergeAbs]

theorem mergeAbs_nil_right (cmp : T → T → Ordering) (t : BTree T) :
    mergeAbs cmp t .nil = t := by
  cases t <;> simp [mergeAbs]

theorem mergeAbs_size (cmp : T → T → Ordering) :
    ∀ (tl tr : BTree T), (mergeAbs cmp tl tr).size = tl.size + tr.size
  | .nil, t => by rw [mergeAbs_nil_left]; simp [BTree.size]
  | .node a la ra, .nil => by rw [mergeAbs_nil_right]; simp [BTree.size]
  | .node a la ra, .node b lb rb => by
    rw [mergeAbs]
    rcases hc : cmp a b with _ | _ | _ <;>
      simp [BTree.size, mergeAbs_size cmp la ra, mergeAbs_size cmp lb rb] <;>
      omega
termination_by tl tr => tl.size + tr.size
decreasing_by
  all_goals simp [BTree.size]
  all_goals omega

theorem mergeAbs_toList_perm (cmp : T → T → Ordering) :
    ∀ (tl tr : BTree T),
      (mergeAbs cmp tl tr).toList.Perm (tl.toList ++ tr.toList)
  | .nil, t => by rw [mergeAbs_nil_left]; simp [BTree.toList]
  | .node a la ra, .nil => by rw [mergeAbs_nil_right]; simp [BTree.toList]
  | .node a la ra, .node b lb rb => by
    have h1 : (mergeAbs cmp la ra).toList.Perm (la.toList ++ ra.toList) :=
      mergeAbs_toList_perm cmp la ra
    have h2 : (mergeAbs cmp lb rb).toList.Perm (lb.toList ++ rb.toList) :=
      mergeAbs_toList_perm cmp lb rb
    rw [mergeAbs]
    rcases hc : cmp a b with _ | _ | _ <;> dsimp only [BTree.toList]
    case gt =>
      refine List.Perm.cons a ?_
      exact (h1.append_right _).trans (List.Perm.refl _)
    all_goals
      refine List.Perm.trans (List.Perm.cons b ((List.Perm.refl _).append h2)) ?_
      exact (List.perm_middle).symm
termination_by tl tr => tl.size + tr.size
decreasing_by
  all_goals simp [BTree.size]
  all_goals omega


theorem rootLe_trans {cmp : T → T → Ordering}
    (htr : ∀ a b c, cmp a b ≠ .lt → cmp b c ≠ .lt → cmp a c ≠ .lt)
    {u v : T} {t : BTree T} (huv : cmp u v ≠ .lt)
    (hv : BTree.rootLe cmp v t) : BTree.rootLe cmp u t := by
  cases t with
  | nil => trivial
  | node w l r => exact htr u v w huv hv

theorem ordered_root_all {cmp : T → T → Ordering}
    (htr : ∀ a b c, cmp a b ≠ .lt → cmp b c ≠ .lt → cmp a c ≠ .lt)
    {t : BTree T} (hord : BTree.Ordered cmp t) :
    ∀ v, BTree.rootLe cmp v t → ∀ x ∈ t.toList, cmp v x ≠ .lt := by
  induction hord with
  | nil => intro v _ x hx; simp [BTree.toList] at hx
  | node w l r _ _ hwl hwr ihl ihr =>
    intro v hv x hx
    simp only [BTree.toList, List.mem_cons, List.mem_append] at hx
    rcases hx with rfl | hx | hx
    · exact hv
    · exact ihl v (rootLe_trans htr hv hwl) x hx
    · exact ihr v (rootLe_trans htr hv hwr) x hx

theorem ordered_node_inv {cmp : T → T → Ordering} {v : T} {l r : BTree T}
    (h : BTree.Ordered cmp (.node v l r)) :
    BTree.Ordered cmp l ∧ BTree.Ordered cmp r ∧
      BTree.rootLe cmp v l ∧ BTree.rootLe cmp v r := by
  cases h with
  | node _ _ _ hl hr hvl hvr => exact ⟨hl, hr, hvl, hvr⟩

theorem mergeAbs_rootLe {cmp : T → T → Ordering} {v : T} :
    ∀ {tl tr : BTree T}, BTree.rootLe cmp v tl → BTree.rootLe cmp v tr →
      BTree.rootLe cmp v (mergeAbs cmp tl tr)
  | .nil, t, _, h2 => by rw [mergeAbs_nil_left]; exact h2
  | .node a la ra, .nil, h1, _ => by rw [mergeAbs_nil_right]; exact h1
  | .node a la ra, .node b lb rb, h1, h2 => by
    rw [mergeAbs]
    rcases hc : cmp a b with _ | _ | _ <;> first
      | exact h2
      | exact h1

theorem mergeAbs_ordered {cmp : T → T → Ordering}
    (hgl : ∀ a b, cmp a b = .gt ↔ cmp b a = .lt) :
    ∀ {tl tr : BTree T}, BTree.Ordered cmp tl → BTree.Ordered cmp tr →
      BTree.Ordered cmp (mergeAbs cmp tl tr)
  | .nil, t, _, h2 => by rw [mergeAbs_nil_left]; exact h2
  | .node a la ra, .nil, h1, _ => by rw [mergeAbs_nil_right]; exact h1
  | .node a la ra, .node b lb rb, h1, h2 => by
    obtain ⟨hol, hor, hal, har⟩ := ordered_node_inv h1
    obtain ⟨holb, horb, hbl, hbr⟩ := ordered_node_inv h2
    rw [mergeAbs]
    rcases hc : cmp a b with _ | _ | _
    case gt =>
      refine BTree.Ordered.node a _ _ (mergeAbs_ordered hgl hol hor)
        (BTree.Ordered.node b _ _ holb horb hbl hbr)
        (mergeAbs_rootLe hal har) ?_
      show cmp a b ≠ .lt
      rw [hc]; intro hcon; exact Ordering.noConfusion hcon
    all_goals
      refine BTree.Ordered.node b _ _
        (BTree.Ordered.node a _ _ hol hor hal har)
        (mergeAbs_ordered hgl holb horb) ?_ (mergeAbs_rootLe hbl hbr)
      show cmp b a ≠ .lt
      intro hcon
      rw [← hgl a b, hc] at hcon
      exact Ordering.noConfusion hcon
termination_by tl tr => tl.size + tr.size
decreasing_by
  all_goals simp [BTree.size]
  all_goals omega

/-- Slot access by pool alone, so the abstraction relation does not mention
the whole heap: `nodeAt h.pool i = h.getNode i`. -/
def nodeAt (pool : List (HeapNode T)) (i : HeapPtr) : HeapNode T :=
  if i < 0 then default else (pool.get? i.toNat).getD default

theorem getNode_eq_nodeAt (h : TreeHeap T) (i : HeapPtr) :
    h.getNode i = nodeAt h.pool i := rfl

/-- `Abs pool i d t`: starting at pointer `i`, the pool's child pointers
spell out the algebraic tree `t`, visiting exactly the slot set `d`, each
slot visited once, with every stored `size` equal to the size of its
subtree.  Parent pointers are deliberately unconstrained: `pop` leaves stale
ones (claim C4) without affecting what `pull_up` and the iterator read. -/
inductive Abs (pool : List (HeapNode T)) : HeapPtr → Finset ℕ → BTree T → Prop
  where
  | nil : ∀ i : HeapPtr, i < 0 → Abs pool i ∅ .nil
  | node : ∀ (i : HeapPtr), 0 ≤ i → i.toNat < pool.length →
      ∀ (dl dr : Finset ℕ) (tl tr : BTree T),
      Abs pool (nodeAt pool i).md.left_child dl tl →
      Abs pool (nodeAt pool i).md.right_child dr tr →
      i.toNat ∉ dl → i.toNat ∉ dr → Disjoint dl dr →
      (nodeAt pool i).md.size = 1 + tl.size + tr.size →
      Abs pool i (insert i.toNat (dl ∪ dr)) (.node (nodeAt pool i).value tl tr)

theorem abs_neg {pool : List (HeapNode T)} {i : HeapPtr} {d : Finset ℕ}
    {t : BTree T} (h : Abs pool i d t) (hi : i < 0) : d = ∅ ∧ t = .nil := by
  cases h with
  | nil => exact ⟨rfl, rfl⟩
  | node i hge => exact absurd hge (not_le.mpr hi)

theorem abs_nonneg {pool : List (HeapNode T)} {i : HeapPtr} {d : Finset ℕ}
    {t : BTree T} (h : Abs pool i d t) (hi : 0 ≤ i) :
    ∃ dl dr tl tr, i.toNat < pool.length ∧
      Abs pool (nodeAt pool i).md.left_child dl tl ∧
      Abs pool (nodeAt pool i).md.right_child dr tr ∧
      i.toNat ∉ dl ∧ i.toNat ∉ dr ∧ Disjoint dl dr ∧
      (nodeAt pool i).md.size = 1 + tl.size + tr.size ∧
      d = insert i.toNat (dl ∪ dr) ∧
      t = .node (nodeAt pool i).value tl tr := by
  cases h with
  | nil i hneg => exact absurd hi (not_le.mpr hneg)
  | node i hge hlt dl dr tl tr habl habr hml hmr hdis hsz =>
    exact ⟨dl, dr, tl, tr, hlt, habl, habr, hml, hmr, hdis, hsz, rfl, rfl⟩

theorem abs_card {pool : List (HeapNode T)} :
    ∀ {i : HeapPtr} {d : Finset ℕ} {t : BTree T},
      Abs pool i d t → d.card = t.size := by
  intro i d t h
  induction h with
  | nil => simp [BTree.size]
  | node i hge hlt dl dr tl tr habl habr hml hmr hdis hsz ihl ihr =>
    rw [Finset.card_insert_of_not_mem (by
      simp only [Finset.mem_union]
      intro hcon
      rcases hcon with hcon | hcon
      · exact hml hcon
      · exact hmr hcon)]
    rw [Finset.card_union_of_disjoint hdis, ihl, ihr]
    simp [BTree.size]
    omega

theorem abs_dom_lt {pool : List (HeapNode T)} :
    ∀ {i : HeapPtr} {d : Finset ℕ} {t : BTree T},
      Abs pool i d t → ∀ k ∈ d, k < pool.length := by
  intro i d t h
  induction h with
  | nil => intro k hk; simp at hk
  | node i hge hlt dl dr tl tr habl habr hml hmr hdis hsz ihl ihr =>
    intro k hk
    rcases Finset.mem_insert.1 hk with rfl | hk
    · exact hlt
    · rcases Finset.mem_union.1 hk with hk | hk
      · exact ihl k hk
      · exact ihr k hk

theorem abs_root_mem {pool : List (HeapNode T)} {i : HeapPtr} {d : Finset ℕ}
    {t : BTree T} (h : Abs pool i d t) (hi : 0 ≤ i) : i.toNat ∈ d := by
  cases h with
  | nil i hneg => exact absurd hi (not_le.mpr hneg)
  | node => exact Finset.mem_insert_self _ _

theorem abs_node_size {pool : List (HeapNode T)} {i : HeapPtr} {d : Finset ℕ}
    {v : T} {tl tr : BTree T} (h : Abs pool i d (.node v tl tr)) :
    (nodeAt pool i).md.size = (BTree.node v tl tr).size := by
  cases h with
  | node _ hge hlt dl dr tl tr habl habr hml hmr hdis hsz =>
    rw [hsz]; simp [BTree.size]


theorem nodeAt_nonneg {pool : List (HeapNode T)} {i : HeapPtr} (hi : 0 ≤ i) :
    nodeAt pool i = (pool.get? i.toNat).getD default := by
  unfold nodeAt
  rw [if_neg (Int.not_lt.mpr hi)]

/-- Two pools agree at slot `k` on everything `Abs` reads: the value, the
child pointers and the size (the parent pointer may differ). -/
def slotShapeEq (pool pool' : List (HeapNode T)) (k : ℕ) : Prop :=
  ((pool'.get? k).getD default).value = ((pool.get? k).getD default).value ∧
  ((pool'.get? k).getD default).md.left_child =
    ((pool.get? k).getD default).md.left_child ∧
  ((pool'.get? k).getD default).md.right_child =
    ((pool.get? k).getD default).md.right_child ∧
  ((pool'.get? k).getD default).md.size = ((pool.get? k).getD default).md.size

theorem slotShapeEq_of_get_eq {pool pool' : List (HeapNode T)} {k : ℕ}
    (h : pool'.get? k = pool.get? k) : slotShapeEq pool pool' k := by
  unfold slotShapeEq
  rw [h]
  exact ⟨rfl, rfl, rfl, rfl⟩

theorem nodeAt_shapeEq {pool pool' : List (HeapNode T)} {i : HeapPtr}
    (hi : 0 ≤ i) (hsh : slotShapeEq pool pool' i.toNat) :
    (nodeAt pool' i).value = (nodeAt pool i).value ∧
    (nodeAt pool' i).md.left_child = (nodeAt pool i).md.left_child ∧
    (nodeAt pool' i).md.right_child = (nodeAt pool i).md.right_child ∧
    (nodeAt pool' i).md.size = (nodeAt pool i).md.size := by
  rw [nodeAt_nonneg hi, nodeAt_nonneg hi]
  exact hsh

theorem abs_congr {pool pool' : List (HeapNode T)}
    (hlen : pool'.length = pool.length) :
    ∀ {i : HeapPtr} {d : Finset ℕ} {t : BTree T}, Abs pool i d t →
      (∀ k ∈ d, slotShapeEq pool pool' k) → Abs pool' i d t := by
  intro i d t h
  induction h with
  | nil i hneg => intro _; exact Abs.nil i hneg
  | node i hge hlt dl dr tl tr habl habr hml hmr hdis hsz ihl ihr =>
    intro hsh
    obtain ⟨hv, hl, hr, hs⟩ :=
      nodeAt_shapeEq hge (hsh i.toNat (Finset.mem_insert_self _ _))
    have hsub : ∀ k ∈ dl ∪ dr, slotShapeEq pool pool' k := by
      intro k hk
      exact hsh k (Finset.mem_insert_of_mem hk)
    have habl' : Abs pool' (nodeAt pool' i).md.left_child dl tl := by
      rw [hl]
      exact ihl (fun k hk => hsub k (Finset.mem_union_left _ hk))
    have habr' : Abs pool' (nodeAt pool' i).md.right_child dr tr := by
      rw [hr]
      exact ihr (fun k hk => hsub k (Finset.mem_union_right _ hk))
    have := @Abs.node T _ pool' i hge (by rw [hlen]; exact hlt) dl dr tl tr
      habl' habr' hml hmr hdis (by rw [hs, hsz])
    rw [hv] at this
    exact this

theorem setMd_neg {h : TreeHeap T} {j : HeapPtr} {md : HeapNodeMd}
    (hj : j < 0) : h.setMd j md = h := by
  unfold TreeHeap.setMd TreeHeap.setNode
  rw [if_pos hj]

theorem setMd_pool_nonneg {h : TreeHeap T} {j : HeapPtr} {md : HeapNodeMd}
    (hj : 0 ≤ j) :
    (h.setMd j md).pool = h.pool.set j.toNat ⟨(nodeAt h.pool j).value, md⟩ := by
  unfold TreeHeap.setMd TreeHeap.setNode
  rw [if_neg (Int.not_lt.mpr hj)]
  rfl

theorem setMd_root (h : TreeHeap T) (j : HeapPtr) (md : HeapNodeMd) :
    (h.setMd j md).root = h.root := by
  unfold TreeHeap.setMd TreeHeap.setNode
  split <;> rfl

theorem setMd_free (h : TreeHeap T) (j : HeapPtr) (md : HeapNodeMd) :
    (h.setMd j md).free_list = h.free_list := by
  unfold TreeHeap.setMd TreeHeap.setNode
  split <;> rfl

theorem setMd_length (h : TreeHeap T) (j : HeapPtr) (md : HeapNodeMd) :
    (h.setMd j md).pool.length = h.pool.length := by
  unfold TreeHeap.setMd TreeHeap.setNode
  split
  · rfl
  · exact List.length_set ..

theorem setMd_get_ne {h : TreeHeap T} {j : HeapPtr} {md : HeapNodeMd}
    {k : ℕ} (hk : ¬ (0 ≤ j ∧ j.toNat = k)) :
    (h.setMd j md).pool.get? k = h.pool.get? k := by
  by_cases hj : j < 0
  · rw [setMd_neg hj]
  · have hne : Int.toNat j ≠ k := fun he => hk ⟨Int.not_lt.mp hj, he⟩
    rw [setMd_pool_nonneg (Int.not_lt.mp hj)]
    exact List.get?_set_ne _ _ hne

theorem nodeAt_set_self {pool : List (HeapNode T)} {j : HeapPtr}
    {n : HeapNode T} (hj : 0 ≤ j) (hlt : j.toNat < pool.length) :
    nodeAt (pool.set j.toNat n) j = n := by
  rw [nodeAt_nonneg hj, List.get?_set_eq_of_lt _ hlt]
  rfl

theorem nodeAt_set_ne {pool : List (HeapNode T)} {j : ℕ} {n : HeapNode T}
    {k : HeapPtr} (hk : ¬ (0 ≤ k ∧ k.toNat = j)) :
    nodeAt (pool.set j n) k = nodeAt pool k := by
  by_cases hkneg : k < 0
  · unfold nodeAt
    rw [if_pos hkneg, if_pos hkneg]
  · have hne : j ≠ k.toNat := fun he => hk ⟨Int.not_lt.mp hkneg, he.symm⟩
    rw [nodeAt_nonneg (Int.not_lt.mp hkneg),
      nodeAt_nonneg (Int.not_lt.mp hkneg), List.get?_set_ne _ _ hne]

/-- A write to a slot outside the footprint of an abstract subtree leaves
the abstraction intact. -/
theorem abs_setMd_outside {h : TreeHeap T} {j : HeapPtr} {md : HeapNodeMd}
    {i : HeapPtr} {d : Finset ℕ} {t : BTree T} (habs : Abs h.pool i d t)
    (hj : ∀ _ : 0 ≤ j, j.toNat ∉ d) : Abs (h.setMd j md).pool i d t := by
  by_cases hjn : j < 0
  · rw [setMd_neg hjn]
    exact habs
  · refine abs_congr ?_ habs ?_
    · exact setMd_length ..
    · intro k hk
      refine slotShapeEq_of_get_eq (setMd_get_ne ?_)
      rintro ⟨hge, hkj⟩
      exact hj hge (hkj ▸ hk)

/-- A write that changes only the parent pointer of a slot leaves every
abstraction intact. -/
theorem abs_setMd_parent {h : TreeHeap T} {j p : HeapPtr}
    {i : HeapPtr} {d : Finset ℕ} {t : BTree T} (habs : Abs h.pool i d t) :
    Abs (h.setMd j { h.getMd j with parent := p }).pool i d t := by
  by_cases hjn : j < 0
  · rw [setMd_neg hjn]
    exact habs
  · refine abs_congr (setMd_length ..) habs ?_
    intro k hk
    by_cases hkj : j.toNat = k
    · subst hkj
      rw [setMd_pool_nonneg (Int.not_lt.mp hjn)]
      by_cases hlt : j.toNat < h.pool.length
      · unfold slotShapeEq
        rw [List.get?_set_eq_of_lt _ hlt]
        have hnd : nodeAt h.pool j = (h.pool.get? j.toNat).getD default :=
          nodeAt_nonneg (Int.not_lt.mp hjn)
        refine ⟨?_, ?_, ?_, ?_⟩ <;>
          simp [hnd, TreeHeap.getMd, getNode_eq_nodeAt]
      · have hno : h.pool.set j.toNat
            ⟨(nodeAt h.pool j).value, { h.getMd j with parent := p }⟩ =
            h.pool := List.set_eq_of_length_le (by omega)
        rw [hno]
        exact slotShapeEq_of_get_eq rfl
    · exact slotShapeEq_of_get_eq (setMd_get_ne fun hc => hkj hc.2)


theorem mergeAbs_node_not_gt {cmp : T → T → Ordering} {a b : T}
    {la ra lb rb : BTree T} (hc : cmp a b ≠ .gt) :
    mergeAbs cmp (.node a la ra) (.node b lb rb) =
      .node b (.node a la ra) (mergeAbs cmp lb rb) := by
  rw [mergeAbs]
  rcases hcc : cmp a b with _ | _ | _
  · rfl
  · rfl
  · exact absurd hcc hc

theorem abs_nil_neg {pool : List (HeapNode T)} {i : HeapPtr} {d : Finset ℕ}
    (h : Abs pool i d .nil) : i < 0 := by
  cases h with
  | nil i hneg => exact hneg

theorem abs_node_nonneg {pool : List (HeapNode T)} {i : HeapPtr}
    {d : Finset ℕ} {v : T} {tl tr : BTree T}
    (h : Abs pool i d (.node v tl tr)) : 0 ≤ i := by
  cases h with
  | node i hge => exact hge

theorem size_eq_zero {t : BTree T} (h : t.size = 0) : t = .nil := by
  cases t with
  | nil => rfl
  | node v l r => simp [BTree.size] at h

/-- What `pull_up` guarantees: the result pointer abstracts to the merge of
the two input subtrees over the union of their footprints, and nothing else
about the heap changes. -/
def PullUpSpec (cmp : T → T → Ordering) (h : TreeHeap T) (dl dr : Finset ℕ)
    (tl tr : BTree T) (out : TreeHeap T × HeapPtr) : Prop :=
  Abs out.1.pool out.2 (dl ∪ dr) (mergeAbs cmp tl tr) ∧
  (∀ k : ℕ, k ∉ dl ∪ dr → out.1.pool.get? k = h.pool.get? k) ∧
  out.1.pool.length = h.pool.length ∧
  out.1.root = h.root ∧
  out.1.free_list = h.free_list

set_option maxHeartbeats 2000000 in
theorem pullUp_abs (cmp : T → T → Ordering) (fuel : Nat) :
    ∀ (h : TreeHeap T) (l r : HeapPtr) (dl dr : Finset ℕ) (tl tr : BTree T),
      Abs h.pool l dl tl → Abs h.pool r dr tr → Disjoint dl dr →
      tl.size + tr.size ≤ fuel →
      PullUpSpec cmp h dl dr tl tr (TreeHeap.pull_up cmp fuel h l r) := by
  induction fuel with
  | zero =>
    intro h l r dl dr tl tr habl habr hdis hsz
    have htl : tl = .nil := size_eq_zero (by omega)
    have htr0 : tr = .nil := size_eq_zero (by omega)
    subst htl htr0
    have hdl : dl = ∅ := Finset.card_eq_zero.1 (by
      rw [abs_card habl]; rfl)
    have hdr : dr = ∅ := Finset.card_eq_zero.1 (by
      rw [abs_card habr]; rfl)
    subst hdl hdr
    refine ⟨?_, fun k _ => rfl, rfl, rfl, rfl⟩
    rw [mergeAbs_nil_left, Finset.empty_union]
    exact Abs.nil (-1) (by norm_num)
  | succ fuel ih =>
    intro h l r dl dr tl tr habl habr hdis hsz
    by_cases hlneg : l < 0
    · obtain ⟨hdl, htl⟩ := abs_neg habl hlneg
      subst hdl htl
      have hstep : TreeHeap.pull_up cmp (fuel + 1) h l r = (h, r) := by
        unfold TreeHeap.pull_up
        rw [if_pos hlneg]
      rw [hstep]
      refine ⟨?_, fun k _ => rfl, rfl, rfl, rfl⟩
      rw [mergeAbs_nil_left, Finset.empty_union]
      exact habr
    by_cases hrneg : r < 0
    · obtain ⟨hdr, htr0⟩ := abs_neg habr hrneg
      subst hdr htr0
      have hstep : TreeHeap.pull_up cmp (fuel + 1) h l r = (h, l) := by
        unfold TreeHeap.pull_up
        rw [if_neg hlneg, if_pos hrneg]
      rw [hstep]
      refine ⟨?_, fun k _ => rfl, rfl, rfl, rfl⟩
      rw [mergeAbs_nil_right, Finset.union_empty]
      exact habl
    -- both subtrees are real nodes
    obtain ⟨dll, dlr, tll, tlr, hllt, habll, hablr, hmll, hmlr, hdisl, hszl,
      hdleq, htleq⟩ := abs_nonneg habl (Int.not_lt.mp hlneg)
    obtain ⟨drl, drr, trl, trr, hrlt, habrl, habrr, hmrl, hmrr, hdisr, hszr,
      hdreq, htreq⟩ := abs_nonneg habr (Int.not_lt.mp hrneg)
    have hlr_ne : l.toNat ≠ r.toNat := by
      intro hc
      have h1 : l.toNat ∈ dl := abs_root_mem habl (Int.not_lt.mp hlneg)
      have h2 : r.toNat ∈ dr := abs_root_mem habr (Int.not_lt.mp hrneg)
      rw [hc] at h1
      exact Finset.disjoint_left.1 hdis h1 h2
    have hsubl : dll ∪ dlr ⊆ dl := by
      rw [hdleq]
      exact Finset.subset_insert _ _
    have hsubr : drl ∪ drr ⊆ dr := by
      rw [hdreq]
      exact Finset.subset_insert _ _
    by_cases hcmp : cmp (h.getNode l).value (h.getNode r).value = .gt
    · -- go_left branch
      have hstep : TreeHeap.pull_up cmp (fuel + 1) h l r =
          (let res := TreeHeap.pull_up cmp fuel h
            (nodeAt h.pool l).md.left_child (nodeAt h.pool l).md.right_child
          let h2 := res.1.setMd l
            { (nodeAt h.pool l).md with left_child := res.2, right_child := r }
          let h3 := h2.update_size l
          let h4 := h3.setMd r { h3.getMd r with parent := l }
          (h4, l)) := by
        conv_lhs => rw [TreeHeap.pull_up]
        rw [if_neg hlneg, if_neg hrneg, hcmp]
        rfl
      rw [hstep]
      clear hstep
      obtain ⟨habs_p, hunt, hplen, hproot, hpfree⟩ :=
        ih h (nodeAt h.pool l).md.left_child (nodeAt h.pool l).md.right_child
          dll dlr tll tlr habll hablr hdisl (by
            rw [htleq, htreq] at hsz
            simp [BTree.size] at hsz
            omega)
      dsimp only
      set res := TreeHeap.pull_up cmp fuel h
        (nodeAt h.pool l).md.left_child (nodeAt h.pool l).md.right_child
        with hres
      set md2 : HeapNodeMd :=
        { (nodeAt h.pool l).md with left_child := res.2, right_child := r }
        with hmd2
      set h2 := res.1.setMd l md2 with hh2
      set h3 := h2.update_size l with hh3
      set h4 := h3.setMd r { h3.getMd r with parent := l } with hh4
      -- slots in dr are untouched by the recursive call
      have hresr : ∀ k ∈ dr, res.1.pool.get? k = h.pool.get? k := by
        intro k hk
        refine hunt k ?_
        intro hc
        exact Finset.disjoint_left.1 hdis (hsubl hc) hk
      have habr1 : Abs res.1.pool r dr tr := by
        refine abs_congr hplen habr ?_
        intro k hk
        exact slotShapeEq_of_get_eq (hresr k hk)
      -- slot l is untouched by the recursive call
      have hresl : res.1.pool.get? l.toNat = h.pool.get? l.toNat := by
        refine hunt l.toNat ?_
        intro hc
        rcases Finset.mem_union.1 hc with hc | hc
        · exact hmll hc
        · exact hmlr hc
      have hlnn : (0:Int) ≤ l := Int.not_lt.mp hlneg
      have hrnn : (0:Int) ≤ r := Int.not_lt.mp hrneg
      have hvl : (nodeAt res.1.pool l).value = (nodeAt h.pool l).value := by
        rw [nodeAt_nonneg hlnn, nodeAt_nonneg hlnn, hresl]
      -- the three writes preserve the two subtree abstractions
      have hmem_l_dlr : ∀ _ : (0:Int) ≤ l, l.toNat ∉ dll ∪ dlr := by
        intro _ hc
        rcases Finset.mem_union.1 hc with hc | hc
        · exact hmll hc
        · exact hmlr hc
      have hmem_l_dr : ∀ _ : (0:Int) ≤ l, l.toNat ∉ dr := by
        intro _ hc
        exact Finset.disjoint_left.1 hdis
          (by rw [hdleq]; exact Finset.mem_insert_self _ _) hc
      have habs_p2 : Abs h2.pool res.2 (dll ∪ dlr) (mergeAbs cmp tll tlr) :=
        abs_setMd_outside habs_p hmem_l_dlr
      have habs_p3 : Abs h3.pool res.2 (dll ∪ dlr) (mergeAbs cmp tll tlr) :=
        abs_setMd_outside habs_p2 hmem_l_dlr
      have habs_p4 : Abs h4.pool res.2 (dll ∪ dlr) (mergeAbs cmp tll tlr) :=
        abs_setMd_parent habs_p3
      have habr2 : Abs h2.pool r dr tr := abs_setMd_outside habr1 hmem_l_dr
      have habr3 : Abs h3.pool r dr tr := abs_setMd_outside habr2 hmem_l_dr
      have habr4 : Abs h4.pool r dr tr := abs_setMd_parent habr3
      -- compute slot l through the writes
      have hlen2 : h2.pool.length = h.pool.length := by
        rw [hh2, setMd_length, hplen]
      have hpool2 : h2.pool = res.1.pool.set l.toNat ⟨(nodeAt h.pool l).value, md2⟩ := by
        rw [hh2, setMd_pool_nonneg hlnn, hvl]
      have hnode2 : nodeAt h2.pool l = ⟨(nodeAt h.pool l).value, md2⟩ := by
        rw [hpool2]
        exact nodeAt_set_self hlnn (by rw [hplen]; exact hllt)
      -- sizes read by update_size
      have hs1 : (if 0 ≤ md2.left_child then (h2.getMd md2.left_child).size
          else 0) = (mergeAbs cmp tll tlr).size := by
        rcases hmg : mergeAbs cmp tll tlr with _ | ⟨mv, ml, mr⟩
        · rw [if_neg]
          · rfl
          · rw [hmd2]
            dsimp only
            rw [hmg] at habs_p
            exact Int.not_le.mpr (abs_nil_neg habs_p)
        · rw [hmg] at habs_p2
          have hpnn : (0:Int) ≤ res.2 := abs_node_nonneg habs_p2
          rw [if_pos (by rw [hmd2]; exact hpnn)]
          have := abs_node_size habs_p2
          show (nodeAt h2.pool md2.left_child).md.size = _
          rw [hmd2]
          dsimp only
          rw [this]
      have hs2 : (if 0 ≤ md2.right_child then (h2.getMd md2.right_child).size
          else 0) = tr.size := by
        rw [if_pos (by rw [hmd2]; exact hrnn)]
        have := abs_node_size (htreq ▸ habr2)
        show (nodeAt h2.pool md2.right_child).md.size = _
        rw [hmd2]
        dsimp only
        rw [this, htreq]
      have hpool3 : h3.pool = h2.pool.set l.toNat
          ⟨(nodeAt h.pool l).value,
            { md2 with size := 1 + (mergeAbs cmp tll tlr).size + tr.size }⟩ := by
        rw [hh3]
        show (h2.setMd l _).pool = _
        rw [setMd_pool_nonneg hlnn]
        have hgmd : h2.getMd l = md2 := by
          show (nodeAt h2.pool l).md = md2
          rw [hnode2]
        rw [hnode2, hgmd, hs1, hs2]
      have hnode3 : nodeAt h3.pool l = ⟨(nodeAt h.pool l).value,
          { md2 with size := 1 + (mergeAbs cmp tll tlr).size + tr.size }⟩ := by
        rw [hpool3]
        exact nodeAt_set_self hlnn (by rw [hlen2]; exact hllt)
      have hnode4 : nodeAt h4.pool l = ⟨(nodeAt h.pool l).value,
          { md2 with size := 1 + (mergeAbs cmp tll tlr).size + tr.size }⟩ := by
        rw [hh4]
        have : (h3.setMd r { h3.getMd r with parent := l }).pool =
            h3.pool.set r.toNat ⟨(nodeAt h3.pool r).value,
              { h3.getMd r with parent := l }⟩ := setMd_pool_nonneg hrnn
        rw [this, nodeAt_set_ne (by
          rintro ⟨_, hc⟩
          exact hlr_ne hc), hnode3]
      -- assemble the node abstraction at l
      have hfinal : Abs h4.pool l (insert l.toNat ((dll ∪ dlr) ∪ dr))
          (.node (nodeAt h4.pool l).value (mergeAbs cmp tll tlr) tr) := by
        refine Abs.node l hlnn ?_ (dll ∪ dlr) dr (mergeAbs cmp tll tlr) tr
          ?_ ?_ (hmem_l_dlr hlnn) (hmem_l_dr hlnn) ?_ ?_
        · have h4len : h4.pool.length = h.pool.length := by
            rw [hh4, setMd_length, hh3]
            show (h2.setMd l _).pool.length = _
            rw [setMd_length, hlen2]
          rw [h4len]
          exact hllt
        · rw [hnode4]
          exact habs_p4
        · rw [hnode4]
          exact habr4
        · exact Finset.disjoint_of_subset_left hsubl hdis
        · rw [hnode4]
      refine ⟨?_, ?_, ?_, ?_, ?_⟩
      · -- abstraction component
        have hval4 : (nodeAt h4.pool l).value = (nodeAt h.pool l).value := by
          rw [hnode4]
        rw [hval4] at hfinal
        have hdom : insert l.toNat ((dll ∪ dlr) ∪ dr) = dl ∪ dr := by
          rw [hdleq]
          ext x
          simp only [Finset.mem_insert, Finset.mem_union]
          tauto
        rw [hdom] at hfinal
        have htree : BTree.node (nodeAt h.pool l).value (mergeAbs cmp tll tlr)
            tr = mergeAbs cmp tl tr := by
          rw [htleq, htreq, mergeAbs]
          have hcmp' : cmp (nodeAt h.pool l).value (nodeAt h.pool r).value =
              .gt := hcmp
          rw [hcmp']
        rw [htree] at hfinal
        exact hfinal
      · -- untouched slots
        intro k hk
        have hknl : ¬ ((0:Int) ≤ l ∧ l.toNat = k) := by
          rintro ⟨_, hc⟩
          exact hk (Finset.mem_union_left _ (by
            rw [hdleq, ← hc]
            exact Finset.mem_insert_self _ _))
        have hknr : ¬ ((0:Int) ≤ r ∧ r.toNat = k) := by
          rintro ⟨_, hc⟩
          exact hk (Finset.mem_union_right _ (by
            rw [hdreq, ← hc]
            exact Finset.mem_insert_self _ _))
        have e4 : h4.pool.get? k = h3.pool.get? k := setMd_get_ne hknr
        have e3 : h3.pool.get? k = h2.pool.get? k := setMd_get_ne hknl
        have e2 : h2.pool.get? k = res.1.pool.get? k := setMd_get_ne hknl
        have e1 : res.1.pool.get? k = h.pool.get? k := hunt k (by
          intro hc
          exact hk (Finset.mem_union_left _ (hsubl hc)))
        rw [e4, e3, e2, e1]
      · rw [hh4, setMd_length, hh3]
        show (h2.setMd l _).pool.length = _
        rw [setMd_length, hlen2]
      · rw [hh4, setMd_root, hh3]
        show (h2.setMd l _).root = _
        rw [setMd_root, hh2, setMd_root, hproot]
      · rw [hh4, setMd_free, hh3]
        show (h2.setMd l _).free_list = _
        rw [setMd_free, hh2, setMd_free, hpfree]
    · -- go_right branch
      have hgo : (match cmp (h.getNode l).value (h.getNode r).value with
          | Ordering.gt => true
          | _ => false) = false := by
        rcases hc : cmp (h.getNode l).value (h.getNode r).value with _ | _ | _
        · rfl
        · rfl
        · exact absurd hc hcmp
      have hstep : TreeHeap.pull_up cmp (fuel + 1) h l r =
          (let res := TreeHeap.pull_up cmp fuel h
            (nodeAt h.pool r).md.left_child (nodeAt h.pool r).md.right_child
          let h2 := res.1.setMd r
            { (nodeAt h.pool r).md with left_child := l, right_child := res.2 }
          let h3 := h2.update_size r
          let h4 := h3.setMd l { h3.getMd l with parent := r }
          (h4, r)) := by
        conv_lhs => rw [TreeHeap.pull_up]
        rw [if_neg hlneg, if_neg hrneg, hgo]
        rfl
      rw [hstep]
      clear hstep
      obtain ⟨habs_p, hunt, hplen, hproot, hpfree⟩ :=
        ih h (nodeAt h.pool r).md.left_child (nodeAt h.pool r).md.right_child
          drl drr trl trr habrl habrr hdisr (by
            rw [htleq, htreq] at hsz
            simp [BTree.size] at hsz
            omega)
      dsimp only
      set res := TreeHeap.pull_up cmp fuel h
        (nodeAt h.pool r).md.left_child (nodeAt h.pool r).md.right_child
        with hres
      set md2 : HeapNodeMd :=
        { (nodeAt h.pool r).md with left_child := l, right_child := res.2 }
        with hmd2
      set h2 := res.1.setMd r md2 with hh2
      set h3 := h2.update_size r with hh3
      set h4 := h3.setMd l { h3.getMd l with parent := r } with hh4
      -- slots in dl are untouched by the recursive call
      have hresl : ∀ k ∈ dl, res.1.pool.get? k = h.pool.get? k := by
        intro k hk
        refine hunt k ?_
        intro hc
        exact Finset.disjoint_left.1 hdis hk (hsubr hc)
      have habl1 : Abs res.1.pool l dl tl := by
        refine abs_congr hplen habl ?_
        intro k hk
        exact slotShapeEq_of_get_eq (hresl k hk)
      have hresr : res.1.pool.get? r.toNat = h.pool.get? r.toNat := by
        refine hunt r.toNat ?_
        intro hc
        rcases Finset.mem_union.1 hc with hc | hc
        · exact hmrl hc
        · exact hmrr hc
      have hlnn : (0:Int) ≤ l := Int.not_lt.mp hlneg
      have hrnn : (0:Int) ≤ r := Int.not_lt.mp hrneg
      have hvr : (nodeAt res.1.pool r).value = (nodeAt h.pool r).value := by
        rw [nodeAt_nonneg hrnn, nodeAt_nonneg hrnn, hresr]
      have hmem_r_drr : ∀ _ : (0:Int) ≤ r, r.toNat ∉ drl ∪ drr := by
        intro _ hc
        rcases Finset.mem_union.1 hc with hc | hc
        · exact hmrl hc
        · exact hmrr hc
      have hmem_r_dl : ∀ _ : (0:Int) ≤ r, r.toNat ∉ dl := by
        intro _ hc
        exact Finset.disjoint_left.1 hdis hc
          (by rw [hdreq]; exact Finset.mem_insert_self _ _)
      have habs_p2 : Abs h2.pool res.2 (drl ∪ drr) (mergeAbs cmp trl trr) :=
        abs_setMd_outside habs_p hmem_r_drr
      have habs_p3 : Abs h3.pool res.2 (drl ∪ drr) (mergeAbs cmp trl trr) :=
        abs_setMd_outside habs_p2 hmem_r_drr
      have habs_p4 : Abs h4.pool res.2 (drl ∪ drr) (mergeAbs cmp trl trr) :=
        abs_setMd_parent habs_p3
      have habl2 : Abs h2.pool l dl tl := abs_setMd_outside habl1 hmem_r_dl
      have habl3 : Abs h3.pool l dl tl := abs_setMd_outside habl2 hmem_r_dl
      have habl4 : Abs h4.pool l dl tl := abs_setMd_parent habl3
      have hlen2 : h2.pool.length = h.pool.length := by
        rw [hh2, setMd_length, hplen]
      have hpool2 : h2.pool = res.1.pool.set r.toNat ⟨(nodeAt h.pool r).value, md2⟩ := by
        rw [hh2, setMd_pool_nonneg hrnn, hvr]
      have hnode2 : nodeAt h2.pool r = ⟨(nodeAt h.pool r).value, md2⟩ := by
        rw [hpool2]
        exact nodeAt_set_self hrnn (by rw [hplen]; exact hrlt)
      have hs1 : (if 0 ≤ md2.left_child then (h2.getMd md2.left_child).size
          else 0) = tl.size := by
        rw [if_pos (by rw [hmd2]; exact hlnn)]
        have := abs_node_size (htleq ▸ habl2)
        show (nodeAt h2.pool md2.left_child).md.size = _
        rw [hmd2]
        dsimp only
        rw [this, htleq]
      have hs2 : (if 0 ≤ md2.right_child then (h2.getMd md2.right_child).size
          else 0) = (mergeAbs cmp trl trr).size := by
        rcases hmg : mergeAbs cmp trl trr with _ | ⟨mv, ml, mr⟩
        · rw [if_neg]
          · rfl
          · rw [hmd2]
            dsimp only
            rw [hmg] at habs_p
            exact Int.not_le.mpr (abs_nil_neg habs_p)
        · rw [hmg] at habs_p2
          have hpnn : (0:Int) ≤ res.2 := abs_node_nonneg habs_p2
          rw [if_pos (by rw [hmd2]; exact hpnn)]
          have := abs_node_size habs_p2
          show (nodeAt h2.pool md2.right_child).md.size = _
          rw [hmd2]
          dsimp only
          rw [this]
      have hpool3 : h3.pool = h2.pool.set r.toNat
          ⟨(nodeAt h.pool r).value,
            { md2 with size := 1 + tl.size + (mergeAbs cmp trl trr).size }⟩ := by
        rw [hh3]
        show (h2.setMd r _).pool = _
        rw [setMd_pool_nonneg hrnn]
        have hgmd : h2.getMd r = md2 := by
          show (nodeAt h2.pool r).md = md2
          rw [hnode2]
        rw [hnode2, hgmd, hs1, hs2]
      have hnode3 : nodeAt h3.pool r = ⟨(nodeAt h.pool r).value,
          { md2 with size := 1 + tl.size + (mergeAbs cmp trl trr).size }⟩ := by
        rw [hpool3]
        exact nodeAt_set_self hrnn (by rw [hlen2]; exact hrlt)
      have hnode4 : nodeAt h4.pool r = ⟨(nodeAt h.pool r).value,
          { md2 with size := 1 + tl.size + (mergeAbs cmp trl trr).size }⟩ := by
        rw [hh4]
        have : (h3.setMd l { h3.getMd l with parent := r }).pool =
            h3.pool.set l.toNat ⟨(nodeAt h3.pool l).value,
              { h3.getMd l with parent := r }⟩ := setMd_pool_nonneg hlnn
        rw [this, nodeAt_set_ne (by
          rintro ⟨_, hc⟩
          exact hlr_ne hc.symm), hnode3]
      have hfinal : Abs h4.pool r (insert r.toNat (dl ∪ (drl ∪ drr)))
          (.node (nodeAt h4.pool r).value tl (mergeAbs cmp trl trr)) := by
        refine Abs.node r hrnn ?_ dl (drl ∪ drr) tl (mergeAbs cmp trl trr)
          ?_ ?_ (hmem_r_dl hrnn) (hmem_r_drr hrnn) ?_ ?_
        · have h4len : h4.pool.length = h.pool.length := by
            rw [hh4, setMd_length, hh3]
            show (h2.setMd r _).pool.length = _
            rw [setMd_length, hlen2]
          rw [h4len]
          exact hrlt
        · rw [hnode4]
          exact habl4
        · rw [hnode4]
          exact habs_p4
        · exact Finset.disjoint_of_subset_right hsubr hdis
        · rw [hnode4]
      refine ⟨?_, ?_, ?_, ?_, ?_⟩
      · have hval4 : (nodeAt h4.pool r).value = (nodeAt h.pool r).value := by
          rw [hnode4]
        rw [hval4] at hfinal
        have hdom : insert r.toNat (dl ∪ (drl ∪ drr)) = dl ∪ dr := by
          rw [hdreq]
          ext x
          simp only [Finset.mem_insert, Finset.mem_union]
          tauto
        rw [hdom] at hfinal
        have htree : BTree.node (nodeAt h.pool r).value tl
            (mergeAbs cmp trl trr) = mergeAbs cmp tl tr := by
          rw [htleq, htreq, mergeAbs_node_not_gt]
          exact hcmp
        rw [htree] at hfinal
        exact hfinal
      · intro k hk
        have hknl : ¬ ((0:Int) ≤ l ∧ l.toNat = k) := by
          rintro ⟨_, hc⟩
          exact hk (Finset.mem_union_left _ (hc ▸ abs_root_mem habl hlnn))
        have hknr : ¬ ((0:Int) ≤ r ∧ r.toNat = k) := by
          rintro ⟨_, hc⟩
          exact hk (Finset.mem_union_right _ (by
            rw [hdreq, ← hc]
            exact Finset.mem_insert_self _ _))
        have e4 : h4.pool.get? k = h3.pool.get? k := setMd_get_ne hknl
        have e3 : h3.pool.get? k = h2.pool.get? k := setMd_get_ne hknr
        have e2 : h2.pool.get? k = res.1.pool.get? k := setMd_get_ne hknr
        have e1 : res.1.pool.get? k = h.pool.get? k := hunt k (by
          intro hc
          exact hk (Finset.mem_union_right _ (hsubr hc)))
        rw [e4, e3, e2, e1]
      · rw [hh4, setMd_length, hh3]
        show (h2.setMd r _).pool.length = _
        rw [setMd_length, hlen2]
      · rw [hh4, setMd_root, hh3]
        show (h2.setMd r _).root = _
        rw [setMd_root, hh2, setMd_root, hproot]
      · rw [hh4, setMd_free, hh3]
        show (h2.setMd r _).free_list = _
        rw [setMd_free, hh2, setMd_free, hpfree]


/-! Characterizations of the comparators used by the book sides. -/

theorem intCmp_lt {x y : Int} : intCmp x y = .lt ↔ x < y := by
  unfold intCmp
  by_cases h1 : x < y
  · simp [h1]
  · rw [if_neg h1]
    by_cases h2 : x = y <;> simp [h2] <;> omega

theorem intCmp_eq {x y : Int} : intCmp x y = .eq ↔ x = y := by
  unfold intCmp
  by_cases h1 : x < y
  · simp [h1]
    omega
  · rw [if_neg h1]
    by_cases h2 : x = y <;> simp [h2]

theorem intCmp_gt {x y : Int} : intCmp x y = .gt ↔ y < x := by
  unfold intCmp
  by_cases h1 : x < y
  · simp [h1]
    omega
  · rw [if_neg h1]
    by_cases h2 : x = y <;> simp [h2] <;> omega

/-- Strict lexicographic order on timestamps. -/
def tsLt (x y : Timespec) : Prop :=
  x.sec < y.sec ∨ (x.sec = y.sec ∧ x.nsec < y.nsec)

instance (x y : Timespec) : Decidable (tsLt x y) :=
  inferInstanceAs (Decidable (_ ∨ _))

theorem tsCmp_lt {x y : Timespec} : tsCmp x y = .lt ↔ tsLt x y := by
  unfold tsCmp tsLt
  rcases hs : intCmp x.sec y.sec with _ | _ | _
  · rw [intCmp_lt] at hs
    simp
    omega
  · rw [intCmp_eq] at hs
    simp [intCmp_lt]
    omega
  · rw [intCmp_gt] at hs
    simp
    omega

theorem tsCmp_gt {x y : Timespec} : tsCmp x y = .gt ↔ tsLt y x := by
  unfold tsCmp tsLt
  rcases hs : intCmp x.sec y.sec with _ | _ | _
  · rw [intCmp_lt] at hs
    simp
    omega
  · rw [intCmp_eq] at hs
    simp [intCmp_gt]
    omega
  · rw [intCmp_gt] at hs
    simp
    omega

theorem tsCmp_eq {x y : Timespec} : tsCmp x y = .eq ↔
    x.sec = y.sec ∧ x.nsec = y.nsec := by
  unfold tsCmp
  rcases hs : intCmp x.sec y.sec with _ | _ | _
  · rw [intCmp_lt] at hs
    simp
    omega
  · rw [intCmp_eq] at hs
    simp [intCmp_eq]
    omega
  · rw [intCmp_gt] at hs
    simp
    omega

theorem buyCompare_gt {x y : Order} : BuyComparer.compare x y = .gt ↔
    (y.price < x.price ∨ (x.price = y.price ∧ tsLt x.update y.update)) := by
  show (match intCmp x.price y.price with
    | Ordering.gt => Ordering.gt
    | Ordering.lt => Ordering.lt
    | Ordering.eq =>
      match tsCmp x.update y.update with
      | Ordering.gt => Ordering.lt
      | Ordering.lt => Ordering.gt
      | Ordering.eq => Ordering.eq) = Ordering.gt ↔ _
  rcases hp : intCmp x.price y.price with _ | _ | _
  · rw [intCmp_lt] at hp
    simp
    omega
  · rw [intCmp_eq] at hp
    rcases ht : tsCmp x.update y.update with _ | _ | _
    · rw [tsCmp_lt] at ht
      simp [hp, ht]
    · rw [tsCmp_eq] at ht
      unfold tsLt
      simp [hp]
      omega
    · rw [tsCmp_gt] at ht
      unfold tsLt at ht ⊢
      simp [hp]
      omega
  · rw [intCmp_gt] at hp
    simp
    omega

theorem buyCompare_lt {x y : Order} : BuyComparer.compare x y = .lt ↔
    (x.price < y.price ∨ (x.price = y.price ∧ tsLt y.update x.update)) := by
  show (match intCmp x.price y.price with
    | Ordering.gt => Ordering.gt
    | Ordering.lt => Ordering.lt
    | Ordering.eq =>
      match tsCmp x.update y.update with
      | Ordering.gt => Ordering.lt
      | Ordering.lt => Ordering.gt
      | Ordering.eq => Ordering.eq) = Ordering.lt ↔ _
  rcases hp : intCmp x.price y.price with _ | _ | _
  · rw [intCmp_lt] at hp
    simp
    omega
  · rw [intCmp_eq] at hp
    rcases ht : tsCmp x.update y.update with _ | _ | _
    · rw [tsCmp_lt] at ht
      unfold tsLt at ht ⊢
      simp [hp]
      omega
    · rw [tsCmp_eq] at ht
      unfold tsLt
      simp [hp]
      omega
    · rw [tsCmp_gt] at ht
      simp [hp, ht]
  · rw [intCmp_gt] at hp
    simp
    omega

theorem sellCompare_gt {x y : Order} : SellComparer.compare x y = .gt ↔
    (x.price < y.price ∨ (x.price = y.price ∧ tsLt x.update y.update)) := by
  show (match intCmp x.price y.price with
    | Ordering.gt => Ordering.lt
    | Ordering.lt => Ordering.gt
    | Ordering.eq =>
      match tsCmp x.update y.update with
      | Ordering.gt => Ordering.lt
      | Ordering.lt => Ordering.gt
      | Ordering.eq => Ordering.eq) = Ordering.gt ↔ _
  rcases hp : intCmp x.price y.price with _ | _ | _
  · rw [intCmp_lt] at hp
    simp
    omega
  · rw [intCmp_eq] at hp
    rcases ht : tsCmp x.update y.update with _ | _ | _
    · rw [tsCmp_lt] at ht
      simp [hp, ht]
    · rw [tsCmp_eq] at ht
      unfold tsLt
      simp [hp]
      omega
    · rw [tsCmp_gt] at ht
      unfold tsLt at ht ⊢
      simp [hp]
      omega
  · rw [intCmp_gt] at hp
    simp
    omega

theorem sellCompare_lt {x y : Order} : SellComparer.compare x y = .lt ↔
    (y.price < x.price ∨ (x.price = y.price ∧ tsLt y.update x.update)) := by
  show (match intCmp x.price y.price with
    | Ordering.gt => Ordering.lt
    | Ordering.lt => Ordering.gt
    | Ordering.eq =>
      match tsCmp x.update y.update with
      | Ordering.gt => Ordering.lt
      | Ordering.lt => Ordering.gt
      | Ordering.eq => Ordering.eq) = Ordering.lt ↔ _
  rcases hp : intCmp x.price y.price with _ | _ | _
  · rw [intCmp_lt] at hp
    simp
    omega
  · rw [intCmp_eq] at hp
    rcases ht : tsCmp x.update y.update with _ | _ | _
    · rw [tsCmp_lt] at ht
      unfold tsLt at ht ⊢
      simp [hp]
      omega
    · rw [tsCmp_eq] at ht
      unfold tsLt
      simp [hp]
      omega
    · rw [tsCmp_gt] at ht
      simp [hp, ht]
  · rw [intCmp_gt] at hp
    simp
    omega

theorem buyCompare_gl : ∀ a b : Order,
    BuyComparer.compare a b = .gt ↔ BuyComparer.compare b a = .lt := by
  intro a b
  rw [buyCompare_gt, buyCompare_lt]
  unfold tsLt
  constructor <;> (intro h; rcases h with h | ⟨h1, h2⟩)
  · left
    exact h
  · right
    omega
  · left
    exact h
  · right
    omega

theorem buyCompare_trans : ∀ a b c : Order,
    BuyComparer.compare a b ≠ .lt → BuyComparer.compare b c ≠ .lt →
      BuyComparer.compare a c ≠ .lt := by
  intro a b c h1 h2 h3
  rw [Ne, buyCompare_lt] at h1 h2
  rw [buyCompare_lt] at h3
  unfold tsLt at h1 h2 h3
  omega

theorem sellCompare_gl : ∀ a b : Order,
    SellComparer.compare a b = .gt ↔ SellComparer.compare b a = .lt := by
  intro a b
  rw [sellCompare_gt, sellCompare_lt]
  unfold tsLt
  constructor <;> (intro h; rcases h with h | ⟨h1, h2⟩)
  · left
    exact h
  · right
    omega
  · left
    exact h
  · right
    omega

theorem sellCompare_trans : ∀ a b c : Order,
    SellComparer.compare a b ≠ .lt → SellComparer.compare b c ≠ .lt →
      SellComparer.compare a c ≠ .lt := by
  intro a b c h1 h2 h3
  rw [Ne, sellCompare_lt] at h1 h2
  rw [sellCompare_lt] at h3
  unfold tsLt at h1 h2 h3
  omega


theorem abs_size_le_length {pool : List (HeapNode T)} {i : HeapPtr}
    {d : Finset ℕ} {t : BTree T} (h : Abs pool i d t) :
    t.size ≤ pool.length := by
  rw [← abs_card h]
  have hsub : d ⊆ Finset.range pool.length := by
    intro x hx
    exact Finset.mem_range.mpr (abs_dom_lt h x hx)
  calc d.card ≤ (Finset.range pool.length).card := Finset.card_le_card hsub
    _ = pool.length := Finset.card_range _

/-- `pop` on a heap whose root abstracts to a node returns that node's value
and leaves a heap abstracting to the merge of the two subtrees, with the
free list and pool length untouched. -/
theorem pop_abs (cmp : T → T → Ordering) (h : TreeHeap T) {d : Finset ℕ}
    {v : T} {tl tr : BTree T} (hab : Abs h.pool h.root d (.node v tl tr)) :
    ∃ (h' : TreeHeap T) (dl dr : Finset ℕ),
      h.pop cmp = some (h', v) ∧ dl ∪ dr ⊆ d ∧
      Abs h'.pool h'.root (dl ∪ dr) (mergeAbs cmp tl tr) ∧
      h'.pool.length = h.pool.length ∧
      h'.free_list = h.free_list := by
  have hge : (0:Int) ≤ h.root := abs_node_nonneg hab
  obtain ⟨dl, dr, tl', tr', hlt, habl, habr, hml, hmr, hdis, hsz, hdeq, hteq⟩ :=
    abs_nonneg hab hge
  injection hteq with hv htleq htreq
  subst htleq htreq
  have hszfuel : tl.size + tr.size ≤ h.pool.length := by
    have := abs_size_le_length hab
    simp [BTree.size] at this
    omega
  obtain ⟨habs_p, hunt, hplen, hproot, hpfree⟩ :=
    pullUp_abs cmp h.pool.length h (nodeAt h.pool h.root).md.left_child
      (nodeAt h.pool h.root).md.right_child dl dr tl tr habl habr hdis hszfuel
  have hstep : h.pop cmp = some
      ({ (TreeHeap.pull_up cmp h.pool.length h
            (nodeAt h.pool h.root).md.left_child
            (nodeAt h.pool h.root).md.right_child).1 with
          root := (TreeHeap.pull_up cmp h.pool.length h
            (nodeAt h.pool h.root).md.left_child
            (nodeAt h.pool h.root).md.right_child).2 },
        ((TreeHeap.pull_up cmp h.pool.length h
            (nodeAt h.pool h.root).md.left_child
            (nodeAt h.pool h.root).md.right_child).1.getNode h.root).value) := by
    unfold TreeHeap.pop
    rw [if_neg (Int.not_lt.mpr hge)]
    rfl
  have hrootmem : h.root.toNat ∉ dl ∪ dr := by
    intro hc
    rcases Finset.mem_union.1 hc with hc | hc
    · exact hml hc
    · exact hmr hc
  have hvalue : ((TreeHeap.pull_up cmp h.pool.length h
      (nodeAt h.pool h.root).md.left_child
      (nodeAt h.pool h.root).md.right_child).1.getNode h.root).value = v := by
    rw [getNode_eq_nodeAt, nodeAt_nonneg hge, hunt h.root.toNat hrootmem,
      ← nodeAt_nonneg hge, hv]
  rw [hvalue] at hstep
  refine ⟨_, dl, dr, hstep, ?_, habs_p, hplen, hpfree⟩
  rw [hdeq]
  exact Finset.subset_insert _ _

/-- The sequence popped by repeatedly calling `pop` (heap_test.rs's drain
loop). -/
def popListF (cmp : T → T → Ordering) : Nat → TreeHeap T → List T
  | 0, _ => []
  | fuel + 1, h =>
    match h.pop cmp with
    | none => []
    | some (h', v) => v :: popListF cmp fuel h'

/-- Draining a well-formed heap yields exactly the stored multiset, in
non-increasing comparator order. -/
theorem popListF_sorted_perm (cmp : T → T → Ordering)
    (hgl : ∀ a b, cmp a b = .gt ↔ cmp b a = .lt)
    (htr : ∀ a b c, cmp a b ≠ .lt → cmp b c ≠ .lt → cmp a c ≠ .lt) :
    ∀ (fuel : Nat) (h : TreeHeap T) (d : Finset ℕ) (t : BTree T),
      Abs h.pool h.root d t → BTree.Ordered cmp t → t.size ≤ fuel →
      (popListF cmp fuel h).Perm t.toList ∧
      List.Pairwise (fun x y => cmp x y ≠ .lt) (popListF cmp fuel h) := by
  intro fuel
  induction fuel with
  | zero =>
    intro h d t hab hord hsz
    have ht : t = .nil := size_eq_zero (by omega)
    subst ht
    exact ⟨List.Perm.refl _, List.Pairwise.nil⟩
  | succ fuel ih =>
    intro h d t hab hord hsz
    cases t with
    | nil =>
      have hneg : h.root < 0 := abs_nil_neg hab
      have hpop : h.pop cmp = none := by
        unfold TreeHeap.pop
        rw [if_pos hneg]
      have hshow : popListF cmp (fuel + 1) h = [] := by
        show (match h.pop cmp with
          | none => []
          | some (h', v) => v :: popListF cmp fuel h') = []
        rw [hpop]
      rw [hshow]
      exact ⟨List.Perm.refl _, List.Pairwise.nil⟩
    | node v tl tr =>
      obtain ⟨h', dl, dr, hpop, hsub, hab', hlen', hfree'⟩ := pop_abs cmp h hab
      obtain ⟨hordl, hordr, hrll, hrlr⟩ := ordered_node_inv hord
      have hordm : BTree.Ordered cmp (mergeAbs cmp tl tr) :=
        mergeAbs_ordered hgl hordl hordr
      have hszm : (mergeAbs cmp tl tr).size ≤ fuel := by
        rw [mergeAbs_size]
        simp [BTree.size] at hsz
        omega
      obtain ⟨hperm, hpair⟩ := ih h' (dl ∪ dr) _ hab' hordm hszm
      have hshow : popListF cmp (fuel + 1) h = v :: popListF cmp fuel h' := by
        show (match h.pop cmp with
          | none => []
          | some (h', v) => v :: popListF cmp fuel h') = _
        rw [hpop]
      rw [hshow]
      constructor
      · show (v :: popListF cmp fuel h').Perm
          (v :: (tl.toList ++ tr.toList))
        exact List.Perm.cons v
          (hperm.trans (mergeAbs_toList_perm cmp tl tr))
      · refine List.Pairwise.cons ?_ hpair
        intro x hx
        have hxm : x ∈ (mergeAbs cmp tl tr).toList :=
          (hperm.mem_iff).1 hx
        exact ordered_root_all htr hordm v
          (mergeAbs_rootLe hrll hrlr) x hxm


/-- The comparator a book side's heap is built with (book.rs lines 112-118:
the buys side uses `BuyComparer`, the sells side `SellComparer`). -/
def bookSideComparer : OrderSide → OrderComparerM
  | .Buy => BuyComparer
  | .Sell => SellComparer

/-- `a` strictly precedes `b` in price-time priority on side `s`: a better
price (higher for buys, lower for sells), or an equal price and a strictly
earlier update time. -/
def pricetimeBefore (s : OrderSide) (a b : Order) : Prop :=
  match s with
  | .Buy => b.price < a.price ∨ (a.price = b.price ∧ tsLt a.update b.update)
  | .Sell => a.price < b.price ∨ (a.price = b.price ∧ tsLt a.update b.update)

instance (s : OrderSide) (a b : Order) : Decidable (pricetimeBefore s a b) :=
  match s with
  | .Buy => inferInstanceAs (Decidable (_ ∨ _))
  | .Sell => inferInstanceAs (Decidable (_ ∨ _))

theorem pricetimeBefore_gt {s : OrderSide} {a b : Order}
    (h : pricetimeBefore s a b) : (bookSideComparer s).compare a b = .gt := by
  cases s
  · rw [bookSideComparer]
    rw [buyCompare_gt]
    exact h
  · rw [bookSideComparer]
    rw [sellCompare_gt]
    exact h

theorem pricetimeBefore_ne {s : OrderSide} {a b : Order}
    (h : pricetimeBefore s a b) : a ≠ b := by
  intro he
  subst he
  cases s <;>
    (simp only [pricetimeBefore, tsLt] at h; omega)

theorem bookSideComparer_gl (s : OrderSide) : ∀ a b : Order,
    (bookSideComparer s).compare a b = .gt ↔
      (bookSideComparer s).compare b a = .lt := by
  cases s
  · exact buyCompare_gl
  · exact sellCompare_gl

theorem bookSideComparer_trans (s : OrderSide) : ∀ a b c : Order,
    (bookSideComparer s).compare a b ≠ .lt →
      (bookSideComparer s).compare b c ≠ .lt →
        (bookSideComparer s).compare a c ≠ .lt := by
  cases s
  · exact buyCompare_trans
  · exact sellCompare_trans

/-- C1: on a well-formed book-side heap (its pointer structure abstracts to
a tree that is heap-ordered for the side's comparator), draining the heap by
repeated `pop` obeys price-time priority: whenever order `a` has a better
price than `b` (higher on the buy side, lower on the sell side), or an equal
price and an earlier update time, every pop of `a` happens before every pop
of `b`. -/
theorem book_side_price_time_priority (s : OrderSide) (h : TreeHeap Order)
    (d : Finset ℕ) (t : BTree Order)
    (hab : Abs h.pool h.root d t)
    (hord : BTree.Ordered (bookSideComparer s).compare t)
    (a b : Order) (hbetter : pricetimeBefore s a b)
    (i j : Nat)
    (hi : (popListF (bookSideComparer s).compare h.pool.length h).get? i =
      some b)
    (hj : (popListF (bookSideComparer s).compare h.pool.length h).get? j =
      some a) :
    j < i := by
  obtain ⟨hperm, hpair⟩ := popListF_sorted_perm (bookSideComparer s).compare
    (bookSideComparer_gl s) (bookSideComparer_trans s) h.pool.length h d t
    hab hord (abs_size_le_length hab)
  rcases Nat.lt_trichotomy j i with hlt | heq | hgt
  · exact hlt
  · exfalso
    subst heq
    rw [hi] at hj
    injection hj with hj
    exact pricetimeBefore_ne hbetter hj.symm
  · exfalso
    rw [List.get?_eq_some] at hi hj
    obtain ⟨hi1, hi2⟩ := hi
    obtain ⟨hj1, hj2⟩ := hj
    have hp := List.pairwise_iff_get.1 hpair ⟨i, hi1⟩ ⟨j, hj1⟩ hgt
    rw [hi2, hj2] at hp
    exact hp ((bookSideComparer_gl s a b).1 (pricetimeBefore_gt hbetter))

/-- A two-order buy-side heap for the concrete check: the better-priced
order sits at the root with the other below it. -/
def c1OrderA : Order :=
  { id := OrderId.defaultId, user := 7, symbol := default, side := .Buy,
    price := 500, quantity := 10, update := ⟨100, 0⟩ }

def c1OrderB : Order :=
  { id := OrderId.defaultId, user := 8, symbol := default, side := .Buy,
    price := 490, quantity := 5, update := ⟨90, 0⟩ }

def c1Heap : TreeHeap Order :=
  { root := 0,
    pool := [⟨c1OrderA, ⟨-1, 1, -1, 2⟩⟩, ⟨c1OrderB, ⟨0, -1, -1, 1⟩⟩],
    free_list := [] }

def c1Tree : BTree Order := .node c1OrderA (.node c1OrderB .nil .nil) .nil

theorem c1Heap_abs : Abs c1Heap.pool c1Heap.root
    (insert 0 ((insert 1 (∅ ∪ ∅)) ∪ ∅)) c1Tree := by
  have h1 : Abs c1Heap.pool 1 (insert 1 (∅ ∪ ∅)) (.node c1OrderB .nil .nil) := by
    refine Abs.node 1 (by decide) (by decide) ∅ ∅ .nil .nil ?_ ?_
      (by decide) (by decide) (by decide) (by decide)
    · exact Abs.nil _ (by decide)
    · exact Abs.nil _ (by decide)
  refine Abs.node 0 (by decide) (by decide) (insert 1 (∅ ∪ ∅)) ∅
    (.node c1OrderB .nil .nil) .nil h1 (Abs.nil _ (by decide))
    (by decide) (by decide) (by decide) (by decide)

theorem c1Heap_ordered :
    BTree.Ordered (bookSideComparer .Buy).compare c1Tree := by
  refine BTree.Ordered.node _ _ _ ?_ BTree.Ordered.nil ?_ trivial
  · exact BTree.Ordered.node _ _ _ BTree.Ordered.nil BTree.Ordered.nil
      trivial trivial
  · show (bookSideComparer .Buy).compare c1OrderA c1OrderB ≠ .lt
    decide

/-- C1 witness: on the concrete two-order buy side, the 500-priced order is
drained at position 0 and the 490-priced one at position 1. -/
theorem book_side_price_time_priority_witness :
    (popListF (bookSideComparer .Buy).compare c1Heap.pool.length
      c1Heap).get? 1 = some c1OrderB ∧ (0:Nat) < 1 :=
  ⟨by decide,
    book_side_price_time_priority .Buy c1Heap _ c1Tree c1Heap_abs
      c1Heap_ordered c1OrderA c1OrderB (by decide) 1 0 (by decide) (by decide)⟩


/-! ### Claim C9 groundwork: what `insert_node` computes on abstract trees -/

/-- The pure tree transformation `insert_node` implements: the greater of
the subtree head and the new value takes the head position, the other is
pushed down; a missing child slot is filled directly, otherwise the smaller
child subtree is descended into (heap.rs lines 259-356). -/
def insAbs (cmp : T → T → Ordering) : BTree T → T → BTree T
  | .nil, v => .node v .nil .nil
  | .node hv hl hr, v =>
    let pd : T × T :=
      match cmp hv v with
      | .lt => (v, hv)
      | _ => (hv, v)
    match hl with
    | .nil => .node pd.1 (.node pd.2 .nil .nil) hr
    | .node lv ll lr =>
      match hr with
      | .nil => .node pd.1 (.node lv ll lr) (.node pd.2 .nil .nil)
      | .node rv rl rr =>
        if (BTree.node lv ll lr).size ≤ (BTree.node rv rl rr).size
        then .node pd.1 (insAbs cmp (.node lv ll lr) pd.2) (.node rv rl rr)
        else .node pd.1 (.node lv ll lr) (insAbs cmp (.node rv rl rr) pd.2)

theorem insAbs_size (cmp : T → T → Ordering) :
    ∀ (t : BTree T) (v : T), (insAbs cmp t v).size = t.size + 1
  | .nil, v => by simp [insAbs, BTree.size]
  | .node hv .nil hr, v => by
    rw [insAbs]
    simp [BTree.size] <;> omega
  | .node hv (.node lv ll lr) .nil, v => by
    rw [insAbs]
    simp [BTree.size] <;> omega
  | .node hv (.node lv ll lr) (.node rv rl rr), v => by
    rw [insAbs]
    try dsimp only
    split
    · simp [BTree.size, insAbs_size cmp (.node lv ll lr)]
      omega
    · simp [BTree.size, insAbs_size cmp (.node rv rl rr)]
      omega

theorem insAbs_toList_perm (cmp : T → T → Ordering) :
    ∀ (t : BTree T) (v : T), (insAbs cmp t v).toList.Perm (v :: t.toList)
  | .nil, v => by simp [insAbs, BTree.toList]
  | .node hv .nil hr, v => by
    rw [insAbs]
    rcases hc : cmp hv v with _ | _ | _ <;>
      dsimp only <;> simp only [BTree.toList, List.nil_append] <;>
      first
        | exact List.Perm.refl _
        | exact List.Perm.swap _ _ _
  | .node hv (.node lv ll lr) .nil, v => by
    rw [insAbs]
    rcases hc : cmp hv v with _ | _ | _ <;>
      dsimp only <;> simp only [BTree.toList, List.append_nil] <;>
      first
        | exact List.Perm.cons _ (List.perm_append_singleton _ _)
        | exact List.Perm.trans
            (List.Perm.cons _ (List.perm_append_singleton _ _))
            (List.Perm.swap _ _ _)
  | .node hv (.node lv ll lr) (.node rv rl rr), v => by
    rw [insAbs]
    try dsimp only
    rcases hc : cmp hv v with _ | _ | _ <;> dsimp only <;> split
    all_goals simp only [BTree.toList]
    all_goals
      first
        | refine List.Perm.trans (List.Perm.cons _
            ((insAbs_toList_perm cmp _ _).append_right _)) ?_
        | refine List.Perm.trans (List.Perm.cons _
            (List.Perm.trans
              (List.Perm.append_left _ (insAbs_toList_perm cmp _ _))
              List.perm_middle)) ?_
    all_goals
      first
        | exact List.Perm.refl _
        | exact List.Perm.swap _ _ _


theorem rootLe_insAbs {cmp : T → T → Ordering} {x v : T} :
    ∀ {t : BTree T}, BTree.rootLe cmp x t → cmp x v ≠ .lt →
      BTree.rootLe cmp x (insAbs cmp t v)
  | .nil, _, hxv => hxv
  | .node hv .nil hr, hx, hxv => by
    have hxh : cmp x hv ≠ .lt := hx
    rw [insAbs]
    rcases hc : cmp hv v with _ | _ | _ <;> dsimp only <;>
      first
        | exact hxv
        | exact hxh
  | .node hv (.node lv ll lr) .nil, hx, hxv => by
    have hxh : cmp x hv ≠ .lt := hx
    rw [insAbs]
    rcases hc : cmp hv v with _ | _ | _ <;> dsimp only <;>
      first
        | exact hxv
        | exact hxh
  | .node hv (.node lv ll lr) (.node rv rl rr), hx, hxv => by
    have hxh : cmp x hv ≠ .lt := hx
    rw [insAbs]
    try dsimp only
    rcases hc : cmp hv v with _ | _ | _ <;> dsimp only <;> split <;>
      first
        | exact hxv
        | exact hxh

theorem insAbs_ordered {cmp : T → T → Ordering}
    (hgl : ∀ a b, cmp a b = .gt ↔ cmp b a = .lt)
    (htr : ∀ a b c, cmp a b ≠ .lt → cmp b c ≠ .lt → cmp a c ≠ .lt) :
    ∀ (t : BTree T) (v : T), BTree.Ordered cmp t →
      BTree.Ordered cmp (insAbs cmp t v)
  | .nil, v, _ =>
    BTree.Ordered.node v _ _ .nil .nil trivial trivial
  | .node hv .nil hr, v, hord => by
    obtain ⟨hol, hor, hll, hlr⟩ := ordered_node_inv hord
    rw [insAbs]
    have hswap : cmp hv v = .lt → cmp v hv ≠ .lt := by
      intro hlt hcon
      rw [← hgl v hv] at hlt
      rw [hlt] at hcon
      exact Ordering.noConfusion hcon
    rcases hc : cmp hv v with _ | _ | _ <;> dsimp only
    case lt =>
      exact BTree.Ordered.node v _ _
        (BTree.Ordered.node hv _ _ .nil .nil trivial trivial)
        hor (hswap hc) (rootLe_trans htr (hswap hc) hlr)
    all_goals
      exact BTree.Ordered.node hv _ _
        (BTree.Ordered.node v _ _ .nil .nil trivial trivial)
        hor (show cmp hv v ≠ .lt from by rw [hc]; exact fun hcon => Ordering.noConfusion hcon) hlr
  | .node hv (.node lv ll lr) .nil, v, hord => by
    obtain ⟨hol, hor, hll, hlr⟩ := ordered_node_inv hord
    rw [insAbs]
    have hswap : cmp hv v = .lt → cmp v hv ≠ .lt := by
      intro hlt hcon
      rw [← hgl v hv] at hlt
      rw [hlt] at hcon
      exact Ordering.noConfusion hcon
    rcases hc : cmp hv v with _ | _ | _ <;> dsimp only
    case lt =>
      exact BTree.Ordered.node v _ _ hol
        (BTree.Ordered.node hv _ _ .nil .nil trivial trivial)
        (rootLe_trans htr (hswap hc) hll) (hswap hc)
    all_goals
      exact BTree.Ordered.node hv _ _ hol
        (BTree.Ordered.node v _ _ .nil .nil trivial trivial)
        hll (show cmp hv v ≠ .lt from by rw [hc]; exact fun hcon => Ordering.noConfusion hcon)
  | .node hv (.node lv ll lr) (.node rv rl rr), v, hord => by
    obtain ⟨hol, hor, hll, hlr⟩ := ordered_node_inv hord
    rw [insAbs]
    try dsimp only
    have hswap : cmp hv v = .lt → cmp v hv ≠ .lt := by
      intro hlt hcon
      rw [← hgl v hv] at hlt
      rw [hlt] at hcon
      exact Ordering.noConfusion hcon
    rcases hc : cmp hv v with _ | _ | _ <;> dsimp only <;> split
    · exact BTree.Ordered.node v _ _
        (insAbs_ordered hgl htr _ hv hol) hor
        (rootLe_insAbs (rootLe_trans htr (hswap hc) hll) (hswap hc))
        (rootLe_trans htr (hswap hc) hlr)
    · exact BTree.Ordered.node v _ _ hol
        (insAbs_ordered hgl htr _ hv hor)
        (rootLe_trans htr (hswap hc) hll)
        (rootLe_insAbs (rootLe_trans htr (hswap hc) hlr) (hswap hc))
    all_goals
      have hhv : cmp hv v ≠ .lt := by
        rw [hc]
        intro hcon
        exact Ordering.noConfusion hcon
      first
        | exact BTree.Ordered.node hv _ _
            (insAbs_ordered hgl htr _ v hol) hor
            (rootLe_insAbs hll hhv) hlr
        | exact BTree.Ordered.node hv _ _ hol
            (insAbs_ordered hgl htr _ v hor)
            hll (rootLe_insAbs hlr hhv)


theorem setNode_neg {h : TreeHeap T} {j : HeapPtr} {n : HeapNode T}
    (hj : j < 0) : h.setNode j n = h := by
  unfold TreeHeap.setNode
  rw [if_pos hj]

theorem setNode_pool_nonneg {h : TreeHeap T} {j : HeapPtr} {n : HeapNode T}
    (hj : 0 ≤ j) : (h.setNode j n).pool = h.pool.set j.toNat n := by
  unfold TreeHeap.setNode
  rw [if_neg (Int.not_lt.mpr hj)]

theorem setNode_root (h : TreeHeap T) (j : HeapPtr) (n : HeapNode T) :
    (h.setNode j n).root = h.root := by
  unfold TreeHeap.setNode
  split <;> rfl

theorem setNode_free (h : TreeHeap T) (j : HeapPtr) (n : HeapNode T) :
    (h.setNode j n).free_list = h.free_list := by
  unfold TreeHeap.setNode
  split <;> rfl

theorem setNode_length (h : TreeHeap T) (j : HeapPtr) (n : HeapNode T) :
    (h.setNode j n).pool.length = h.pool.length := by
  unfold TreeHeap.setNode
  split
  · rfl
  · exact List.length_set ..

theorem setNode_get_ne {h : TreeHeap T} {j : HeapPtr} {n : HeapNode T}
    {k : ℕ} (hk : ¬ (0 ≤ j ∧ j.toNat = k)) :
    (h.setNode j n).pool.get? k = h.pool.get? k := by
  by_cases hj : j < 0
  · rw [setNode_neg hj]
  · have hne : Int.toNat j ≠ k := fun he => hk ⟨Int.not_lt.mp hj, he⟩
    rw [setNode_pool_nonneg (Int.not_lt.mp hj)]
    exact List.get?_set_ne _ _ hne

theorem abs_setNode_outside {h : TreeHeap T} {j : HeapPtr} {n : HeapNode T}
    {i : HeapPtr} {d : Finset ℕ} {t : BTree T} (habs : Abs h.pool i d t)
    (hj : ∀ _ : 0 ≤ j, j.toNat ∉ d) : Abs (h.setNode j n).pool i d t := by
  by_cases hjn : j < 0
  · rw [setNode_neg hjn]
    exact habs
  · refine abs_congr (setNode_length ..) habs ?_
    intro k hk
    refine slotShapeEq_of_get_eq (setNode_get_ne ?_)
    rintro ⟨hge, hkj⟩
    exact hj hge (hkj ▸ hk)

/-- What `insert_node` guarantees: the result pointer abstracts to the pure
insertion of the new slot's value into the subtree, over the footprint
extended by the new slot, and nothing else about the heap changes. -/
def InsSpec (cmp : T → T → Ordering) (h : TreeHeap T) (d : Finset ℕ)
    (t : BTree T) (nw : HeapPtr) (out : TreeHeap T × HeapPtr) : Prop :=
  Abs out.1.pool out.2 (insert nw.toNat d)
    (insAbs cmp t (nodeAt h.pool nw).value) ∧
  (∀ k : ℕ, k ∉ d → k ≠ nw.toNat → out.1.pool.get? k = h.pool.get? k) ∧
  out.1.pool.length = h.pool.length ∧
  out.1.root = h.root ∧
  out.1.free_list = h.free_list


/-- The write chain of `insert_node`'s first branch (no left child): the
descend slot becomes a fresh leaf in the left position, the old right
subtree is re-parented, and the parent slot is rewired. -/
theorem ins_chainA_spec (h : TreeHeap T) (p q rc : HeapPtr) (S : Nat)
    (dr : Finset ℕ) (tr : BTree T)
    (hp : 0 ≤ p) (hq : 0 ≤ q)
    (hplt : p.toNat < h.pool.length) (hqlt : q.toNat < h.pool.length)
    (hpq : p.toNat ≠ q.toNat)
    (habr : Abs h.pool rc dr tr) (hpdr : p.toNat ∉ dr) (hqdr : q.toNat ∉ dr)
    (hS : S = 1 + 1 + tr.size) :
    (let h1 := h.setMd p { h.getMd p with size := S }
     let h2 := if 0 ≤ rc then h1.setMd rc { h1.getMd rc with parent := p }
       else h1
     let h3 := h2.setMd p
       { h2.getMd p with right_child := rc, left_child := q }
     let h4 := h3.setMd q ⟨p, -1, -1, 1⟩
     Abs h4.pool p (insert p.toNat ((insert q.toNat (∅ ∪ ∅)) ∪ dr))
       (.node (nodeAt h.pool p).value
         (.node (nodeAt h.pool q).value .nil .nil) tr) ∧
     (∀ k : ℕ, k ≠ p.toNat → k ≠ q.toNat → k ∉ dr →
       h4.pool.get? k = h.pool.get? k) ∧
     h4.pool.length = h.pool.length ∧
     h4.root = h.root ∧
     h4.free_list = h.free_list) := by
  dsimp only
  set h1 := h.setMd p { h.getMd p with size := S } with hh1
  set h2 := if 0 ≤ rc then h1.setMd rc { h1.getMd rc with parent := p }
    else h1 with hh2
  set h3 := h2.setMd p
    { h2.getMd p with right_child := rc, left_child := q } with hh3
  set h4 := h3.setMd q ⟨p, -1, -1, 1⟩ with hh4
  have hrc_ne_p : ∀ _ : (0:Int) ≤ rc, rc.toNat ≠ p.toNat := by
    intro hge hc
    exact hpdr (hc ▸ abs_root_mem habr hge)
  have hrc_ne_q : ∀ _ : (0:Int) ≤ rc, rc.toNat ≠ q.toNat := by
    intro hge hc
    exact hqdr (hc ▸ abs_root_mem habr hge)
  -- the right subtree survives every write
  have habr1 : Abs h1.pool rc dr tr :=
    abs_setMd_outside habr (fun _ => hpdr)
  have habr2 : Abs h2.pool rc dr tr := by
    rw [hh2]
    by_cases hrc : (0:Int) ≤ rc
    · rw [if_pos hrc]
      exact abs_setMd_parent habr1
    · rw [if_neg hrc]
      exact habr1
  have habr3 : Abs h3.pool rc dr tr :=
    abs_setMd_outside habr2 (fun _ => hpdr)
  have habr4 : Abs h4.pool rc dr tr :=
    abs_setMd_outside habr3 (fun _ => hqdr)
  -- lengths
  have hlen1 : h1.pool.length = h.pool.length := setMd_length ..
  have hlen2 : h2.pool.length = h.pool.length := by
    rw [hh2]
    by_cases hrc : (0:Int) ≤ rc
    · rw [if_pos hrc, setMd_length, hlen1]
    · rw [if_neg hrc, hlen1]
  have hlen3 : h3.pool.length = h.pool.length := by
    rw [hh3, setMd_length, hlen2]
  have hlen4 : h4.pool.length = h.pool.length := by
    rw [hh4, setMd_length, hlen3]
  -- slot q is untouched until the final write
  have hq3 : h3.pool.get? q.toNat = h.pool.get? q.toNat := by
    rw [hh3, setMd_get_ne (by rintro ⟨_, hc⟩; exact hpq hc)]
    rw [hh2]
    by_cases hrc : (0:Int) ≤ rc
    · rw [if_pos hrc, setMd_get_ne (by
        rintro ⟨hge, hc⟩
        exact hrc_ne_q hge hc)]
      rw [hh1, setMd_get_ne (by rintro ⟨_, hc⟩; exact hpq hc)]
    · rw [if_neg hrc, hh1,
        setMd_get_ne (by rintro ⟨_, hc⟩; exact hpq hc)]
  have hvq : (nodeAt h3.pool q).value = (nodeAt h.pool q).value := by
    rw [nodeAt_nonneg hq, nodeAt_nonneg hq, hq3]
  have hnodeq : nodeAt h4.pool q =
      ⟨(nodeAt h.pool q).value, ⟨p, -1, -1, 1⟩⟩ := by
    rw [hh4, setMd_pool_nonneg hq, hvq]
    exact nodeAt_set_self hq (by rw [hlen3]; exact hqlt)
  -- slot p through the writes
  have hp2 : h2.pool.get? p.toNat = h1.pool.get? p.toNat := by
    rw [hh2]
    by_cases hrc : (0:Int) ≤ rc
    · rw [if_pos hrc, setMd_get_ne (by
        rintro ⟨hge, hc⟩
        exact hrc_ne_p hge hc)]
    · rw [if_neg hrc]
  have hnodep1 : nodeAt h1.pool p =
      ⟨(nodeAt h.pool p).value, { h.getMd p with size := S }⟩ := by
    rw [hh1, setMd_pool_nonneg hp]
    exact nodeAt_set_self hp hplt
  have hgmd2 : h2.getMd p = { h.getMd p with size := S } := by
    show (nodeAt h2.pool p).md = _
    rw [nodeAt_nonneg hp, hp2, ← nodeAt_nonneg hp, hnodep1]
  have hnodep3 : nodeAt h3.pool p = ⟨(nodeAt h.pool p).value,
      ⟨(h.getMd p).parent, q, rc, S⟩⟩ := by
    rw [hh3, setMd_pool_nonneg hp, hgmd2]
    have : (nodeAt h2.pool p).value = (nodeAt h.pool p).value := by
      rw [nodeAt_nonneg hp, hp2, ← nodeAt_nonneg hp, hnodep1]
    rw [this]
    exact nodeAt_set_self hp (by rw [hlen2]; exact hplt)
  have hnodep4 : nodeAt h4.pool p = ⟨(nodeAt h.pool p).value,
      ⟨(h.getMd p).parent, q, rc, S⟩⟩ := by
    rw [hh4, setMd_pool_nonneg hq,
      nodeAt_set_ne (by rintro ⟨_, hc⟩; exact hpq hc), hnodep3]
  -- the fresh leaf at q
  have habsq : Abs h4.pool q (insert q.toNat (∅ ∪ ∅))
      (.node (nodeAt h.pool q).value .nil .nil) := by
    have hnil1 : Abs h4.pool (nodeAt h4.pool q).md.left_child ∅
        (.nil : BTree T) := by
      rw [hnodeq]
      exact Abs.nil _ (by norm_num)
    have hnil2 : Abs h4.pool (nodeAt h4.pool q).md.right_child ∅
        (.nil : BTree T) := by
      rw [hnodeq]
      exact Abs.nil _ (by norm_num)
    have hq4 := Abs.node q hq (by rw [hlen4]; exact hqlt) ∅ ∅ .nil .nil
      hnil1 hnil2 (Finset.not_mem_empty _) (Finset.not_mem_empty _)
      (by simp) (by rw [hnodeq]; simp [BTree.size])
    have hval : (nodeAt h4.pool q).value = (nodeAt h.pool q).value := by
      rw [hnodeq]
    rw [hval] at hq4
    exact hq4
  refine ⟨?_, ?_, hlen4, ?_, ?_⟩
  · have hnl : Abs h4.pool (nodeAt h4.pool p).md.left_child
        (insert q.toNat (∅ ∪ ∅))
        (.node (nodeAt h.pool q).value .nil .nil) := by
      rw [hnodep4]
      exact habsq
    have hnr : Abs h4.pool (nodeAt h4.pool p).md.right_child dr tr := by
      rw [hnodep4]
      exact habr4
    have hfin := Abs.node p hp (by rw [hlen4]; exact hplt) _ _ _ _ hnl hnr
      (by
        simp only [Finset.union_empty, Finset.mem_insert,
          Finset.not_mem_empty, or_false]
        exact hpq)
      hpdr
      (by
        rw [Finset.disjoint_left]
        intro x hx
        simp only [Finset.union_empty, Finset.mem_insert,
          Finset.not_mem_empty, or_false] at hx
        subst hx
        exact hqdr)
      (by
        rw [hnodep4, hS]
        simp [BTree.size])
    have hval : (nodeAt h4.pool p).value = (nodeAt h.pool p).value := by
      rw [hnodep4]
    rw [hval] at hfin
    exact hfin
  · intro k hkp hkq hkdr
    rw [hh4, setMd_get_ne (by rintro ⟨_, hc⟩; exact hkq hc.symm)]
    rw [hh3, setMd_get_ne (by rintro ⟨_, hc⟩; exact hkp hc.symm)]
    have h2eq : h2.pool.get? k = h1.pool.get? k := by
      rw [hh2]
      by_cases hrc : (0:Int) ≤ rc
      · rw [if_pos hrc, setMd_get_ne (by
          rintro ⟨hge, hc⟩
          exact hkdr (hc ▸ abs_root_mem habr hge))]
      · rw [if_neg hrc]
    rw [h2eq, hh1, setMd_get_ne (by rintro ⟨_, hc⟩; exact hkp hc.symm)]
  · rw [hh4, setMd_root, hh3, setMd_root]
    have : h2.root = h1.root := by
      rw [hh2]
      by_cases hrc : (0:Int) ≤ rc
      · rw [if_pos hrc, setMd_root]
      · rw [if_neg hrc]
    rw [this, hh1, setMd_root]
  · rw [hh4, setMd_free, hh3, setMd_free]
    have : h2.free_list = h1.free_list := by
      rw [hh2]
      by_cases hrc : (0:Int) ≤ rc
      · rw [if_pos hrc, setMd_free]
      · rw [if_neg hrc]
    rw [this, hh1, setMd_free]


/-- The write chain of `insert_node`'s second branch (left child present,
right child missing): the descend slot becomes a fresh leaf in the right
position. -/
theorem ins_chainB_spec (h : TreeHeap T) (p q lc : HeapPtr) (S : Nat)
    (dl : Finset ℕ) (tl : BTree T)
    (hp : 0 ≤ p) (hq : 0 ≤ q) (hlc : 0 ≤ lc)
    (hplt : p.toNat < h.pool.length) (hqlt : q.toNat < h.pool.length)
    (hpq : p.toNat ≠ q.toNat)
    (habl : Abs h.pool lc dl tl) (hpdl : p.toNat ∉ dl) (hqdl : q.toNat ∉ dl)
    (hS : S = 1 + tl.size + 1) :
    (let h1 := h.setMd p { h.getMd p with size := S }
     let h2 := h1.setMd lc { h1.getMd lc with parent := p }
     let h3 := h2.setMd p
       { h2.getMd p with left_child := lc, right_child := q }
     let h4 := h3.setMd q ⟨p, -1, -1, 1⟩
     Abs h4.pool p (insert p.toNat (dl ∪ insert q.toNat (∅ ∪ ∅)))
       (.node (nodeAt h.pool p).value tl
         (.node (nodeAt h.pool q).value .nil .nil)) ∧
     (∀ k : ℕ, k ≠ p.toNat → k ≠ q.toNat → k ∉ dl →
       h4.pool.get? k = h.pool.get? k) ∧
     h4.pool.length = h.pool.length ∧
     h4.root = h.root ∧
     h4.free_list = h.free_list) := by
  dsimp only
  set h1 := h.setMd p { h.getMd p with size := S } with hh1
  set h2 := h1.setMd lc { h1.getMd lc with parent := p } with hh2
  set h3 := h2.setMd p
    { h2.getMd p with left_child := lc, right_child := q } with hh3
  set h4 := h3.setMd q ⟨p, -1, -1, 1⟩ with hh4
  have hlc_ne_p : lc.toNat ≠ p.toNat := by
    intro hc
    exact hpdl (hc ▸ abs_root_mem habl hlc)
  have hlc_ne_q : lc.toNat ≠ q.toNat := by
    intro hc
    exact hqdl (hc ▸ abs_root_mem habl hlc)
  have habl1 : Abs h1.pool lc dl tl :=
    abs_setMd_outside habl (fun _ => hpdl)
  have habl2 : Abs h2.pool lc dl tl := by
    rw [hh2]
    exact abs_setMd_parent habl1
  have habl3 : Abs h3.pool lc dl tl :=
    abs_setMd_outside habl2 (fun _ => hpdl)
  have habl4 : Abs h4.pool lc dl tl :=
    abs_setMd_outside habl3 (fun _ => hqdl)
  have hlen1 : h1.pool.length = h.pool.length := setMd_length ..
  have hlen2 : h2.pool.length = h.pool.length := by
    rw [hh2, setMd_length, hlen1]
  have hlen3 : h3.pool.length = h.pool.length := by
    rw [hh3, setMd_length, hlen2]
  have hlen4 : h4.pool.length = h.pool.length := by
    rw [hh4, setMd_length, hlen3]
  have hq3 : h3.pool.get? q.toNat = h.pool.get? q.toNat := by
    rw [hh3, setMd_get_ne (by rintro ⟨_, hc⟩; exact hpq hc)]
    rw [hh2, setMd_get_ne (by rintro ⟨_, hc⟩; exact hlc_ne_q hc)]
    rw [hh1, setMd_get_ne (by rintro ⟨_, hc⟩; exact hpq hc)]
  have hvq : (nodeAt h3.pool q).value = (nodeAt h.pool q).value := by
    rw [nodeAt_nonneg hq, nodeAt_nonneg hq, hq3]
  have hnodeq : nodeAt h4.pool q =
      ⟨(nodeAt h.pool q).value, ⟨p, -1, -1, 1⟩⟩ := by
    rw [hh4, setMd_pool_nonneg hq, hvq]
    exact nodeAt_set_self hq (by rw [hlen3]; exact hqlt)
  have hp2 : h2.pool.get? p.toNat = h1.pool.get? p.toNat := by
    rw [hh2, setMd_get_ne (by rintro ⟨_, hc⟩; exact hlc_ne_p hc)]
  have hnodep1 : nodeAt h1.pool p =
      ⟨(nodeAt h.pool p).value, { h.getMd p with size := S }⟩ := by
    rw [hh1, setMd_pool_nonneg hp]
    exact nodeAt_set_self hp hplt
  have hgmd2 : h2.getMd p = { h.getMd p with size := S } := by
    show (nodeAt h2.pool p).md = _
    rw [nodeAt_nonneg hp, hp2, ← nodeAt_nonneg hp, hnodep1]
  have hnodep3 : nodeAt h3.pool p = ⟨(nodeAt h.pool p).value,
      ⟨(h.getMd p).parent, lc, q, S⟩⟩ := by
    rw [hh3, setMd_pool_nonneg hp, hgmd2]
    have : (nodeAt h2.pool p).value = (nodeAt h.pool p).value := by
      rw [nodeAt_nonneg hp, hp2, ← nodeAt_nonneg hp, hnodep1]
    rw [this]
    exact nodeAt_set_self hp (by rw [hlen2]; exact hplt)
  have hnodep4 : nodeAt h4.pool p = ⟨(nodeAt h.pool p).value,
      ⟨(h.getMd p).parent, lc, q, S⟩⟩ := by
    rw [hh4, setMd_pool_nonneg hq,
      nodeAt_set_ne (by rintro ⟨_, hc⟩; exact hpq hc), hnodep3]
  have habsq : Abs h4.pool q (insert q.toNat (∅ ∪ ∅))
      (.node (nodeAt h.pool q).value .nil .nil) := by
    have hnil1 : Abs h4.pool (nodeAt h4.pool q).md.left_child ∅
        (.nil : BTree T) := by
      rw [hnodeq]
      exact Abs.nil _ (by norm_num)
    have hnil2 : Abs h4.pool (nodeAt h4.pool q).md.right_child ∅
        (.nil : BTree T) := by
      rw [hnodeq]
      exact Abs.nil _ (by norm_num)
    have hq4 := Abs.node q hq (by rw [hlen4]; exact hqlt) ∅ ∅ .nil .nil
      hnil1 hnil2 (Finset.not_mem_empty _) (Finset.not_mem_empty _)
      (by simp) (by rw [hnodeq]; simp [BTree.size])
    have hval : (nodeAt h4.pool q).value = (nodeAt h.pool q).value := by
      rw [hnodeq]
    rw [hval] at hq4
    exact hq4
  refine ⟨?_, ?_, hlen4, ?_, ?_⟩
  · have hnl : Abs h4.pool (nodeAt h4.pool p).md.left_child dl tl := by
      rw [hnodep4]
      exact habl4
    have hnr : Abs h4.pool (nodeAt h4.pool p).md.right_child
        (insert q.toNat (∅ ∪ ∅))
        (.node (nodeAt h.pool q).value .nil .nil) := by
      rw [hnodep4]
      exact habsq
    have hfin := Abs.node p hp (by rw [hlen4]; exact hplt) _ _ _ _ hnl hnr
      hpdl
      (by
        simp only [Finset.union_empty, Finset.mem_insert,
          Finset.not_mem_empty, or_false]
        exact hpq)
      (by
        rw [Finset.disjoint_right]
        intro x hx
        simp only [Finset.union_empty, Finset.mem_insert,
          Finset.not_mem_empty, or_false] at hx
        subst hx
        exact hqdl)
      (by
        rw [hnodep4, hS]
        simp [BTree.size])
    have hval : (nodeAt h4.pool p).value = (nodeAt h.pool p).value := by
      rw [hnodep4]
    rw [hval] at hfin
    exact hfin
  · intro k hkp hkq hkdl
    rw [hh4, setMd_get_ne (by rintro ⟨_, hc⟩; exact hkq hc.symm)]
    rw [hh3, setMd_get_ne (by rintro ⟨_, hc⟩; exact hkp hc.symm)]
    rw [hh2, setMd_get_ne (by
      rintro ⟨hge, hc⟩
      exact hkdl (hc ▸ abs_root_mem habl hge))]
    rw [hh1, setMd_get_ne (by rintro ⟨_, hc⟩; exact hkp hc.symm)]
  · rw [hh4, setMd_root, hh3, setMd_root, hh2, setMd_root, hh1, setMd_root]
  · rw [hh4, setMd_free, hh3, setMd_free, hh2, setMd_free, hh1, setMd_free]


theorem insAbs_node (cmp : T → T → Ordering) :
    ∀ (t : BTree T) (v : T), ∃ a l r, insAbs cmp t v = .node a l r
  | .nil, v => ⟨v, .nil, .nil, rfl⟩
  | .node hv .nil hr, v => by
    rw [insAbs]
    rcases hc : cmp hv v with _ | _ | _ <;> dsimp only <;>
      exact ⟨_, _, _, rfl⟩
  | .node hv (.node lv ll lr) .nil, v => by
    rw [insAbs]
    rcases hc : cmp hv v with _ | _ | _ <;> dsimp only <;>
      exact ⟨_, _, _, rfl⟩
  | .node hv (.node lv ll lr) (.node rv rl rr), v => by
    rw [insAbs]
    try dsimp only
    rcases hc : cmp hv v with _ | _ | _ <;> dsimp only <;> split <;>
      exact ⟨_, _, _, rfl⟩

/-- The write chain of the recursive branch of `insert_node` when it
descends into the left child: the recursion's result subtree is re-attached
on the left, both children are re-parented, and the parent slot is
rewired. -/
theorem ins_chainCL_spec (cmp : T → T → Ordering) (h1 : TreeHeap T)
    (p q rc P0 : HeapPtr)
    (dc do_ : Finset ℕ) (tc to_ : BTree T) (out : TreeHeap T × HeapPtr)
    (V : T) (M : HeapNodeMd) (h3 h4 h5 : TreeHeap T)
    (hp : 0 ≤ p) (hq : 0 ≤ q)
    (hplt : p.toNat < h1.pool.length)
    (hpq : p.toNat ≠ q.toNat)
    (hrec : InsSpec cmp h1 dc tc q out)
    (habo1 : Abs h1.pool rc do_ to_)
    (hpdc : p.toNat ∉ dc) (hpdo : p.toNat ∉ do_)
    (hqdo : q.toNat ∉ do_)
    (hdis : Disjoint dc do_)
    (hnode1 : nodeAt h1.pool p = ⟨V, M⟩)
    (hMsz : M.size = 1 + (tc.size + 1) + to_.size)
    (hh3 : h3 = out.1.setMd out.2 { out.1.getMd out.2 with parent := p })
    (hh4 : h4 = h3.setMd rc { h3.getMd rc with parent := p })
    (hh5 : h5 = h4.setMd p
      { out.1.getMd p with
          parent := P0, left_child := out.2, right_child := rc }) :
    Abs h5.pool p (insert p.toNat ((insert q.toNat dc) ∪ do_))
      (.node V (insAbs cmp tc (nodeAt h1.pool q).value) to_) ∧
    (∀ k : ℕ, k ≠ p.toNat → k ≠ q.toNat → k ∉ dc → k ∉ do_ →
      h5.pool.get? k = h1.pool.get? k) ∧
    h5.pool.length = h1.pool.length ∧
    h5.root = h1.root ∧
    h5.free_list = h1.free_list := by
  obtain ⟨habs_i, hunt_i, hlen_i, hroot_i, hfree_i⟩ := hrec
  obtain ⟨va, vl, vr, hins⟩ := insAbs_node cmp tc (nodeAt h1.pool q).value
  have hnc0 : (0:Int) ≤ out.2 := by
    rw [hins] at habs_i
    have := abs_node_nonneg habs_i
    rw [← hins] at habs_i
    exact this
  have hrc0 : ∀ _ : (0:Int) ≤ rc, rc.toNat ∈ do_ := by
    intro hge
    exact abs_root_mem habo1 hge
  have hnc_mem : out.2.toNat ∈ insert q.toNat dc :=
    abs_root_mem habs_i hnc0
  have hnc_ne_p : out.2.toNat ≠ p.toNat := by
    intro hc
    rcases Finset.mem_insert.1 (hc ▸ hnc_mem) with hcc | hcc
    · exact hpq hcc
    · exact hpdc hcc
  have habo2 : Abs out.1.pool rc do_ to_ := by
    refine abs_congr hlen_i habo1 ?_
    intro k hk
    refine slotShapeEq_of_get_eq (hunt_i k ?_ ?_)
    · intro hc
      exact Finset.disjoint_left.1 hdis hc hk
    · intro hc
      exact hqdo (hc ▸ hk)
  have habs3 : Abs h3.pool out.2 (insert q.toNat dc)
      (insAbs cmp tc (nodeAt h1.pool q).value) := by
    rw [hh3]
    exact abs_setMd_parent habs_i
  have habs4 : Abs h4.pool out.2 (insert q.toNat dc)
      (insAbs cmp tc (nodeAt h1.pool q).value) := by
    rw [hh4]
    exact abs_setMd_parent habs3
  have habs5 : Abs h5.pool out.2 (insert q.toNat dc)
      (insAbs cmp tc (nodeAt h1.pool q).value) := by
    rw [hh5]
    refine abs_setMd_outside habs4 ?_
    intro _ hc
    rcases Finset.mem_insert.1 hc with hcc | hcc
    · exact hpq hcc
    · exact hpdc hcc
  have habo3 : Abs h3.pool rc do_ to_ := by
    rw [hh3]
    exact abs_setMd_parent habo2
  have habo4 : Abs h4.pool rc do_ to_ := by
    rw [hh4]
    exact abs_setMd_parent habo3
  have habo5 : Abs h5.pool rc do_ to_ := by
    rw [hh5]
    exact abs_setMd_outside habo4 (fun _ => hpdo)
  have hlen3 : h3.pool.length = h1.pool.length := by
    rw [hh3, setMd_length, hlen_i]
  have hlen4 : h4.pool.length = h1.pool.length := by
    rw [hh4, setMd_length, hlen3]
  have hlen5 : h5.pool.length = h1.pool.length := by
    rw [hh5, setMd_length, hlen4]
  have hp2 : out.1.pool.get? p.toNat = h1.pool.get? p.toNat := by
    refine hunt_i p.toNat hpdc ?_
    intro hc
    exact hpq hc
  have hgmd2 : out.1.getMd p = M := by
    show (nodeAt out.1.pool p).md = M
    rw [nodeAt_nonneg hp, hp2, ← nodeAt_nonneg hp, hnode1]
  have hvp2 : (nodeAt out.1.pool p).value = V := by
    rw [nodeAt_nonneg hp, hp2, ← nodeAt_nonneg hp, hnode1]
  have hp4 : h4.pool.get? p.toNat = out.1.pool.get? p.toNat := by
    rw [hh4, setMd_get_ne (by
      rintro ⟨hge, hc⟩
      exact hpdo (hc ▸ hrc0 hge))]
    rw [hh3, setMd_get_ne (by
      rintro ⟨_, hc⟩
      exact hnc_ne_p hc)]
  have hvp4 : (nodeAt h4.pool p).value = V := by
    rw [nodeAt_nonneg hp, hp4, ← nodeAt_nonneg hp, hvp2]
  have hnodep5 : nodeAt h5.pool p = ⟨V,
      { M with parent := P0, left_child := out.2, right_child := rc }⟩ := by
    rw [hh5, setMd_pool_nonneg hp, hvp4, hgmd2]
    exact nodeAt_set_self hp (by rw [hlen4]; exact hplt)
  refine ⟨?_, ?_, hlen5, ?_, ?_⟩
  · have hnl : Abs h5.pool (nodeAt h5.pool p).md.left_child
        (insert q.toNat dc) (insAbs cmp tc (nodeAt h1.pool q).value) := by
      rw [hnodep5]
      exact habs5
    have hnr : Abs h5.pool (nodeAt h5.pool p).md.right_child do_ to_ := by
      rw [hnodep5]
      exact habo5
    have hfin := Abs.node p hp (by rw [hlen5]; exact hplt) _ _ _ _ hnl hnr
      (by
        intro hc
        rcases Finset.mem_insert.1 hc with hcc | hcc
        · exact hpq hcc
        · exact hpdc hcc)
      hpdo
      (by
        rw [Finset.disjoint_left]
        intro x hx hx2
        rcases Finset.mem_insert.1 hx with hcc | hcc
        · exact hqdo (hcc ▸ hx2)
        · exact Finset.disjoint_left.1 hdis hcc hx2)
      (by
        rw [hnodep5, hins]
        show M.size = 1 + (BTree.node va vl vr).size + to_.size
        rw [← hins, insAbs_size, hMsz])
    have hval : (nodeAt h5.pool p).value = V := by
      rw [hnodep5]
    rw [hval] at hfin
    exact hfin
  · intro k hkp hkq hkdc hkdo
    rw [hh5, setMd_get_ne (by rintro ⟨_, hc⟩; exact hkp hc.symm)]
    rw [hh4, setMd_get_ne (by
      rintro ⟨hge, hc⟩
      exact hkdo (hc ▸ hrc0 hge))]
    rw [hh3, setMd_get_ne (by
      rintro ⟨_, hc⟩
      subst hc
      rcases Finset.mem_insert.1 hnc_mem with hcc | hcc
      · exact hkq hcc
      · exact hkdc hcc)]
    exact hunt_i k hkdc (fun hc => hkq hc)
  · rw [hh5, setMd_root, hh4, setMd_root, hh3, setMd_root, hroot_i]
  · rw [hh5, setMd_free, hh4, setMd_free, hh3, setMd_free, hfree_i]


/-- Mirror of `ins_chainCL_spec` for a descent into the right child. -/
theorem ins_chainCR_spec (cmp : T → T → Ordering) (h1 : TreeHeap T)
    (p q lc P0 : HeapPtr)
    (dc do_ : Finset ℕ) (tc to_ : BTree T) (out : TreeHeap T × HeapPtr)
    (V : T) (M : HeapNodeMd) (h3 h4 h5 : TreeHeap T)
    (hp : 0 ≤ p) (hq : 0 ≤ q)
    (hplt : p.toNat < h1.pool.length)
    (hpq : p.toNat ≠ q.toNat)
    (hrec : InsSpec cmp h1 dc tc q out)
    (habo1 : Abs h1.pool lc do_ to_)
    (hpdc : p.toNat ∉ dc) (hpdo : p.toNat ∉ do_)
    (hqdo : q.toNat ∉ do_)
    (hdis : Disjoint dc do_)
    (hnode1 : nodeAt h1.pool p = ⟨V, M⟩)
    (hMsz : M.size = 1 + to_.size + (tc.size + 1))
    (hh3 : h3 = out.1.setMd lc { out.1.getMd lc with parent := p })
    (hh4 : h4 = h3.setMd out.2 { h3.getMd out.2 with parent := p })
    (hh5 : h5 = h4.setMd p
      { out.1.getMd p with
          parent := P0, left_child := lc, right_child := out.2 }) :
    Abs h5.pool p (insert p.toNat (do_ ∪ insert q.toNat dc))
      (.node V to_ (insAbs cmp tc (nodeAt h1.pool q).value)) ∧
    (∀ k : ℕ, k ≠ p.toNat → k ≠ q.toNat → k ∉ dc → k ∉ do_ →
      h5.pool.get? k = h1.pool.get? k) ∧
    h5.pool.length = h1.pool.length ∧
    h5.root = h1.root ∧
    h5.free_list = h1.free_list := by
  obtain ⟨habs_i, hunt_i, hlen_i, hroot_i, hfree_i⟩ := hrec
  obtain ⟨va, vl, vr, hins⟩ := insAbs_node cmp tc (nodeAt h1.pool q).value
  have hnc0 : (0:Int) ≤ out.2 := by
    rw [hins] at habs_i
    have := abs_node_nonneg habs_i
    rw [← hins] at habs_i
    exact this
  have hlc0 : ∀ _ : (0:Int) ≤ lc, lc.toNat ∈ do_ := by
    intro hge
    exact abs_root_mem habo1 hge
  have hnc_mem : out.2.toNat ∈ insert q.toNat dc :=
    abs_root_mem habs_i hnc0
  have hnc_ne_p : out.2.toNat ≠ p.toNat := by
    intro hc
    rcases Finset.mem_insert.1 (hc ▸ hnc_mem) with hcc | hcc
    · exact hpq hcc
    · exact hpdc hcc
  have habo2 : Abs out.1.pool lc do_ to_ := by
    refine abs_congr hlen_i habo1 ?_
    intro k hk
    refine slotShapeEq_of_get_eq (hunt_i k ?_ ?_)
    · intro hc
      exact Finset.disjoint_left.1 hdis hc hk
    · intro hc
      exact hqdo (hc ▸ hk)
  have habs3 : Abs h3.pool out.2 (insert q.toNat dc)
      (insAbs cmp tc (nodeAt h1.pool q).value) := by
    rw [hh3]
    exact abs_setMd_parent habs_i
  have habs4 : Abs h4.pool out.2 (insert q.toNat dc)
      (insAbs cmp tc (nodeAt h1.pool q).value) := by
    rw [hh4]
    exact abs_setMd_parent habs3
  have habs5 : Abs h5.pool out.2 (insert q.toNat dc)
      (insAbs cmp tc (nodeAt h1.pool q).value) := by
    rw [hh5]
    refine abs_setMd_outside habs4 ?_
    intro _ hc
    rcases Finset.mem_insert.1 hc with hcc | hcc
    · exact hpq hcc
    · exact hpdc hcc
  have habo3 : Abs h3.pool lc do_ to_ := by
    rw [hh3]
    exact abs_setMd_parent habo2
  have habo4 : Abs h4.pool lc do_ to_ := by
    rw [hh4]
    exact abs_setMd_parent habo3
  have habo5 : Abs h5.pool lc do_ to_ := by
    rw [hh5]
    exact abs_setMd_outside habo4 (fun _ => hpdo)
  have hlen3 : h3.pool.length = h1.pool.length := by
    rw [hh3, setMd_length, hlen_i]
  have hlen4 : h4.pool.length = h1.pool.length := by
    rw [hh4, setMd_length, hlen3]
  have hlen5 : h5.pool.length = h1.pool.length := by
    rw [hh5, setMd_length, hlen4]
  have hp2 : out.1.pool.get? p.toNat = h1.pool.get? p.toNat := by
    refine hunt_i p.toNat hpdc ?_
    intro hc
    exact hpq hc
  have hgmd2 : out.1.getMd p = M := by
    show (nodeAt out.1.pool p).md = M
    rw [nodeAt_nonneg hp, hp2, ← nodeAt_nonneg hp, hnode1]
  have hvp2 : (nodeAt out.1.pool p).value = V := by
    rw [nodeAt_nonneg hp, hp2, ← nodeAt_nonneg hp, hnode1]
  have hp4 : h4.pool.get? p.toNat = out.1.pool.get? p.toNat := by
    rw [hh4, setMd_get_ne (by
      rintro ⟨_, hc⟩
      exact hnc_ne_p hc)]
    rw [hh3, setMd_get_ne (by
      rintro ⟨hge, hc⟩
      exact hpdo (hc ▸ hlc0 hge))]
  have hvp4 : (nodeAt h4.pool p).value = V := by
    rw [nodeAt_nonneg hp, hp4, ← nodeAt_nonneg hp, hvp2]
  have hnodep5 : nodeAt h5.pool p = ⟨V,
      { M with parent := P0, left_child := lc, right_child := out.2 }⟩ := by
    rw [hh5, setMd_pool_nonneg hp, hvp4, hgmd2]
    exact nodeAt_set_self hp (by rw [hlen4]; exact hplt)
  refine ⟨?_, ?_, hlen5, ?_, ?_⟩
  · have hnl : Abs h5.pool (nodeAt h5.pool p).md.left_child do_ to_ := by
      rw [hnodep5]
      exact habo5
    have hnr : Abs h5.pool (nodeAt h5.pool p).md.right_child
        (insert q.toNat dc) (insAbs cmp tc (nodeAt h1.pool q).value) := by
      rw [hnodep5]
      exact habs5
    have hfin := Abs.node p hp (by rw [hlen5]; exact hplt) _ _ _ _ hnl hnr
      hpdo
      (by
        intro hc
        rcases Finset.mem_insert.1 hc with hcc | hcc
        · exact hpq hcc
        · exact hpdc hcc)
      (by
        rw [Finset.disjoint_right]
        intro x hx hx2
        rcases Finset.mem_insert.1 hx with hcc | hcc
        · exact hqdo (hcc ▸ hx2)
        · exact Finset.disjoint_left.1 hdis hcc hx2)
      (by
        rw [hnodep5, hins]
        show M.size = 1 + to_.size + (BTree.node va vl vr).size
        rw [← hins, insAbs_size, hMsz])
    have hval : (nodeAt h5.pool p).value = V := by
      rw [hnodep5]
    rw [hval] at hfin
    exact hfin
  · intro k hkp hkq hkdc hkdo
    rw [hh5, setMd_get_ne (by rintro ⟨_, hc⟩; exact hkp hc.symm)]
    rw [hh4, setMd_get_ne (by
      rintro ⟨_, hc⟩
      subst hc
      rcases Finset.mem_insert.1 hnc_mem with hcc | hcc
      · exact hkq hcc
      · exact hkdc hcc)]
    rw [hh3, setMd_get_ne (by
      rintro ⟨hge, hc⟩
      exact hkdo (hc ▸ hlc0 hge))]
    exact hunt_i k hkdc (fun hc => hkq hc)
  · rw [hh5, setMd_root, hh4, setMd_root, hh3, setMd_root, hroot_i]
  · rw [hh5, setMd_free, hh4, setMd_free, hh3, setMd_free, hfree_i]


set_option maxHeartbeats 2000000 in
theorem insertNode_abs (cmp : T → T → Ordering) (fuel : Nat) :
    ∀ (h : TreeHeap T) (head nw : HeapPtr) (d : Finset ℕ) (t : BTree T),
      Abs h.pool head d t → 0 ≤ head →
      0 ≤ nw → nw.toNat < h.pool.length → nw.toNat ∉ d →
      t.size ≤ fuel →
      InsSpec cmp h d t nw (TreeHeap.insert_node cmp fuel h head nw) := by
  induction fuel with
  | zero =>
    intro h head nw d t habs hhead hnw hnwlt hnwmem hsz
    obtain ⟨dl, dr, tl, tr, h1, h2, h3, h4, h5, h6, h7, h8, hteq⟩ :=
      abs_nonneg habs hhead
    subst hteq
    simp [BTree.size] at hsz
  | succ fuel ih =>
    intro h head nw d t habs hhead hnw hnwlt hnwmem hsz
    obtain ⟨dl, dr, tl, tr, hhlt, habl, habr, hml, hmr, hdis, hszh, hdeq,
      hteq⟩ := abs_nonneg habs hhead
    subst hteq
    have hheadmem : head.toNat ∈ d := abs_root_mem habs hhead
    have hhm : head.toNat ≠ nw.toNat := fun hc => hnwmem (hc ▸ hheadmem)
    -- the parent/descend pair
    set pd : HeapPtr × HeapPtr :=
      match cmp (h.getNode head).value (h.getNode nw).value with
      | Ordering.lt => (nw, head)
      | _ => (head, nw) with hpdeq
    have hpd : (cmp (h.getNode head).value (h.getNode nw).value =
        Ordering.lt ∧ pd = ((nw, head) : HeapPtr × HeapPtr)) ∨
        (cmp (h.getNode head).value (h.getNode nw).value ≠ Ordering.lt ∧
        pd = (head, nw)) := by
      rw [hpdeq]
      rcases hc : cmp (h.getNode head).value (h.getNode nw).value with
        _ | _ | _
      · exact Or.inl ⟨rfl, rfl⟩
      · exact Or.inr ⟨fun hcon => Ordering.noConfusion hcon, rfl⟩
      · exact Or.inr ⟨fun hcon => Ordering.noConfusion hcon, rfl⟩
    have hpdval : ((nodeAt h.pool pd.1).value, (nodeAt h.pool pd.2).value) =
        (match cmp (nodeAt h.pool head).value (nodeAt h.pool nw).value with
        | Ordering.lt =>
          ((nodeAt h.pool nw).value, (nodeAt h.pool head).value)
        | _ => ((nodeAt h.pool head).value, (nodeAt h.pool nw).value)) := by
      rcases hpd with ⟨hc, hpde⟩ | ⟨hc, hpde⟩ <;> rw [hpde]
      · have hc2 : cmp (nodeAt h.pool head).value (nodeAt h.pool nw).value =
            Ordering.lt := hc
        rw [hc2]
      · rcases hcc : cmp (nodeAt h.pool head).value
          (nodeAt h.pool nw).value with _ | _ | _
        · exact absurd hcc hc
        · rfl
        · rfl
    have hp1 : (0:Int) ≤ pd.1 := by
      rcases hpd with ⟨_, hpde⟩ | ⟨_, hpde⟩ <;> rw [hpde]
      · exact hnw
      · exact hhead
    have hq1 : (0:Int) ≤ pd.2 := by
      rcases hpd with ⟨_, hpde⟩ | ⟨_, hpde⟩ <;> rw [hpde]
      · exact hhead
      · exact hnw
    have hp1lt : pd.1.toNat < h.pool.length := by
      rcases hpd with ⟨_, hpde⟩ | ⟨_, hpde⟩ <;> rw [hpde]
      · exact hnwlt
      · exact hhlt
    have hq1lt : pd.2.toNat < h.pool.length := by
      rcases hpd with ⟨_, hpde⟩ | ⟨_, hpde⟩ <;> rw [hpde]
      · exact hhlt
      · exact hnwlt
    have hpq1 : pd.1.toNat ≠ pd.2.toNat := by
      rcases hpd with ⟨_, hpde⟩ | ⟨_, hpde⟩ <;> rw [hpde]
      · exact fun hc => hhm hc.symm
      · exact hhm
    have hpdl : pd.1.toNat ∉ dl := by
      rcases hpd with ⟨_, hpde⟩ | ⟨_, hpde⟩ <;> rw [hpde]
      · exact fun hc => hnwmem (hdeq ▸ Finset.mem_insert_of_mem
          (Finset.mem_union_left _ hc))
      · exact hml
    have hpdr : pd.1.toNat ∉ dr := by
      rcases hpd with ⟨_, hpde⟩ | ⟨_, hpde⟩ <;> rw [hpde]
      · exact fun hc => hnwmem (hdeq ▸ Finset.mem_insert_of_mem
          (Finset.mem_union_right _ hc))
      · exact hmr
    have hqdl : pd.2.toNat ∉ dl := by
      rcases hpd with ⟨_, hpde⟩ | ⟨_, hpde⟩ <;> rw [hpde]
      · exact hml
      · exact fun hc => hnwmem (hdeq ▸ Finset.mem_insert_of_mem
          (Finset.mem_union_left _ hc))
    have hqdr : pd.2.toNat ∉ dr := by
      rcases hpd with ⟨_, hpde⟩ | ⟨_, hpde⟩ <;> rw [hpde]
      · exact hmr
      · exact fun hc => hnwmem (hdeq ▸ Finset.mem_insert_of_mem
          (Finset.mem_union_right _ hc))
    rcases htl : tl with _ | ⟨lv, ll, lr⟩
    · -- branch A: no left child
      subst htl
      have hlneg : (h.getMd head).left_child < 0 := abs_nil_neg habl
      have hdl0 : dl = ∅ := (abs_neg habl hlneg).1
      subst hdl0
      have hstep : TreeHeap.insert_node cmp (fuel + 1) h head nw =
          (let h1 := h.setMd pd.1
            { h.getMd pd.1 with size := (h.getMd head).size + 1 }
           let h2 := if 0 ≤ (h.getMd head).right_child then
               h1.setMd (h.getMd head).right_child
                 { h1.getMd (h.getMd head).right_child with parent := pd.1 }
             else h1
           let h3 := h2.setMd pd.1
             { h2.getMd pd.1 with
                 right_child := (h.getMd head).right_child,
                 left_child := pd.2 }
           let h4 := h3.setMd pd.2 ⟨pd.1, -1, -1, 1⟩
           (h4, pd.1)) := by
        conv_lhs => rw [TreeHeap.insert_node]
        try dsimp only
        rw [if_pos hlneg]
      rw [hstep]
      clear hstep
      have hA := ins_chainA_spec h pd.1 pd.2 (h.getMd head).right_child
        ((h.getMd head).size + 1) dr tr hp1 hq1 hp1lt hq1lt hpq1 habr
        hpdr hqdr (by
          have : (h.getMd head).size = (nodeAt h.pool head).md.size := rfl
          rw [this, hszh]
          simp [BTree.size]
          omega)
      dsimp only at hA ⊢
      obtain ⟨hAabs, hAunt, hAlen, hAroot, hAfree⟩ := hA
      refine ⟨?_, ?_, hAlen, hAroot, hAfree⟩
      · have hdom : insert pd.1.toNat ((insert pd.2.toNat (∅ ∪ ∅)) ∪ dr) =
            insert nw.toNat d := by
          rw [hdeq]
          rcases hpd with ⟨_, hpde⟩ | ⟨_, hpde⟩ <;> rw [hpde] <;>
            ext x <;>
            simp only [Finset.union_empty, Finset.empty_union,
              Finset.mem_insert, Finset.mem_union,
              Finset.not_mem_empty] <;> tauto
        rw [hdom] at hAabs
        have htree : BTree.node (nodeAt h.pool pd.1).value
            (BTree.node (nodeAt h.pool pd.2).value BTree.nil BTree.nil) tr =
            insAbs cmp (BTree.node (nodeAt h.pool head).value BTree.nil tr)
              (nodeAt h.pool nw).value := by
          rw [insAbs]
          have h1 := congrArg Prod.fst hpdval
          have h2 := congrArg Prod.snd hpdval
          dsimp only at h1 h2
          rw [← h1, ← h2]
        rw [htree] at hAabs
        exact hAabs
      · intro k hkd hknw
        refine hAunt k ?_ ?_ ?_
        · rcases hpd with ⟨_, hpde⟩ | ⟨_, hpde⟩ <;> rw [hpde]
          · exact fun hc => hknw (hc.symm ▸ rfl)
          · exact fun hc => hkd (hc ▸ hheadmem)
        · rcases hpd with ⟨_, hpde⟩ | ⟨_, hpde⟩ <;> rw [hpde]
          · exact fun hc => hkd (hc ▸ hheadmem)
          · exact fun hc => hknw (hc.symm ▸ rfl)
        · intro hc
          exact hkd (hdeq ▸ Finset.mem_insert_of_mem
            (Finset.mem_union_right _ hc))
    · -- left child present
      subst htl
      have hlge : (0:Int) ≤ (nodeAt h.pool head).md.left_child :=
        abs_node_nonneg habl
      have hlge' : ¬ (h.getMd head).left_child < 0 := Int.not_lt.mpr hlge
      rcases htr0 : tr with _ | ⟨rv, rl, rr⟩
      · -- branch B: no right child
        subst htr0
        have hrneg : (h.getMd head).right_child < 0 := abs_nil_neg habr
        have hdr0 : dr = ∅ := (abs_neg habr hrneg).1
        subst hdr0
        have hstep : TreeHeap.insert_node cmp (fuel + 1) h head nw =
            (let h1 := h.setMd pd.1
              { h.getMd pd.1 with size := (h.getMd head).size + 1 }
             let h2 := h1.setMd (h.getMd head).left_child
               { h1.getMd (h.getMd head).left_child with parent := pd.1 }
             let h3 := h2.setMd pd.1
               { h2.getMd pd.1 with
                   left_child := (h.getMd head).left_child,
                   right_child := pd.2 }
             let h4 := h3.setMd pd.2 ⟨pd.1, -1, -1, 1⟩
             (h4, pd.1)) := by
          conv_lhs => rw [TreeHeap.insert_node]
          try dsimp only
          rw [if_neg hlge', if_pos hrneg]
        rw [hstep]
        clear hstep
        have hB := ins_chainB_spec h pd.1 pd.2 (h.getMd head).left_child
          ((h.getMd head).size + 1) dl (BTree.node lv ll lr) hp1 hq1 hlge
          hp1lt hq1lt hpq1 habl hpdl hqdl (by
            have : (h.getMd head).size = (nodeAt h.pool head).md.size := rfl
            rw [this, hszh]
            simp [BTree.size] <;> omega)
        dsimp only at hB ⊢
        obtain ⟨hBabs, hBunt, hBlen, hBroot, hBfree⟩ := hB
        refine ⟨?_, ?_, hBlen, hBroot, hBfree⟩
        · have hdom : insert pd.1.toNat (dl ∪ insert pd.2.toNat (∅ ∪ ∅)) =
              insert nw.toNat d := by
            rw [hdeq]
            rcases hpd with ⟨_, hpde⟩ | ⟨_, hpde⟩ <;> rw [hpde] <;>
              ext x <;>
              simp only [Finset.union_empty, Finset.empty_union,
                Finset.mem_insert, Finset.mem_union,
                Finset.not_mem_empty] <;> tauto
          rw [hdom] at hBabs
          have htree : BTree.node (nodeAt h.pool pd.1).value
              (BTree.node lv ll lr)
              (BTree.node (nodeAt h.pool pd.2).value BTree.nil BTree.nil) =
              insAbs cmp (BTree.node (nodeAt h.pool head).value
                (BTree.node lv ll lr) BTree.nil)
                (nodeAt h.pool nw).value := by
            rw [insAbs]
            have h1 := congrArg Prod.fst hpdval
            have h2 := congrArg Prod.snd hpdval
            dsimp only at h1 h2
            rw [← h1, ← h2]
          rw [htree] at hBabs
          exact hBabs
        · intro k hkd hknw
          refine hBunt k ?_ ?_ ?_
          · rcases hpd with ⟨_, hpde⟩ | ⟨_, hpde⟩ <;> rw [hpde]
            · exact fun hc => hknw (hc.symm ▸ rfl)
            · exact fun hc => hkd (hc ▸ hheadmem)
          · rcases hpd with ⟨_, hpde⟩ | ⟨_, hpde⟩ <;> rw [hpde]
            · exact fun hc => hkd (hc ▸ hheadmem)
            · exact fun hc => hknw (hc.symm ▸ rfl)
          · intro hc
            exact hkd (hdeq ▸ Finset.mem_insert_of_mem
              (Finset.mem_union_left _ hc))
      · -- branch C: both children present, recursive descent
        subst htr0
        have hrge : (0:Int) ≤ (nodeAt h.pool head).md.right_child :=
          abs_node_nonneg habr
        have hrge' : ¬ (h.getMd head).right_child < 0 := Int.not_lt.mpr hrge
        set h1x := h.setMd pd.1
          { h.getMd pd.1 with size := (h.getMd head).size + 1 } with hh1x
        have hlen1 : h1x.pool.length = h.pool.length := by
          rw [hh1x, setMd_length]
        -- slot reads of the two children are unchanged in h1x
        have hlc_get : h1x.pool.get? (h.getMd head).left_child.toNat =
            h.pool.get? (h.getMd head).left_child.toNat := by
          rw [hh1x]
          refine setMd_get_ne ?_
          rintro ⟨_, hc⟩
          exact hpdl (hc ▸ abs_root_mem habl hlge)
        have hrc_get : h1x.pool.get? (h.getMd head).right_child.toNat =
            h.pool.get? (h.getMd head).right_child.toNat := by
          rw [hh1x]
          refine setMd_get_ne ?_
          rintro ⟨_, hc⟩
          exact hpdr (hc ▸ abs_root_mem habr hrge)
        have hlge2 : (0:Int) ≤ (h.getMd head).left_child := hlge
        have hrge2 : (0:Int) ≤ (h.getMd head).right_child := hrge
        have hlsz : (h1x.getMd (h.getMd head).left_child).size =
            (BTree.node lv ll lr).size := by
          show (nodeAt h1x.pool (h.getMd head).left_child).md.size = _
          rw [nodeAt_nonneg hlge2, hlc_get, ← nodeAt_nonneg hlge2]
          exact abs_node_size habl
        have hrsz : (h1x.getMd (h.getMd head).right_child).size =
            (BTree.node rv rl rr).size := by
          show (nodeAt h1x.pool (h.getMd head).right_child).md.size = _
          rw [nodeAt_nonneg hrge2, hrc_get, ← nodeAt_nonneg hrge2]
          exact abs_node_size habr
        have habl1 : Abs h1x.pool (nodeAt h.pool head).md.left_child dl
            (BTree.node lv ll lr) := by
          rw [hh1x]
          exact abs_setMd_outside habl (fun _ => hpdl)
        have habr1 : Abs h1x.pool (nodeAt h.pool head).md.right_child dr
            (BTree.node rv rl rr) := by
          rw [hh1x]
          exact abs_setMd_outside habr (fun _ => hpdr)
        have hnode1x : nodeAt h1x.pool pd.1 = ⟨(nodeAt h.pool pd.1).value,
            { h.getMd pd.1 with size := (h.getMd head).size + 1 }⟩ := by
          rw [hh1x, setMd_pool_nonneg hp1]
          exact nodeAt_set_self hp1 hp1lt
        have hvq1 : (nodeAt h1x.pool pd.2).value =
            (nodeAt h.pool pd.2).value := by
          rw [nodeAt_nonneg hq1, nodeAt_nonneg hq1, hh1x,
            setMd_get_ne (by rintro ⟨_, hc⟩; exact hpq1 hc)]
        have hMsz : ({ h.getMd pd.1 with
            size := (h.getMd head).size + 1 } : HeapNodeMd).size =
            (h.getMd head).size + 1 := rfl
        have hheadsz : (h.getMd head).size =
            1 + (BTree.node lv ll lr).size + (BTree.node rv rl rr).size := by
          have : (h.getMd head).size = (nodeAt h.pool head).md.size := rfl
          rw [this, hszh]
        have hrecsz : (BTree.node lv ll lr).size ≤ fuel ∧
            (BTree.node rv rl rr).size ≤ fuel := by
          simp only [BTree.size] at hsz ⊢
          omega
        have hdomC : ∀ A B : Finset ℕ,
            insert pd.1.toNat A = insert pd.1.toNat B → A = A → True :=
          fun _ _ _ _ => trivial
        by_cases hgo : (BTree.node lv ll lr).size ≤ (BTree.node rv rl rr).size
        · -- descend left
          have hcond : (h1x.getMd (h.getMd head).left_child).size ≤
              (h1x.getMd (h.getMd head).right_child).size := by
            rw [hlsz, hrsz]
            exact hgo
          have hstep : TreeHeap.insert_node cmp (fuel + 1) h head nw =
              (let res := TreeHeap.insert_node cmp fuel h1x
                (h.getMd head).left_child pd.2
               let h3 := res.1.setMd res.2
                 { res.1.getMd res.2 with parent := pd.1 }
               let h4 := h3.setMd (h.getMd head).right_child
                 { h3.getMd (h.getMd head).right_child with parent := pd.1 }
               let h5 := h4.setMd pd.1
                 { res.1.getMd pd.1 with
                     parent := (h.getMd head).parent,
                     left_child := res.2,
                     right_child := (h.getMd head).right_child }
               (h5, pd.1)) := by
            conv_lhs => rw [TreeHeap.insert_node]
            try dsimp only
            rw [if_neg hlge', if_neg hrge']
            rw [if_pos hcond]
            try rw [if_pos hcond]
            try rw [if_pos hcond]
          rw [hstep]
          clear hstep
          have hrec := ih h1x (h.getMd head).left_child pd.2 dl
            (BTree.node lv ll lr) habl1 hlge2 hq1
            (by rw [hlen1]; exact hq1lt) hqdl hrecsz.1
          have hCL := ins_chainCL_spec cmp h1x pd.1 pd.2
            (h.getMd head).right_child (h.getMd head).parent dl dr
            (BTree.node lv ll lr) (BTree.node rv rl rr)
            (TreeHeap.insert_node cmp fuel h1x (h.getMd head).left_child pd.2)
            (nodeAt h.pool pd.1).value
            { h.getMd pd.1 with size := (h.getMd head).size + 1 }
            _ _ _
            hp1 hq1 (by rw [hlen1]; exact hp1lt) hpq1 hrec habr1
            hpdl hpdr hqdr hdis hnode1x
            (by rw [hMsz, hheadsz]; simp [BTree.size] <;> omega)
            rfl rfl rfl
          dsimp only at hCL ⊢
          obtain ⟨hCabs, hCunt, hClen, hCroot, hCfree⟩ := hCL
          refine ⟨?_, ?_, ?_, ?_, ?_⟩
          · have hdom : insert pd.1.toNat ((insert pd.2.toNat dl) ∪ dr) =
                insert nw.toNat d := by
              rw [hdeq]
              rcases hpd with ⟨_, hpde⟩ | ⟨_, hpde⟩ <;> rw [hpde] <;>
                ext x <;>
                simp only [Finset.mem_insert, Finset.mem_union] <;> tauto
            rw [hdom] at hCabs
            rw [hvq1] at hCabs
            have htree : BTree.node (nodeAt h.pool pd.1).value
                (insAbs cmp (BTree.node lv ll lr)
                  (nodeAt h.pool pd.2).value) (BTree.node rv rl rr) =
                insAbs cmp (BTree.node (nodeAt h.pool head).value
                  (BTree.node lv ll lr) (BTree.node rv rl rr))
                  (nodeAt h.pool nw).value := by
              rw [insAbs]
              try dsimp only
              rw [if_pos hgo]
              have h1 := congrArg Prod.fst hpdval
              have h2 := congrArg Prod.snd hpdval
              dsimp only at h1 h2
              rw [← h1, ← h2]
            rw [htree] at hCabs
            exact hCabs
          · intro k hkd hknw
            refine hCunt k ?_ ?_ ?_ ?_ |>.trans ?_
            · rcases hpd with ⟨_, hpde⟩ | ⟨_, hpde⟩ <;> rw [hpde]
              · exact fun hc => hknw (hc.symm ▸ rfl)
              · exact fun hc => hkd (hc ▸ hheadmem)
            · rcases hpd with ⟨_, hpde⟩ | ⟨_, hpde⟩ <;> rw [hpde]
              · exact fun hc => hkd (hc ▸ hheadmem)
              · exact fun hc => hknw (hc.symm ▸ rfl)
            · intro hc
              exact hkd (hdeq ▸ Finset.mem_insert_of_mem
                (Finset.mem_union_left _ hc))
            · intro hc
              exact hkd (hdeq ▸ Finset.mem_insert_of_mem
                (Finset.mem_union_right _ hc))
            · rw [hh1x]
              exact setMd_get_ne (by
                rintro ⟨_, hc⟩
                rcases hpd with ⟨_, hpde⟩ | ⟨_, hpde⟩ <;> rw [hpde] at hc
                · exact hknw (hc.symm ▸ rfl)
                · exact hkd (hc ▸ hheadmem))
          · rw [hClen, hlen1]
          · rw [hCroot, hh1x, setMd_root]
          · rw [hCfree, hh1x, setMd_free]
        · -- descend right
          have hcond : ¬ (h1x.getMd (h.getMd head).left_child).size ≤
              (h1x.getMd (h.getMd head).right_child).size := by
            rw [hlsz, hrsz]
            exact hgo
          have hstep : TreeHeap.insert_node cmp (fuel + 1) h head nw =
              (let res := TreeHeap.insert_node cmp fuel h1x
                (h.getMd head).right_child pd.2
               let h3 := res.1.setMd (h.getMd head).left_child
                 { res.1.getMd (h.getMd head).left_child with parent := pd.1 }
               let h4 := h3.setMd res.2
                 { h3.getMd res.2 with parent := pd.1 }
               let h5 := h4.setMd pd.1
                 { res.1.getMd pd.1 with
                     parent := (h.getMd head).parent,
                     left_child := (h.getMd head).left_child,
                     right_child := res.2 }
               (h5, pd.1)) := by
            conv_lhs => rw [TreeHeap.insert_node]
            try dsimp only
            rw [if_neg hlge', if_neg hrge']
            rw [if_neg hcond]
            try rw [if_neg hcond]
            try rw [if_neg hcond]
          rw [hstep]
          clear hstep
          have hrec := ih h1x (h.getMd head).right_child pd.2 dr
            (BTree.node rv rl rr) habr1 hrge2 hq1
            (by rw [hlen1]; exact hq1lt) hqdr hrecsz.2
          have hCR := ins_chainCR_spec cmp h1x pd.1 pd.2
            (h.getMd head).left_child (h.getMd head).parent dr dl
            (BTree.node rv rl rr) (BTree.node lv ll lr)
            (TreeHeap.insert_node cmp fuel h1x (h.getMd head).right_child pd.2)
            (nodeAt h.pool pd.1).value
            { h.getMd pd.1 with size := (h.getMd head).size + 1 }
            _ _ _
            hp1 hq1 (by rw [hlen1]; exact hp1lt) hpq1 hrec habl1
            hpdr hpdl hqdl hdis.symm hnode1x
            (by rw [hMsz, hheadsz]; simp [BTree.size] <;> omega)
            rfl rfl rfl
          dsimp only at hCR ⊢
          obtain ⟨hCabs, hCunt, hClen, hCroot, hCfree⟩ := hCR
          refine ⟨?_, ?_, ?_, ?_, ?_⟩
          · have hdom : insert pd.1.toNat (dl ∪ insert pd.2.toNat dr) =
                insert nw.toNat d := by
              rw [hdeq]
              rcases hpd with ⟨_, hpde⟩ | ⟨_, hpde⟩ <;> rw [hpde] <;>
                ext x <;>
                simp only [Finset.mem_insert, Finset.mem_union] <;> tauto
            rw [hdom] at hCabs
            rw [hvq1] at hCabs
            have htree : BTree.node (nodeAt h.pool pd.1).value
                (BTree.node lv ll lr) (insAbs cmp (BTree.node rv rl rr)
                  (nodeAt h.pool pd.2).value) =
                insAbs cmp (BTree.node (nodeAt h.pool head).value
                  (BTree.node lv ll lr) (BTree.node rv rl rr))
                  (nodeAt h.pool nw).value := by
              rw [insAbs]
              try dsimp only
              rw [if_neg hgo]
              have h1 := congrArg Prod.fst hpdval
              have h2 := congrArg Prod.snd hpdval
              dsimp only at h1 h2
              rw [← h1, ← h2]
            rw [htree] at hCabs
            exact hCabs
          · intro k hkd hknw
            refine hCunt k ?_ ?_ ?_ ?_ |>.trans ?_
            · rcases hpd with ⟨_, hpde⟩ | ⟨_, hpde⟩ <;> rw [hpde]
              · exact fun hc => hknw (hc.symm ▸ rfl)
              · exact fun hc => hkd (hc ▸ hheadmem)
            · rcases hpd with ⟨_, hpde⟩ | ⟨_, hpde⟩ <;> rw [hpde]
              · exact fun hc => hkd (hc ▸ hheadmem)
              · exact fun hc => hknw (hc.symm ▸ rfl)
            · intro hc
              exact hkd (hdeq ▸ Finset.mem_insert_of_mem
                (Finset.mem_union_right _ hc))
            · intro hc
              exact hkd (hdeq ▸ Finset.mem_insert_of_mem
                (Finset.mem_union_left _ hc))
            · rw [hh1x]
              exact setMd_get_ne (by
                rintro ⟨_, hc⟩
                rcases hpd with ⟨_, hpde⟩ | ⟨_, hpde⟩ <;> rw [hpde] at hc
                · exact hknw (hc.symm ▸ rfl)
                · exact hkd (hc ▸ hheadmem))
          · rw [hClen, hlen1]
          · rw [hCroot, hh1x, setMd_root]
          · rw [hCfree, hh1x, setMd_free]


/-- The free list is sound: every free slot is a distinct in-range slot
outside the live tree's footprint. -/
def FreeOk (h : TreeHeap T) (d : Finset ℕ) : Prop :=
  (∀ f ∈ h.free_list, 0 ≤ f ∧ f.toNat < h.pool.length ∧ f.toNat ∉ d) ∧
  (h.free_list.map Int.toNat).Nodup

/-- A well-formed heap: the root abstracts to a comparator-ordered tree and
the free list is sound. -/
def HeapWf (cmp : T → T → Ordering) (h : TreeHeap T) (d : Finset ℕ)
    (t : BTree T) : Prop :=
  Abs h.pool h.root d t ∧ BTree.Ordered cmp t ∧ FreeOk h d

theorem new_wf (cmp : T → T → Ordering) (n : Nat) :
    HeapWf cmp (TreeHeap.new n : TreeHeap T) ∅ .nil := by
  refine ⟨Abs.nil _ (show (-1:Int) < 0 by norm_num), BTree.Ordered.nil,
    ?_, ?_⟩
  · intro f hf
    simp only [TreeHeap.new, List.mem_map, List.mem_range] at hf
    obtain ⟨m, hm, rfl⟩ := hf
    refine ⟨Int.ofNat_nonneg m, ?_, Finset.not_mem_empty _⟩
    simp [TreeHeap.new, List.length_replicate]
    omega
  · show (((List.range n).map Int.ofNat).map Int.toNat).Nodup
    rw [List.map_map]
    have : (Int.toNat ∘ Int.ofNat) = id := by
      funext m
      simp
    rw [this, List.map_id]
    exact List.nodup_range n

/-- `TreeHeap.insert` on a well-formed heap with a nonempty free list
succeeds, handing out the head of the free list and preserving
well-formedness with the value inserted. -/
theorem insert_wf (cmp : T → T → Ordering)
    (hgl : ∀ a b, cmp a b = .gt ↔ cmp b a = .lt)
    (htr : ∀ a b c, cmp a b ≠ .lt → cmp b c ≠ .lt → cmp a c ≠ .lt)
    (h : TreeHeap T) (d : Finset ℕ) (t : BTree T)
    (hwf : HeapWf cmp h d t) (v : T)
    (idx : HeapPtr) (rest : List HeapPtr)
    (hfree : h.free_list = idx :: rest) :
    ∃ h', h.insert cmp v = .ok (h', idx) ∧
      HeapWf cmp h' (insert idx.toNat d) (insAbs cmp t v) ∧
      h'.free_list = rest ∧
      h'.pool.length = h.pool.length := by
  obtain ⟨habs, hord, hfreeok, hnodup⟩ := hwf
  obtain ⟨hidx0, hidxlt, hidxd⟩ := hfreeok idx (by rw [hfree]; exact .head _)
  have hstep : h.insert cmp v =
      .ok ((({ h with free_list := rest } : TreeHeap T).setNode idx
          ⟨v, mdReset⟩).insert_impl cmp idx, idx) := by
    unfold TreeHeap.insert
    rw [hfree]
  rw [hstep]
  clear hstep
  set h2 := ({ h with free_list := rest } : TreeHeap T).setNode idx
    ⟨v, mdReset⟩ with hh2
  have hpool2 : h2.pool = h.pool.set idx.toNat ⟨v, mdReset⟩ := by
    rw [hh2, setNode_pool_nonneg hidx0]
  have hlen2 : h2.pool.length = h.pool.length := by
    rw [hpool2, List.length_set]
  have hroot2 : h2.root = h.root := by
    rw [hh2, setNode_root]
  have hfree2 : h2.free_list = rest := by
    rw [hh2, setNode_free]
  have habs2 : Abs h2.pool h.root d t := by
    rw [hpool2]
    refine abs_congr (List.length_set ..) habs ?_
    intro k hk
    refine slotShapeEq_of_get_eq (List.get?_set_ne _ _ ?_)
    intro hc
    exact hidxd (hc ▸ hk)
  have hnode2 : nodeAt h2.pool idx = ⟨v, mdReset⟩ := by
    rw [hpool2]
    exact nodeAt_set_self hidx0 hidxlt
  have hfreeok' : ∀ df : Finset ℕ, df ⊆ insert idx.toNat d →
      True := fun _ _ => trivial
  have hrestok : ∀ f ∈ rest, 0 ≤ f ∧
      f.toNat < h.pool.length ∧ f.toNat ∉ insert idx.toNat d := by
    intro f hf
    obtain ⟨h1, h2x, h3⟩ := hfreeok f (by rw [hfree]; exact .tail _ hf)
    refine ⟨h1, h2x, ?_⟩
    intro hc
    rcases Finset.mem_insert.1 hc with hc | hc
    · rw [hfree] at hnodup
      simp only [List.map_cons, List.nodup_cons] at hnodup
      exact hnodup.1 (hc ▸ List.mem_map_of_mem Int.toNat hf)
    · exact h3 hc
  have hnodup' : (rest.map Int.toNat).Nodup := by
    rw [hfree] at hnodup
    simp only [List.map_cons, List.nodup_cons] at hnodup
    exact hnodup.2
  unfold TreeHeap.insert_impl
  by_cases hroot : (0:Int) ≤ h2.root
  · rw [if_pos hroot]
    have hrootpos : (0:Int) ≤ h.root := hroot2 ▸ hroot
    have hins := insertNode_abs cmp h2.pool.length h2 h2.root idx d t
      (hroot2 ▸ habs2) hroot hidx0 (by rw [hlen2]; exact hidxlt) hidxd
      (by
        have := abs_size_le_length habs2
        omega)
    obtain ⟨hiabs, hiunt, hilen, hiroot, hifree⟩ := hins
    have hv2 : (nodeAt h2.pool idx).value = v := by
      rw [hnode2]
    rw [hv2] at hiabs
    refine ⟨_, rfl, ⟨?_, insAbs_ordered hgl htr t v hord, ?_, ?_⟩, ?_, ?_⟩
    · show Abs _ _ _ _
      exact hiabs
    · intro f hf
      show 0 ≤ f ∧ _ ∧ _
      have hf2 : f ∈ rest := by
        rw [← hfree2, ← hifree]
        exact hf
      obtain ⟨hx1, hx2, hx3⟩ := hrestok f hf2
      refine ⟨hx1, ?_, hx3⟩
      show f.toNat < (TreeHeap.insert_node cmp h2.pool.length h2 h2.root
        idx).1.pool.length
      rw [hilen, hlen2]
      exact hx2
    · show (List.map Int.toNat _).Nodup
      rw [hifree, hfree2]
      exact hnodup'
    · show _ = rest
      rw [hifree, hfree2]
    · show _ = h.pool.length
      rw [hilen, hlen2]
  · rw [if_neg hroot]
    have hrootneg : h.root < 0 := by
      rw [hroot2] at hroot
      exact Int.not_le.mp hroot
    obtain ⟨hd0, ht0⟩ := abs_neg habs hrootneg
    subst hd0 ht0
    have habsleaf : Abs h2.pool idx (insert idx.toNat ∅)
        (insAbs cmp .nil v) := by
      have hnl : Abs h2.pool (nodeAt h2.pool idx).md.left_child ∅
          (.nil : BTree T) := by
        rw [hnode2]
        exact Abs.nil _ (show (-1:Int) < 0 by norm_num)
      have hnr : Abs h2.pool (nodeAt h2.pool idx).md.right_child ∅
          (.nil : BTree T) := by
        rw [hnode2]
        exact Abs.nil _ (show (-1:Int) < 0 by norm_num)
      have := Abs.node idx hidx0 (by rw [hlen2]; exact hidxlt) ∅ ∅ .nil .nil
        hnl hnr (Finset.not_mem_empty _) (Finset.not_mem_empty _)
        (by simp) (by rw [hnode2]; simp [BTree.size, mdReset])
      have hval : (nodeAt h2.pool idx).value = v := by
        rw [hnode2]
      rw [hval] at this
      have hu : (∅ ∪ ∅ : Finset ℕ) = ∅ := by simp
      rw [hu] at this
      exact this
    refine ⟨_, rfl, ⟨habsleaf, ?_, ?_, ?_⟩, hfree2, hlen2⟩
    · exact BTree.Ordered.node v _ _ .nil .nil trivial trivial
    · intro f hf
      rw [hfree2] at hf
      obtain ⟨hx1, hx2, hx3⟩ := hrestok f hf
      refine ⟨hx1, ?_, hx3⟩
      show f.toNat < h2.pool.length
      rw [hlen2]
      exact hx2
    · rw [hfree2]
      exact hnodup'

/-- `pop` on a well-formed nonempty heap pops the root value and preserves
well-formedness on the merged remainder (the popped slot is held, claim
C10). -/
theorem pop_wf (cmp : T → T → Ordering)
    (hgl : ∀ a b, cmp a b = .gt ↔ cmp b a = .lt)
    (h : TreeHeap T) (d : Finset ℕ) {v : T} {tl tr : BTree T}
    (hwf : HeapWf cmp h d (.node v tl tr)) :
    ∃ (h' : TreeHeap T) (d' : Finset ℕ),
      h.pop cmp = some (h', v) ∧ d' ⊆ d ∧
      HeapWf cmp h' d' (mergeAbs cmp tl tr) ∧
      h'.pool.length = h.pool.length ∧
      h'.free_list = h.free_list := by
  obtain ⟨habs, hord, hfreeok, hnodup⟩ := hwf
  obtain ⟨h', dl, dr, hpop, hsub, habs', hlen', hfree'⟩ := pop_abs cmp h habs
  obtain ⟨hordl, hordr, _, _⟩ := ordered_node_inv hord
  refine ⟨h', dl ∪ dr, hpop, hsub, ⟨habs', mergeAbs_ordered hgl hordl hordr,
    ?_, ?_⟩, hlen', hfree'⟩
  · intro f hf
    rw [hfree'] at hf
    obtain ⟨h1, h2, h3⟩ := hfreeok f hf
    exact ⟨h1, by rw [hlen']; exact h2, fun hc => h3 (hsub hc)⟩
  · rw [hfree']
    exact hnodup

end Cix
